import Mathlib

/-! # PAA texture container codec: embedding and properties

A shallow embedding of the PAA codec (`src/src/paa.cpp`, `src/include/paa.h`,
`src/include/utils.h`, `src/include/image_loader.h`).

Conventions of the embedding.

* A byte is a `Nat` below 256, a byte buffer a `List Nat`.
* `uint16_t`, `uint32_t` values are `Nat`s; arithmetic that the source does in
  32 bits carries an explicit `% 2 ^ 32`, a narrowing store its own modulus.
* The host is little-endian (the source reads and writes integers through
  `reinterpret_cast<char*>`).
* `std::istream` is a record of the bytes not yet extracted and the `good()`
  flag.  A read that fails leaves its destination as it was; the content of
  an uninitialised destination (`T value;`) is drawn from the `junk` tape of
  the stream record, so that nothing is assumed about it.
* libsquish is not part of the repository: its two entry points are the
  fields of `Squish`, and the embedding only fixes the size of the
  `std::vector` that receives their output.
* Exceptions and non-returning runs are explicit outcomes.  Memory is unbounded: an
  allocation does not fail.
-/

namespace arma3

/-! ## Data model (`paa.h`, `image_loader.h`) -/

/-- The `enum class PAAFormat`. -/
inductive PAAFormat where
  | UNKNOWN
  | DXT1
  | DXT2
  | DXT3
  | DXT4
  | DXT5
  | RGBA4444
  | RGBA5551
  | RGBA8888
  | GRAY_ALPHA
  deriving DecidableEq, Repr

/-- The `struct MipMap`: `width`, `height` are `uint16_t`, `dataLength` is `uint32_t`. -/
structure MipMap where
  width : Nat
  height : Nat
  dataLength : Nat
  lzoCompressed : Bool := false
  data : List Nat
  deriving DecidableEq, Repr

/-- The `struct Tagg`: `signature` is a `std::string` (its bytes), `dataLength` a `uint32_t`. -/
structure Tagg where
  signature : List Nat
  dataLength : Nat
  data : List Nat
  deriving DecidableEq, Repr

/-- The `struct Palette`: `dataLength` is a `uint16_t`. -/
structure Palette where
  dataLength : Nat := 0
  data : List Nat := []
  deriving DecidableEq, Repr

/-- The `struct ImageData` returned by the image loader: `width`, `height` are `uint32_t`. -/
structure ImageData where
  width : Nat
  height : Nat
  data : List Nat
  deriving DecidableEq, Repr

/-- The state of a `std::istream`: the bytes not yet extracted, whether `good()` holds, and
the tape from which the content of uninitialised storage is drawn. -/
structure IStream where
  rest : List Nat
  good : Bool := true
  junk : List Nat := []
  deriving DecidableEq, Repr

/-- The data members of `class PAA`. -/
structure PAA where
  format : PAAFormat := PAAFormat.DXT5
  magicNumber : Nat := 0xFF05
  hasTransparency : Bool := false
  mipMaps : List MipMap := []
  taggs : List Tagg := []
  palette : Palette := {}
  averageRed : Nat := 0
  averageGreen : Nat := 0
  averageBlue : Nat := 0
  averageAlpha : Nat := 0
  inputStream : Option IStream := none
  deriving DecidableEq, Repr

/-- The exceptions the codec throws, and the trap of an integer division by zero. -/
inductive PAAError where
  | noInputStream
  | invalidMagic (magicNumber : Nat)
  | noMipmaps
  | lzoUnavailable
  | openFailed
  | divisionByZero
  deriving DecidableEq, Repr

/-- How a member function that changes the object ends: it returns, it throws (the object
keeps what was stored before the throw), or it never returns. -/
inductive Outcome where
  | ok (p : PAA)
  | threw (e : PAAError) (p : PAA)
  | loops
  deriving DecidableEq, Repr

/-- The constructor `PAA::PAA()`. -/
def PAA.new : PAA := { format := PAAFormat.DXT5, magicNumber := 0xFF05 }

/-- The constructor `PAA::PAA(const std::vector<uint8_t>& data)`: every member keeps its
default initialiser and the stream holds `data`. -/
def PAA.ofBytes (data : List Nat) (junk : List Nat) : PAA :=
  { inputStream := some { rest := data, junk := junk } }

/-- The accessor `hasAlpha()`. -/
def PAA.hasAlpha (p : PAA) : Bool := p.hasTransparency

/-! ## The tagg signatures, as the bytes of the string literals -/

/-- The bytes of `"GGATCGVA"`. -/
def GGATCGVA : List Nat := [0x47, 0x47, 0x41, 0x54, 0x43, 0x47, 0x56, 0x41]

/-- The bytes of `"GGATCXAM"`. -/
def GGATCXAM : List Nat := [0x47, 0x47, 0x41, 0x54, 0x43, 0x58, 0x41, 0x4D]

/-- The bytes of `"GGATGALF"`. -/
def GGATGALF : List Nat := [0x47, 0x47, 0x41, 0x54, 0x47, 0x41, 0x4C, 0x46]

/-- The bytes of `"GGATSFFO"`. -/
def GGATSFFO : List Nat := [0x47, 0x47, 0x41, 0x54, 0x53, 0x46, 0x46, 0x4F]

/-! ## Byte I/O (`utils.h`) -/

/-- The value of a little-endian byte string. -/
def leValue : List Nat → Nat
  | [] => 0
  | b :: bs => b + 256 * leValue bs

/-- The `n` little-endian bytes of `v` (the object representation of an `n`-byte unsigned). -/
def leBytes : Nat → Nat → List Nat
  | 0, _ => []
  | n + 1, v => v % 256 :: leBytes n (v / 256)

/-- The `n` bytes found in uninitialised storage: drawn from the tape. -/
def IStream.uninit (s : IStream) (n : Nat) : List Nat × IStream :=
  ((List.range n).map (fun i => s.junk.getD i 0 % 256), { s with junk := s.junk.drop n })

/-- The call `stream.read(buf, buf.size())`: when the stream is good and holds enough bytes
they replace `buf`; when it is good and holds fewer, those are stored at the start of `buf`
and the stream stops being good; when it is not good nothing is stored. -/
def IStream.read (s : IStream) (buf : List Nat) : List Nat × IStream :=
  if s.good then
    if buf.length ≤ s.rest.length then
      (s.rest.take buf.length, { s with rest := s.rest.drop buf.length })
    else
      (s.rest ++ buf.drop s.rest.length, { s with rest := [], good := false })
  else (buf, s)

/-- The call `stream.peek()`: the next byte, or `none` for `EOF` (at the end of a good
stream, which then stops being good, or on a stream that is not good). -/
def IStream.peek (s : IStream) : Option Nat × IStream :=
  if s.good then
    match s.rest with
    | b :: _ => (some b, s)
    | [] => (none, { s with good := false })
  else (none, s)

/-- The template `readBytes<T>(stream)` for an `n`-byte unsigned `T`: `T value;` is
uninitialised storage that `read` fills. -/
def readBytes (n : Nat) (s : IStream) : Nat × IStream :=
  let (value, s1) := s.uninit n
  let (value, s2) := s1.read value
  (leValue value, s2)

/-- The template `readBytes<uint8_t>(stream, count)`: `std::vector<T> data(count)` is
zero-filled storage that `read` fills. -/
def readBytesVec (s : IStream) (count : Nat) : List Nat × IStream :=
  s.read (List.replicate count 0)

/-- The function `readString(stream, length)`: a zero-filled buffer that `read` fills. -/
def readString (s : IStream) (length : Nat) : List Nat × IStream :=
  s.read (List.replicate length 0)

/-- The function `readBytesAsArmaUShort`: three one-byte reads, `(b3 << 16) | (b2 << 8) | b1`. -/
def readBytesAsArmaUShort (s : IStream) : Nat × IStream :=
  let (b1, s1) := readBytes 1 s
  let (b2, s2) := readBytes 1 s1
  let (b3, s3) := readBytes 1 s2
  ((b3 <<< 16) ||| (b2 <<< 8) ||| b1, s3)

/-- The template `peekBytes<uint16_t>`: `tellg`, `read`, `seekg` back.  The position is
restored only while the stream is good after the read. -/
def peekBytes (n : Nat) (s : IStream) : Nat × IStream :=
  let (value, s1) := s.uninit n
  let (value, s2) := s1.read value
  (leValue value, if s2.good then { s2 with rest := s1.rest } else s2)

/-- The template `writeBytes<T>(stream, value)` for an `n`-byte unsigned `T`. -/
def writeBytes (n : Nat) (value : Nat) : List Nat := leBytes n value

/-- The function `writeBytesAsArmaUShort`: the three low bytes, least significant first. -/
def writeBytesAsArmaUShort (value : Nat) : List Nat :=
  [value &&& 0xFF, (value >>> 8) &&& 0xFF, (value >>> 16) &&& 0xFF]

/-! ## libsquish (external) and the DXT wrappers -/

/-- The two entry points of libsquish that the codec calls; `flags` is `kDxt1` or `kDxt5`.
`CompressImage rgba width height flags` is the block stream written to the output pointer,
`DecompressImage width height blocks flags` the RGBA bytes written to the output pointer. -/
structure Squish where
  CompressImage : List Nat → Nat → Nat → Nat → List Nat
  DecompressImage : Nat → Nat → List Nat → Nat → List Nat

/-- The flag `squish::kDxt1`. -/
def kDxt1 : Nat := 1

/-- The flag `squish::kDxt5`. -/
def kDxt5 : Nat := 4

/-- A `std::vector<uint8_t>` of `size` zero bytes after a library call wrote `written` at its
start: the vector keeps its size, so only the first `size` bytes written belong to it. -/
def filled (size : Nat) (written : List Nat) : List Nat :=
  (written ++ List.replicate size 0).take size

/-- The method `PAA::compressDXT1`. -/
def compressDXT1 (sq : Squish) (mipmap : MipMap) : MipMap :=
  let compressedSize := mipmap.dataLength / 8
  let compressed := filled compressedSize
    (sq.CompressImage mipmap.data mipmap.width mipmap.height kDxt1)
  { mipmap with data := compressed, dataLength := compressedSize }

/-- The method `PAA::compressDXT5`. -/
def compressDXT5 (sq : Squish) (mipmap : MipMap) : MipMap :=
  let compressedSize := mipmap.dataLength / 4
  let compressed := filled compressedSize
    (sq.CompressImage mipmap.data mipmap.width mipmap.height kDxt5)
  { mipmap with data := compressed, dataLength := compressedSize }

/-- The method `PAA::decompressDXT1`. -/
def decompressDXT1 (sq : Squish) (mipmap : MipMap) : MipMap :=
  let uncompressedSize := mipmap.dataLength * 8 % 2 ^ 32
  let uncompressed := filled uncompressedSize
    (sq.DecompressImage mipmap.width mipmap.height mipmap.data kDxt1)
  { mipmap with data := uncompressed, dataLength := uncompressedSize }

/-- The method `PAA::decompressDXT5`. -/
def decompressDXT5 (sq : Squish) (mipmap : MipMap) : MipMap :=
  let uncompressedSize := mipmap.dataLength * 4 % 2 ^ 32
  let uncompressed := filled uncompressedSize
    (sq.DecompressImage mipmap.width mipmap.height mipmap.data kDxt5)
  { mipmap with data := uncompressed, dataLength := uncompressedSize }

/-! ## `PAA::readPAA` -/

/-- The `switch (magicNumber)` of `readPAA`: `none` is the `default:` branch. -/
def formatOfMagic (magicNumber : Nat) : Option PAAFormat :=
  if magicNumber = 0xFF01 then some PAAFormat.DXT1
  else if magicNumber = 0xFF02 then some PAAFormat.DXT2
  else if magicNumber = 0xFF03 then some PAAFormat.DXT3
  else if magicNumber = 0xFF04 then some PAAFormat.DXT4
  else if magicNumber = 0xFF05 then some PAAFormat.DXT5
  else if magicNumber = 0x4444 then some PAAFormat.RGBA4444
  else if magicNumber = 0x1555 then some PAAFormat.RGBA5551
  else if magicNumber = 0x8888 then some PAAFormat.RGBA8888
  else if magicNumber = 0x8080 then some PAAFormat.GRAY_ALPHA
  else none

/-- The step `// Decompress DXT` of the mipmap loop of `readPAA`: `decompressDXT1` for
DXT1, `decompressDXT5` for DXT5, nothing for the other formats. -/
def decompressDXT (sq : Squish) (format : PAAFormat) (mipmap : MipMap) : MipMap :=
  if format = PAAFormat.DXT1 then decompressDXT1 sq mipmap
  else if format = PAAFormat.DXT5 then decompressDXT5 sq mipmap
  else mipmap

/-- The body of the mipmap loop of `readPAA` up to `mipmap.data = ...`: the four reads
that fill the local `MipMap mipmap;`. -/
def readMipMap (s : IStream) : MipMap × IStream :=
  let (width, s1) := readBytes 2 s
  let (height, s2) := readBytes 2 s1
  let (dataLength, s3) := readBytesAsArmaUShort s2
  let (data, s4) := readBytesVec s3 dataLength
  ({ width := width, height := height, dataLength := dataLength, data := data }, s4)

/-- The loop `while (peekBytes<uint16_t>(stream) != 0)` of `readPAA` and the return that
follows it; `fuel` bounds the number of times the condition is evaluated. -/
def readMipMaps (sq : Squish) : Nat → IStream → PAA → Outcome
  | 0, _, _ => Outcome.loops
  | fuel + 1, s, p =>
    let (next, s0) := peekBytes 2 s
    if next ≠ 0 then
      let (mipmap, s1) := readMipMap s0
      if mipmap.width &&& 0x8000 ≠ 0 then
        -- `decompressLZO` throws; the local `mipmap` is never pushed
        Outcome.threw PAAError.lzoUnavailable { p with inputStream := some s1 }
      else
        readMipMaps sq fuel s1
          { p with mipMaps := p.mipMaps ++ [decompressDXT sq p.format mipmap] }
    else
      Outcome.ok { p with inputStream := some s0 }

/-- The palette part of `readPAA`, followed by the mipmap loop. -/
def readPalette (sq : Squish) (fuel : Nat) (s : IStream) (p : PAA) : Outcome :=
  let (dataLength, s1) := readBytes 2 s
  if dataLength > 0 then
    let (data, s2) := readBytesVec s1 dataLength
    readMipMaps sq fuel s2 { p with palette := { dataLength := dataLength, data := data } }
  else
    readMipMaps sq fuel s1 { p with palette := { p.palette with dataLength := dataLength } }

/-- The body of the tagg loop of `readPAA` up to `tagg.data = ...`: the three reads that
fill the local `Tagg tagg;`. -/
def readTagg (s : IStream) : Tagg × IStream :=
  let (signature, s1) := readString s 8
  let (dataLength, s2) := readBytes 4 s1
  let (data, s3) := readBytesVec s2 dataLength
  ({ signature := signature, dataLength := dataLength, data := data }, s3)

/-- The loop `while (stream.peek() != 0)` of `readPAA` and everything after it; `fuel`
bounds the number of times a loop condition is evaluated. -/
def readTaggs (sq : Squish) : Nat → IStream → PAA → Outcome
  | 0, _, _ => Outcome.loops
  | fuel + 1, s, p =>
    let (next, s0) := s.peek
    if next ≠ some 0 then
      let (tagg, s1) := readTagg s0
      readTaggs sq fuel s1
        { p with taggs := p.taggs ++ [tagg],
                 hasTransparency :=
                   if tagg.signature = GGATGALF then true else p.hasTransparency }
    else
      readPalette sq fuel s0 p

/-- The method `PAA::readPAA`. -/
def readPAA (sq : Squish) (fuel : Nat) (p : PAA) : Outcome :=
  match p.inputStream with
  | none => Outcome.threw PAAError.noInputStream p
  | some stream =>
    let (magicNumber, s1) := readBytes 2 stream
    let p1 := { p with magicNumber := magicNumber, inputStream := some s1 }
    match formatOfMagic magicNumber with
    | none => Outcome.threw (PAAError.invalidMagic magicNumber) p1
    | some format => readTaggs sq fuel s1 { p1 with format := format }

/-! ## `PAA::calculateMipmapsAndTaggs` and `PAA::loadImage` -/

/-- The three nested `for` loops of the downsampling step: the pixel bytes are produced in
the order of the destination index `(y * newWidth + x) * 4 + c`, which is the order in
which the loops run.  Source indices are computed in 32 bits; a byte outside `srcData`
reads as `0`. -/
def downsample (srcData : List Nat) (curWidth newWidth newHeight : Nat) : List Nat :=
  (List.range newHeight).flatMap fun y =>
    (List.range newWidth).flatMap fun x =>
      (List.range 4).map fun c =>
        let sx := x * 2 % 2 ^ 32
        let sy := y * 2 % 2 ^ 32
        let p1 := srcData.getD (((sy * curWidth + sx) * 4 + c) % 2 ^ 32) 0
        let p2 := srcData.getD (((sy * curWidth + sx + 1) * 4 + c) % 2 ^ 32) 0
        let p3 := srcData.getD ((((sy + 1) * curWidth + sx) * 4 + c) % 2 ^ 32) 0
        let p4 := srcData.getD ((((sy + 1) * curWidth + sx + 1) * 4 + c) % 2 ^ 32) 0
        (p1 + p2 + p3 + p4) / 4 % 256

/-- The body of the loop `while (std::min(curWidth, curHeight) > 4)` up to
`mipmap.dataLength = mipmap.data.size()`: the mipmap built from `srcData`, the pixels of
`generatedMips.back()`, whose sizes the loop holds in `curWidth`, `curHeight`. -/
def halved (srcData : List Nat) (curWidth curHeight : Nat) : MipMap :=
  let newWidth := curWidth / 2
  let newHeight := curHeight / 2
  let data := downsample srcData curWidth newWidth newHeight
  { width := newWidth % 2 ^ 16, height := newHeight % 2 ^ 16,
    data := data, dataLength := data.length % 2 ^ 32 }

/-- The pixels of `generatedMips.back()`. -/
def backData (generatedMips : List MipMap) : List Nat :=
  match generatedMips.getLast? with
  | some m => m.data
  | none => []

/-- The loop `while (std::min(curWidth, curHeight) > 4)` of `calculateMipmapsAndTaggs`;
`fuel` bounds the number of times the condition is evaluated, `none` is running out of it. -/
def generateMips : Nat → Nat → Nat → List MipMap → Option (List MipMap)
  | 0, _, _, _ => none
  | fuel + 1, curWidth, curHeight, generatedMips =>
    if min curWidth curHeight > 4 then
      let mipmap := halved (backData generatedMips) curWidth curHeight
      generateMips fuel (curWidth / 2) (curHeight / 2) (generatedMips ++ [mipmap])
    else some generatedMips

/-- The loop `for (size_t i = 0; i < data.size(); i += 4)` for one of the four 32-bit
accumulators: channel `c` is the byte at `i + c`, and a byte outside `data` reads as `0`. -/
def accumulate (data : List Nat) (c : Nat) (average : Nat) : Nat :=
  (List.range ((data.length + 3) / 4)).foldl
    (fun acc k => (acc + data.getD (4 * k + c) 0) % 2 ^ 32) average

/-- The method `PAA::calculateMipmapsAndTaggs`.  The halving loop is given `curWidth + 1`
evaluations of its condition. -/
def calculateMipmapsAndTaggs (p : PAA) : Outcome :=
  match p.mipMaps with
  | [] => Outcome.threw PAAError.noMipmaps p
  | top :: _ =>
    match generateMips (top.width + 1) top.width top.height [top] with
    | none => Outcome.loops
    | some generatedMips =>
      match generatedMips with
      | [] => Outcome.loops
      | m0 :: _ =>
        let sumRed := accumulate m0.data 0 p.averageRed
        let sumGreen := accumulate m0.data 1 p.averageGreen
        let sumBlue := accumulate m0.data 2 p.averageBlue
        let sumAlpha := accumulate m0.data 3 p.averageAlpha
        let pixelCount := m0.width * m0.height % 2 ^ 32
        if pixelCount = 0 then
          Outcome.threw PAAError.divisionByZero
            { p with mipMaps := generatedMips, averageRed := sumRed, averageGreen := sumGreen,
                     averageBlue := sumBlue, averageAlpha := sumAlpha }
        else
          let averageRed := sumRed / pixelCount
          let averageGreen := sumGreen / pixelCount
          let averageBlue := sumBlue / pixelCount
          let averageAlpha := sumAlpha / pixelCount
          let taggAvg : Tagg :=
            { signature := GGATCGVA,
              data := [averageRed % 256, averageGreen % 256, averageBlue % 256,
                       averageAlpha % 256],
              dataLength := 4 }
          let taggMax : Tagg :=
            { signature := GGATCXAM, data := [0xFF, 0xFF, 0xFF, 0xFF], dataLength := 4 }
          let taggFlag : Tagg :=
            { signature := GGATGALF, data := [0x01, 0xFF, 0xFF, 0xFF], dataLength := 4 }
          let p1 : PAA :=
            { p with mipMaps := generatedMips, averageRed := averageRed,
                     averageGreen := averageGreen, averageBlue := averageBlue,
                     averageAlpha := averageAlpha }
          if averageAlpha ≠ 255 then
            Outcome.ok { p1 with hasTransparency := true, taggs := [taggAvg, taggMax, taggFlag] }
          else
            Outcome.ok { p1 with taggs := [taggAvg, taggMax] }

/-- The method `PAA::loadImage`, from the point where `ImageLoader::load` has returned
`img`: the 32-bit sizes of the image are stored in the 16-bit fields of the mipmap. -/
def loadImage (img : ImageData) (p : PAA) : Outcome :=
  let mipmap : MipMap :=
    { width := img.width % 2 ^ 16, height := img.height % 2 ^ 16,
      data := img.data, dataLength := img.data.length % 2 ^ 32 }
  calculateMipmapsAndTaggs { p with mipMaps := [mipmap] }

/-! ## `PAA::writePAA` -/

/-- One tagg as written: `writeString(signature)`, `writeBytes(dataLength)`,
`writeBytes(data)`. -/
structure WrittenTagg where
  signature : List Nat
  dataLength : List Nat
  data : List Nat
  deriving DecidableEq, Repr

/-- One mipmap as written: `writeBytes(width)`, `writeBytes(height)`,
`writeBytesAsArmaUShort(dataLength)`, `writeBytes(data)`. -/
structure WrittenMip where
  width : List Nat
  height : List Nat
  dataLength : List Nat
  data : List Nat
  deriving DecidableEq, Repr

/-- What `writePAA` writes to the output stream, one field per write, in the order of the
writes. -/
structure PAAFile where
  magicNumber : List Nat
  taggs : List WrittenTagg
  taggOffs : WrittenTagg
  paletteLength : List Nat
  mips : List WrittenMip
  terminator : List Nat
  deriving DecidableEq, Repr

/-- The bytes of a written tagg. -/
def WrittenTagg.bytes (t : WrittenTagg) : List Nat := t.signature ++ t.dataLength ++ t.data

/-- The bytes of a mipmap header. -/
def WrittenMip.header (m : WrittenMip) : List Nat := m.width ++ m.height ++ m.dataLength

/-- The bytes of a written mipmap. -/
def WrittenMip.bytes (m : WrittenMip) : List Nat := m.header ++ m.data

/-- The bytes written before the first mipmap. -/
def PAAFile.preamble (f : PAAFile) : List Nat :=
  f.magicNumber ++ f.taggs.flatMap WrittenTagg.bytes ++ f.taggOffs.bytes ++ f.paletteLength

/-- The emitted file. -/
def PAAFile.bytes (f : PAAFile) : List Nat :=
  f.preamble ++ f.mips.flatMap WrittenMip.bytes ++ f.terminator

/-- The byte position, counted from the start of the emitted file, at which the header of
mipmap `i` begins. -/
def PAAFile.mipHeaderPos (f : PAAFile) (i : Nat) : Nat :=
  f.preamble.length + ((f.mips.take i).flatMap WrittenMip.bytes).length

/-- The `i`-th little-endian 32-bit slot of the payload of the offsets tagg. -/
def PAAFile.offsetSlot (f : PAAFile) (i : Nat) : Nat :=
  leValue ((f.taggOffs.data.drop (4 * i)).take 4)

/-- How `writePAA` ends: it returns having written `file`, it throws, or it never returns. -/
inductive WriteOutcome where
  | ok (p : PAA) (file : PAAFile)
  | threw (e : PAAError) (p : PAA)
  | loops
  deriving DecidableEq, Repr

/-- The loop `for (const auto& tagg : taggs) offset += 8 + 4 + tagg.dataLength;`. -/
def taggsOffset (taggs : List Tagg) (offset : Nat) : Nat :=
  taggs.foldl (fun offset tagg => (offset + (8 + 4 + tagg.dataLength)) % 2 ^ 32) offset

/-- The loop over `encodedMips` that fills `taggOffs.data`: four bytes of `mipOffset` are
pushed for each mipmap, then `offset += 2 + 2 + 3 + mip.dataLength`. -/
def offsetsData : List MipMap → Nat → List Nat → List Nat
  | [], _, data => data
  | mip :: mips, offset, data =>
    let mipOffset := offset
    offsetsData mips ((offset + (2 + 2 + 3 + mip.dataLength)) % 2 ^ 32)
      (data ++ [mipOffset &&& 0xFF, (mipOffset >>> 8) &&& 0xFF, (mipOffset >>> 16) &&& 0xFF,
                (mipOffset >>> 24) &&& 0xFF])

/-- The writes of one tagg. -/
def writeTagg (tagg : Tagg) : WrittenTagg :=
  { signature := tagg.signature, dataLength := writeBytes 4 tagg.dataLength, data := tagg.data }

/-- The writes of one mipmap. -/
def writeMip (mip : MipMap) : WrittenMip :=
  let width := if mip.lzoCompressed then mip.width ||| 0x8000 else mip.width
  { width := writeBytes 2 width, height := writeBytes 2 mip.height,
    dataLength := writeBytesAsArmaUShort mip.dataLength, data := mip.data }

/-- The part of `writePAA` after the regeneration of a short pyramid.  `sinkOpens` says
whether the `std::ofstream` could be opened. -/
def writeEncoded (sq : Squish) (sinkOpens : Bool) (p : PAA) (targetFormat : PAAFormat) :
    WriteOutcome :=
  let format :=
    if targetFormat = PAAFormat.UNKNOWN then
      (if p.hasTransparency then PAAFormat.DXT5 else PAAFormat.DXT1)
    else targetFormat
  let magicNumber :=
    if format = PAAFormat.DXT5 then 0xFF05
    else if format = PAAFormat.DXT1 then 0xFF01
    else p.magicNumber
  let encodedMips :=
    if format = PAAFormat.DXT5 then p.mipMaps.map (compressDXT5 sq)
    else if format = PAAFormat.DXT1 then p.mipMaps.map (compressDXT1 sq)
    else p.mipMaps
  let p1 := { p with format := format, magicNumber := magicNumber }
  let offset := taggsOffset p1.taggs 2
  let offset := (offset + (8 + 4 + 16 * 4)) % 2 ^ 32
  let offset := (offset + 2) % 2 ^ 32
  let offsData := offsetsData encodedMips offset []
  let taggOffs : Tagg :=
    { signature := GGATSFFO, data := offsData, dataLength := offsData.length % 2 ^ 32 }
  if sinkOpens then
    WriteOutcome.ok p1
      { magicNumber := writeBytes 2 p1.magicNumber,
        taggs := p1.taggs.map writeTagg,
        taggOffs := writeTagg taggOffs,
        paletteLength := writeBytes 2 p1.palette.dataLength,
        mips := encodedMips.map writeMip,
        terminator := writeBytes 2 0 ++ writeBytes 2 0 ++ writeBytes 2 0 }
  else WriteOutcome.threw PAAError.openFailed p1

/-- The method `PAA::writePAA`. -/
def writePAA (sq : Squish) (sinkOpens : Bool) (p : PAA) (targetFormat : PAAFormat) :
    WriteOutcome :=
  if p.mipMaps.length ≤ 1 then
    match calculateMipmapsAndTaggs p with
    | Outcome.ok p1 => writeEncoded sq sinkOpens p1 targetFormat
    | Outcome.threw e p1 => WriteOutcome.threw e p1
    | Outcome.loops => WriteOutcome.loops
  else writeEncoded sq sinkOpens p targetFormat

/-! ## Call sequences -/

/-- The conversion of `main.cpp`: `arma3::PAA paa; paa.loadImage(input);
paa.writePAA(output, format);`, from the point where the image loader has returned `img`. -/
def convert (sq : Squish) (sinkOpens : Bool) (img : ImageData) (format : PAAFormat) :
    WriteOutcome :=
  match loadImage img PAA.new with
  | Outcome.ok p => writePAA sq sinkOpens p format
  | Outcome.threw e p => WriteOutcome.threw e p
  | Outcome.loops => WriteOutcome.loops

/-- The sequence `PAA paa(data); paa.readPAA(); paa.writePAA(output, format);`. -/
def reencode (sq : Squish) (fuel : Nat) (sinkOpens : Bool) (data junk : List Nat)
    (format : PAAFormat) : WriteOutcome :=
  match readPAA sq fuel (PAA.ofBytes data junk) with
  | Outcome.ok p => writePAA sq sinkOpens p format
  | Outcome.threw e p => WriteOutcome.threw e p
  | Outcome.loops => WriteOutcome.loops

/-- The file written, when `writePAA` returned. -/
def WriteOutcome.file : WriteOutcome → Option PAAFile
  | WriteOutcome.ok _ f => some f
  | _ => none

/-! ## Notions of the specification -/

/-- The sum of channel `c` over the first `n` pixels of an RGBA buffer. -/
def channelSum (data : List Nat) (n c : Nat) : Nat :=
  ((List.range n).map (fun k => data.getD (4 * k + c) 0)).sum

/-- The truncated integer mean of channel `c` over the `n` pixels of an RGBA buffer. -/
def channelMean (data : List Nat) (n c : Nat) : Nat := channelSum data n c / n

/-- The table of magic words of the container and the pixel format each one identifies. -/
def magicTable : List (Nat × PAAFormat) :=
  [(0xFF01, PAAFormat.DXT1), (0xFF02, PAAFormat.DXT2), (0xFF03, PAAFormat.DXT3),
   (0xFF04, PAAFormat.DXT4), (0xFF05, PAAFormat.DXT5), (0x4444, PAAFormat.RGBA4444),
   (0x1555, PAAFormat.RGBA5551), (0x8888, PAAFormat.RGBA8888),
   (0x8080, PAAFormat.GRAY_ALPHA)]

/-- The record `Tagg := u8[8] signature, u32 length, u8[length] payload` of the binary
format. -/
def encodeTagg (t : Tagg) : List Nat := t.signature ++ leBytes 4 t.dataLength ++ t.data

/-- The record `Mip := u16 widthWithFlag, u16 height, u24 dataLength, u8[dataLength] payload`
of the binary format. -/
def encodeMip (m : MipMap) : List Nat :=
  leBytes 2 m.width ++ leBytes 2 m.height ++ leBytes 3 m.dataLength ++ m.data

/-- The content of a PAA file: the magic word, the taggs, the palette bytes and the
mipmaps as stored. -/
structure PAAContent where
  magic : Nat
  taggs : List Tagg
  palette : List Nat
  mips : List MipMap
  deriving DecidableEq, Repr

/-- The layout `File := u16 magic, Tagg*, u16 paletteLen, u8[paletteLen] palette, Mip*,
u16 0, u16 0, u16 0` of the binary format. -/
def PAAContent.encode (c : PAAContent) : List Nat :=
  leBytes 2 c.magic ++ (c.taggs.flatMap encodeTagg ++ (leBytes 2 c.palette.length ++
    (c.palette ++ (c.mips.flatMap encodeMip ++ [0, 0, 0, 0, 0, 0]))))

/-- A tagg record that a file can hold: an 8-byte signature that does not start with a
zero byte (a zero byte ends the tagg list), and a 32-bit length equal to the payload size. -/
def Tagg.WellFormed (t : Tagg) : Prop :=
  t.signature.length = 8 ∧ t.signature.head? ≠ some 0 ∧
  t.dataLength = t.data.length ∧ t.dataLength < 2 ^ 32

/-- A mipmap record that a file can hold without the LZO flag: a nonzero width word with
bit 15 clear, a 16-bit height and a 24-bit length equal to the payload size. -/
def MipMap.Stored (m : MipMap) : Prop :=
  0 < m.width ∧ m.width < 2 ^ 15 ∧ m.height < 2 ^ 16 ∧
  m.dataLength = m.data.length ∧ m.dataLength < 2 ^ 24 ∧ m.lzoCompressed = false

/-- A well-formed file without LZO-flagged mipmaps: a magic word of the table, well-formed
taggs, a palette whose 16-bit length has a zero low byte (the byte that ends the tagg
list), and stored mipmaps. -/
def PAAContent.WellFormed (c : PAAContent) : Prop :=
  (formatOfMagic c.magic).isSome = true ∧ (∀ t ∈ c.taggs, t.WellFormed) ∧
  c.palette.length < 2 ^ 16 ∧ c.palette.length % 256 = 0 ∧ (∀ m ∈ c.mips, m.Stored)

/-- The object `p1` holds what `p` held and what was parsed since: the same format and
magic word, the tagg list and the mipmap list of `p` with entries appended, and
`hasTransparency` still set when it was. -/
def Grown (p p1 : PAA) : Prop :=
  p1.format = p.format ∧ p1.magicNumber = p.magicNumber ∧
  (∃ taggs, p1.taggs = p.taggs ++ taggs) ∧ (∃ mipMaps, p1.mipMaps = p.mipMaps ++ mipMaps) ∧
  (p.hasTransparency = true → p1.hasTransparency = true)

/-- The property `P` holds of the way the call ended (the exception thrown, if any, and
the object after the call), whenever the call ended. -/
def Outcome.Holds (P : Option PAAError → PAA → Prop) : Outcome → Prop
  | Outcome.ok p => P none p
  | Outcome.threw e p => P (some e) p
  | Outcome.loops => True

/-- What holds when the part of `readPAA` that follows the magic word ends, started on
`p`: the only exception is that of an LZO-flagged mipmap, and the object holds what `p`
held and what was parsed since. -/
def ReadInv (p : PAA) (e : Option PAAError) (p1 : PAA) : Prop :=
  (e = none ∨ e = some PAAError.lzoUnavailable) ∧ Grown p p1

/-- A signature that `calculateMipmapsAndTaggs` or `writePAA` generates. -/
def isComputedSignature (signature : List Nat) : Bool :=
  signature = GGATCGVA || signature = GGATCXAM || signature = GGATGALF || signature = GGATSFFO

/-- Level `b` is what one turn of the halving loop of `calculateMipmapsAndTaggs` builds
from level `a`: the smaller side of `a` is above 4 and `b` is the halved copy of `a`. -/
def HalvedFrom (a b : MipMap) : Prop :=
  min a.width a.height > 4 ∧ b = halved a.data a.width a.height

/-- An uncompressed RGBA mipmap: sizes that fit 16 bits, a buffer of `4 * width * height`
bytes, and a 32-bit `dataLength` equal to the buffer size. -/
def MipMap.Rgba (m : MipMap) : Prop :=
  m.width < 2 ^ 16 ∧ m.height < 2 ^ 16 ∧ m.data.length = 4 * m.width * m.height ∧
  m.dataLength = m.data.length ∧ m.dataLength < 2 ^ 32 ∧ (∀ b ∈ m.data, b < 256) ∧
  m.lzoCompressed = false

/-- The bytes of a file up to and including its mipmaps, followed by `tail`. -/
def PAAContent.encodeThen (c : PAAContent) (tail : List Nat) : List Nat :=
  leBytes 2 c.magic ++ (c.taggs.flatMap encodeTagg ++ (leBytes 2 c.palette.length ++
    (c.palette ++ (c.mips.flatMap encodeMip ++ tail))))

/-- The number of 4 by 4 blocks that cover `width` by `height` pixels:
`ceil(width / 4) * ceil(height / 4)`. -/
def blocks (width height : Nat) : Nat := ((width + 3) / 4) * ((height + 3) / 4)

/-- The mipmap that `loadImage` builds from `img` and pushes as the only element of
`mipMaps` before it calls `calculateMipmapsAndTaggs`. -/
def loadedTop (img : ImageData) : MipMap :=
  { width := img.width % 2 ^ 16, height := img.height % 2 ^ 16,
    data := img.data, dataLength := img.data.length % 2 ^ 32 }

/-! ## Concrete inputs -/

/-- An image of `width * height` pixels, all equal to `pixel`. -/
def uniformImage (width height : Nat) (pixel : List Nat) : ImageData :=
  { width := width, height := height, data := (List.replicate (width * height) pixel).flatten }

/-- An opaque grey image of 8 by 8 pixels. -/
def grey8 : ImageData := uniformImage 8 8 [128, 128, 128, 255]

/-- An opaque grey image of 4 by 4 pixels. -/
def grey4 : ImageData := uniformImage 4 4 [128, 128, 128, 255]

/-- An opaque grey image of 16 by 16 pixels. -/
def grey16 : ImageData := uniformImage 16 16 [128, 128, 128, 255]

/-- An image of 4 by 4 pixels whose rows have the alphas 0, 64, 128, 255. -/
def gradient4 : ImageData :=
  { width := 4, height := 4,
    data := (List.replicate 4
      [10, 20, 30, 0, 10, 20, 30, 64, 10, 20, 30, 128, 10, 20, 30, 255]).flatten }

/-- A stand-in for libsquish that writes nothing to its output pointer. -/
def noSquish : Squish :=
  { CompressImage := fun _ _ _ _ => [], DecompressImage := fun _ _ _ _ => [] }

/-- The bytes of `"ABCDEFGH"`, a signature that the codec does not generate. -/
def ABCDEFGH : List Nat := [0x41, 0x42, 0x43, 0x44, 0x45, 0x46, 0x47, 0x48]

/-- An RGBA8888 file with the foreign tagg `ABCDEFGH` and one mipmap of 1 by 1 pixel. -/
def foreignOne : PAAContent :=
  { magic := 0x8888,
    taggs := [{ signature := ABCDEFGH, dataLength := 2, data := [9, 9] }],
    palette := [],
    mips := [{ width := 1, height := 1, dataLength := 4, data := [1, 2, 3, 4] }] }

/-- A DXT1 file with a `GGATGALF` tagg, a mipmap of 4 by 4 pixels, and a second mipmap
whose width word has the LZO bit set. -/
def lzoFlagged : List Nat :=
  [0x01, 0xFF] ++
  GGATGALF ++ [4, 0, 0, 0] ++ [1, 255, 255, 255] ++
  [0, 0] ++
  [4, 0, 4, 0, 8, 0, 0] ++ [0, 0, 0, 0, 0, 0, 0, 0] ++
  [0x02, 0x80, 2, 0, 8, 0, 0] ++ [0, 0, 0, 0, 0, 0, 0, 0] ++
  [0, 0, 0, 0, 0, 0]

/-- The state of a freshly constructed object bound to the bytes of `foreignOne`, after
`readPAA`. -/
def foreignOneRead : PAA :=
  { format := PAAFormat.RGBA8888, magicNumber := 0x8888,
    taggs := foreignOne.taggs, mipMaps := foreignOne.mips,
    inputStream := some { rest := [0, 0, 0, 0, 0, 0], good := true, junk := [] } }

/-- The state `foreignOneRead` after `calculateMipmapsAndTaggs`. -/
def foreignOneCalculated : PAA :=
  { foreignOneRead with
    hasTransparency := true,
    taggs := [{ signature := GGATCGVA, dataLength := 4, data := [1, 2, 3, 4] },
              { signature := GGATCXAM, dataLength := 4, data := [255, 255, 255, 255] },
              { signature := GGATGALF, dataLength := 4, data := [1, 255, 255, 255] }],
    averageRed := 1, averageGreen := 2, averageBlue := 3, averageAlpha := 4 }

/-- An RGBA8888 file with the foreign tagg `ABCDEFGH` between two computed taggs, and two
mipmaps (2 by 2 and 1 by 1 pixels). -/
def foreignTwo : PAAContent :=
  { magic := 0x8888,
    taggs := [{ signature := GGATCGVA, dataLength := 4, data := [1, 2, 3, 4] },
              { signature := ABCDEFGH, dataLength := 2, data := [9, 9] },
              { signature := GGATCXAM, dataLength := 4, data := [255, 255, 255, 255] }],
    palette := [],
    mips := [{ width := 2, height := 2, dataLength := 16,
               data := [1, 2, 3, 4, 1, 2, 3, 4, 1, 2, 3, 4, 1, 2, 3, 4] },
             { width := 1, height := 1, dataLength := 4, data := [1, 2, 3, 4] }] }

/-- The state of a fresh object after `loadImage` of `grey8`. -/
def grey8Loaded : PAA :=
  { PAA.new with
    mipMaps := [{ width := 8, height := 8, dataLength := 256, data := grey8.data },
                { width := 4, height := 4, dataLength := 64, data := grey4.data }],
    taggs := [{ signature := GGATCGVA, dataLength := 4, data := [128, 128, 128, 255] },
              { signature := GGATCXAM, dataLength := 4, data := [255, 255, 255, 255] }],
    averageRed := 128, averageGreen := 128, averageBlue := 128, averageAlpha := 255 }

/-- The start of a DXT1 file: a `GGATGALF` tagg, no palette, and one mipmap of 4 by 4
pixels stored in 8 bytes. -/
def dxt1Start : PAAContent :=
  { magic := 0xFF01,
    taggs := [{ signature := GGATGALF, dataLength := 4, data := [1, 255, 255, 255] }],
    palette := [],
    mips := [{ width := 4, height := 4, dataLength := 8, data := [0, 0, 0, 0, 0, 0, 0, 0] }] }

/-- An opaque grey image of 5 by 5 pixels. -/
def grey5 : ImageData := uniformImage 5 5 [128, 128, 128, 255]

/-- An opaque grey image of 2 by 2 pixels. -/
def grey2 : ImageData := uniformImage 2 2 [128, 128, 128, 255]

/-- The top mipmap that `loadImage` builds from `grey5`. -/
def grey5Top : MipMap := { width := 5, height := 5, dataLength := 100, data := grey5.data }

/-- A fresh object whose only mipmap is `grey5Top`. -/
def grey5Single : PAA := { PAA.new with mipMaps := [grey5Top] }

/-- The state of a fresh object after `loadImage` of `grey5`. -/
def grey5Loaded : PAA :=
  { PAA.new with
    mipMaps := [grey5Top, { width := 2, height := 2, dataLength := 16, data := grey2.data }],
    taggs := [{ signature := GGATCGVA, dataLength := 4, data := [128, 128, 128, 255] },
              { signature := GGATCXAM, dataLength := 4, data := [255, 255, 255, 255] }],
    averageRed := 128, averageGreen := 128, averageBlue := 128, averageAlpha := 255 }

/-- A fresh object whose only mipmap is the 8 by 8 grey image. -/
def grey8Single : PAA :=
  { PAA.new with mipMaps := [{ width := 8, height := 8, dataLength := 256, data := grey8.data }] }

/-- An opaque white image of 70000 by 10 pixels. -/
def wide : ImageData := uniformImage 70000 10 [255, 255, 255, 255]

/-- An opaque white image of 4096 by 4096 pixels. -/
def white4096 : ImageData := uniformImage 4096 4096 [255, 255, 255, 255]

/-- A DXT1 file with a mipmap of 5 by 5 pixels stored in 32 bytes and a mipmap of 2 by 2
pixels stored in 8 bytes: four blocks and one block of 8 bytes. -/
def dxt1Odd : PAAContent :=
  { magic := 0xFF01,
    taggs := [],
    palette := [],
    mips := [{ width := 5, height := 5, dataLength := 32, data := List.replicate 32 0 },
             { width := 2, height := 2, dataLength := 8, data := List.replicate 8 0 }] }

end arma3

/-! # Properties -/

namespace arma3

/-! ## Auxiliary lemmas -/

/-- Halving commutes with the minimum. -/
theorem min_div_two (a b : Nat) : min (a / 2) (b / 2) = min a b / 2 := by
  omega

/-- With more fuel than the current width the halving loop exits: it keeps what was
generated and appends `t` levels, `t` being the least number of halvings that bring
`min curWidth curHeight` down to at most 4. -/
theorem generateMips_spec (fuel : Nat) : ∀ (curWidth curHeight : Nat) (gen : List MipMap),
    curWidth < fuel →
    ∃ more, generateMips fuel curWidth curHeight gen = some (gen ++ more) ∧
      min curWidth curHeight / 2 ^ more.length ≤ 4 ∧
      ∀ j, j < more.length → 4 < min curWidth curHeight / 2 ^ j := by
  induction fuel with
  | zero => intro cw ch gen h; omega
  | succ fuel ih =>
    intro cw ch gen h
    by_cases hm : min cw ch > 4
    · have hlt : cw / 2 < fuel := by omega
      obtain ⟨more, hgen, hle, hall⟩ := ih (cw / 2) (ch / 2) _ hlt
      simp only [generateMips, hm, if_true]
      refine ⟨halved (backData gen) cw ch :: more, ?_, ?_, ?_⟩
      · rw [hgen]; simp
      · rw [min_div_two] at hle
        simpa [pow_succ, Nat.div_div_eq_div_mul, Nat.mul_comm] using hle
      · intro j hj
        cases j with
        | zero => simpa using hm
        | succ j =>
          have := hall j (by simpa using hj)
          rw [min_div_two] at this
          simpa [pow_succ, Nat.div_div_eq_div_mul, Nat.mul_comm] using this
    · refine ⟨[], ?_, ?_, ?_⟩
      · simp [generateMips, hm]
      · simpa using Nat.le_of_not_lt hm
      · intro j hj; simp at hj

/-- A 32-bit running sum that never reaches `2 ^ 32` is the plain sum. -/
theorem foldl_add_mod (f : Nat → Nat) (M : Nat) (l : List Nat) : ∀ init : Nat,
    init + (l.map f).sum < M →
    l.foldl (fun acc k => (acc + f k) % M) init = init + (l.map f).sum := by
  induction l with
  | nil => intro init _; simp
  | cons a l ih =>
    intro init h
    simp only [List.map_cons, List.sum_cons] at h
    have h1 : (init + f a) % M = init + f a := Nat.mod_eq_of_lt (by omega)
    simp only [List.foldl_cons, List.map_cons, List.sum_cons, h1]
    rw [ih (init + f a) (by omega)]
    omega

/-- A byte read from a buffer of bytes, or the `0` read outside it, is at most 255. -/
theorem getD_le_255 (data : List Nat) (hb : ∀ b ∈ data, b < 256) (i : Nat) :
    data.getD i 0 ≤ 255 := by
  rw [List.getD_eq_getElem?_getD]
  by_cases h : i < data.length
  · rw [List.getElem?_eq_getElem h]
    exact Nat.le_of_lt_succ (hb _ (List.getElem_mem h))
  · rw [List.getElem?_eq_none (Nat.le_of_not_lt h)]
    exact Nat.zero_le _

/-- A sum of `n` values of at most 255 is at most `255 * n`. -/
theorem sum_range_le (f : Nat → Nat) (hf : ∀ k, f k ≤ 255) (n : Nat) :
    ((List.range n).map f).sum ≤ 255 * n := by
  induction n with
  | zero => simp
  | succ n ih =>
    have := hf n
    simp [List.range_succ, List.sum_append]
    omega

/-- A sum of `n` values of at most 255 is `255 * n` exactly when each value is 255. -/
theorem sum_range_eq_iff (f : Nat → Nat) (hf : ∀ k, f k ≤ 255) (n : Nat) :
    ((List.range n).map f).sum = 255 * n ↔ ∀ k, k < n → f k = 255 := by
  induction n with
  | zero => simp
  | succ n ih =>
    have h1 := hf n
    have h2 := sum_range_le f hf n
    simp only [List.range_succ, List.map_append, List.sum_append, List.map_cons, List.map_nil,
      List.sum_cons, List.sum_nil, Nat.add_zero]
    constructor
    · intro h k hk
      have h3 : ((List.range n).map f).sum = 255 * n := by omega
      have h4 : f n = 255 := by omega
      rcases Nat.lt_succ_iff_lt_or_eq.mp hk with hk | hk
      · exact ih.mp h3 k hk
      · rw [hk]; exact h4
    · intro h
      have h3 := ih.mpr (fun k hk => h k (Nat.lt_succ_of_lt hk))
      have h4 := h n (Nat.lt_succ_self n)
      omega

/-- The sum of a channel over `n` pixels of a byte buffer is at most `255 * n`. -/
theorem channelSum_le (data : List Nat) (hb : ∀ b ∈ data, b < 256) (n c : Nat) :
    channelSum data n c ≤ 255 * n :=
  sum_range_le _ (fun _ => getD_le_255 data hb _) n

/-- The truncated mean of a channel of a byte buffer is at most 255. -/
theorem channelMean_le (data : List Nat) (hb : ∀ b ∈ data, b < 256) (n c : Nat) :
    channelMean data n c ≤ 255 := by
  unfold channelMean
  rcases Nat.eq_zero_or_pos n with h | h
  · simp [h]
  · exact (Nat.div_le_iff_le_mul_add_pred h).mpr (by have := channelSum_le data hb n c; omega)

/-- Starting from zero, the accumulation loop computes the channel sum over the `n` pixels
of a buffer of `4 * n` bytes, as long as `n` is at most `2 ^ 24`. -/
theorem accumulate_eq (data : List Nat) (hb : ∀ b ∈ data, b < 256) (n c : Nat)
    (hlen : data.length = 4 * n) (hn : n ≤ 2 ^ 24) :
    accumulate data c 0 = channelSum data n c := by
  have hk : (data.length + 3) / 4 = n := by omega
  have hs := channelSum_le data hb n c
  unfold accumulate
  unfold channelSum at hs ⊢
  rw [hk, foldl_add_mod _ _ _ 0 (by rw [Nat.zero_add]; omega), Nat.zero_add]

/-- What `calculateMipmapsAndTaggs` returns for a state whose top mipmap has sizes between
1 and 65535: the pyramid is the top mipmap followed by the generated levels, the taggs are
rebuilt from the accumulators, and `hasTransparency` is raised when the alpha average is
not 255. -/
theorem calculate_spec (p : PAA) (top : MipMap) (rest : List MipMap)
    (hp : p.mipMaps = top :: rest)
    (hw : 1 ≤ top.width) (hw2 : top.width < 2 ^ 16)
    (hh : 1 ≤ top.height) (hh2 : top.height < 2 ^ 16) :
    ∃ more p1,
      generateMips (top.width + 1) top.width top.height [top] = some (top :: more) ∧
      calculateMipmapsAndTaggs p = Outcome.ok p1 ∧
      p1.mipMaps = top :: more ∧
      p1.averageRed = accumulate top.data 0 p.averageRed / (top.width * top.height) ∧
      p1.averageGreen = accumulate top.data 1 p.averageGreen / (top.width * top.height) ∧
      p1.averageBlue = accumulate top.data 2 p.averageBlue / (top.width * top.height) ∧
      p1.averageAlpha = accumulate top.data 3 p.averageAlpha / (top.width * top.height) ∧
      p1.taggs =
        [{ signature := GGATCGVA, dataLength := 4,
           data := [p1.averageRed % 256, p1.averageGreen % 256, p1.averageBlue % 256,
                    p1.averageAlpha % 256] },
         { signature := GGATCXAM, dataLength := 4, data := [0xFF, 0xFF, 0xFF, 0xFF] }] ++
        (if p1.averageAlpha ≠ 255 then
          [{ signature := GGATGALF, dataLength := 4, data := [0x01, 0xFF, 0xFF, 0xFF] }]
         else []) ∧
      p1.hasTransparency = (p.hasTransparency || decide (p1.averageAlpha ≠ 255)) ∧
      p1.format = p.format ∧ p1.magicNumber = p.magicNumber ∧ p1.palette = p.palette := by
  obtain ⟨more, hgen, -, -⟩ := generateMips_spec (top.width + 1) top.width top.height [top]
    (Nat.lt_succ_self _)
  have hpc : top.width * top.height % 2 ^ 32 = top.width * top.height := by
    apply Nat.mod_eq_of_lt
    calc top.width * top.height < 2 ^ 16 * 2 ^ 16 := Nat.mul_lt_mul'' hw2 hh2
      _ = 2 ^ 32 := by norm_num
  have hpos : top.width * top.height ≠ 0 := Nat.mul_ne_zero (by omega) (by omega)
  simp only [List.singleton_append] at hgen
  suffices h : ∃ p1, calculateMipmapsAndTaggs p = Outcome.ok p1 ∧
      p1.mipMaps = top :: more ∧
      p1.averageRed = accumulate top.data 0 p.averageRed / (top.width * top.height) ∧
      p1.averageGreen = accumulate top.data 1 p.averageGreen / (top.width * top.height) ∧
      p1.averageBlue = accumulate top.data 2 p.averageBlue / (top.width * top.height) ∧
      p1.averageAlpha = accumulate top.data 3 p.averageAlpha / (top.width * top.height) ∧
      p1.taggs =
        [{ signature := GGATCGVA, dataLength := 4,
           data := [p1.averageRed % 256, p1.averageGreen % 256, p1.averageBlue % 256,
                    p1.averageAlpha % 256] },
         { signature := GGATCXAM, dataLength := 4, data := [0xFF, 0xFF, 0xFF, 0xFF] }] ++
        (if p1.averageAlpha ≠ 255 then
          [{ signature := GGATGALF, dataLength := 4, data := [0x01, 0xFF, 0xFF, 0xFF] }]
         else []) ∧
      p1.hasTransparency = (p.hasTransparency || decide (p1.averageAlpha ≠ 255)) ∧
      p1.format = p.format ∧ p1.magicNumber = p.magicNumber ∧ p1.palette = p.palette by
    obtain ⟨p1, h1, h2⟩ := h
    exact ⟨more, p1, hgen, h1, h2⟩
  unfold calculateMipmapsAndTaggs
  rw [hp]
  simp only [hgen, hpc, hpos, if_false]
  split
  · rename_i ha
    exact ⟨_, rfl, by simp [ha]⟩
  · rename_i ha
    simp only [ne_eq, Decidable.not_not] at ha
    exact ⟨_, rfl, by simp [ha]⟩


/-- The state `loadImage` hands to `calculateMipmapsAndTaggs`, for an image whose sizes fit
16 bits and whose buffer is shorter than `2 ^ 32` bytes. -/
theorem loadImage_eq (img : ImageData) (p : PAA)
    (hw : img.width < 2 ^ 16) (hh : img.height < 2 ^ 16) (hlen : img.data.length < 2 ^ 32) :
    loadImage img p = calculateMipmapsAndTaggs
      { p with mipMaps := [{ width := img.width, height := img.height,
                             dataLength := img.data.length, data := img.data }] } := by
  unfold loadImage
  rw [Nat.mod_eq_of_lt hw, Nat.mod_eq_of_lt hh, Nat.mod_eq_of_lt hlen]

/-- The pixel count and buffer length of an image of at most 4096 by 4096 pixels. -/
theorem image_bounds (w h : Nat) (hw : w ≤ 4096) (hh : h ≤ 4096) :
    w * h ≤ 2 ^ 24 ∧ 4 * w * h < 2 ^ 32 := by
  have h1 : w * h ≤ 4096 * 4096 := Nat.mul_le_mul hw hh
  constructor
  · norm_num; omega
  · rw [Nat.mul_assoc]; norm_num; omega

/-- C4: after `loadImage` of an RGBA image of `w` by `h` pixels, `1 ≤ w, h ≤ 4096`, on a
freshly constructed object, the top mipmap is the image and the tagg list starts with a
`GGATCGVA` tagg of length 4 whose payload is the truncated mean of each channel over the
`w * h` pixels, followed by a `GGATCXAM` tagg with payload `FF FF FF FF`. -/
theorem loadImage_average_taggs (img : ImageData)
    (hw : 1 ≤ img.width) (hw2 : img.width ≤ 4096)
    (hh : 1 ≤ img.height) (hh2 : img.height ≤ 4096)
    (hlen : img.data.length = 4 * img.width * img.height)
    (hb : ∀ b ∈ img.data, b < 256) :
    ∃ p more rest, loadImage img PAA.new = Outcome.ok p ∧
      p.mipMaps = { width := img.width, height := img.height,
                    dataLength := 4 * img.width * img.height, data := img.data } :: more ∧
      p.taggs =
        { signature := GGATCGVA, dataLength := 4,
          data := [channelSum img.data (img.width * img.height) 0 / (img.width * img.height),
                   channelSum img.data (img.width * img.height) 1 / (img.width * img.height),
                   channelSum img.data (img.width * img.height) 2 / (img.width * img.height),
                   channelSum img.data (img.width * img.height) 3 / (img.width * img.height)] } ::
        { signature := GGATCXAM, dataLength := 4, data := [0xFF, 0xFF, 0xFF, 0xFF] } :: rest := by
  obtain ⟨hn, hl⟩ := image_bounds img.width img.height hw2 hh2
  have hlen2 : img.data.length = 4 * (img.width * img.height) := by rw [hlen, Nat.mul_assoc]
  rw [loadImage_eq img PAA.new (by omega) (by omega) (by omega)]
  obtain ⟨more, p1, -, hok, hm, hr, hg, hbl, ha, ht, -⟩ :=
    calculate_spec
      { PAA.new with
        mipMaps := [{ width := img.width, height := img.height,
                      dataLength := img.data.length, data := img.data }] }
      _ [] rfl hw (by simp; omega) hh (by simp; omega)
  simp only [PAA.new] at hr hg hbl ha
  rw [accumulate_eq _ hb _ _ hlen2 hn] at hr hg hbl ha
  have m0 := channelMean_le img.data hb (img.width * img.height) 0
  have m1 := channelMean_le img.data hb (img.width * img.height) 1
  have m2 := channelMean_le img.data hb (img.width * img.height) 2
  have m3 := channelMean_le img.data hb (img.width * img.height) 3
  unfold channelMean at m0 m1 m2 m3
  refine ⟨p1, more,
    (if p1.averageAlpha ≠ 255 then
      [{ signature := GGATGALF, dataLength := 4, data := [0x01, 0xFF, 0xFF, 0xFF] }]
     else []), hok, ?_, ?_⟩
  · rw [hm, hlen]
  · rw [ht, hr, hg, hbl, ha, Nat.mod_eq_of_lt (by omega), Nat.mod_eq_of_lt (by omega),
      Nat.mod_eq_of_lt (by omega), Nat.mod_eq_of_lt (by omega)]
    rfl

/-- C5: after `loadImage` of an RGBA image of `w` by `h` pixels, `1 ≤ w, h ≤ 4096`, on a
freshly constructed object, a `GGATGALF` tagg is in the tagg list exactly when some pixel
of the image has alpha below 255, such a tagg has payload `01 FF FF FF`, `hasAlpha()` is
true exactly in that case, and the truncated alpha mean is below 255 exactly in that case. -/
theorem loadImage_flag_iff_pixel (img : ImageData)
    (hw : 1 ≤ img.width) (hw2 : img.width ≤ 4096)
    (hh : 1 ≤ img.height) (hh2 : img.height ≤ 4096)
    (hlen : img.data.length = 4 * img.width * img.height)
    (hb : ∀ b ∈ img.data, b < 256) :
    ∃ p, loadImage img PAA.new = Outcome.ok p ∧
      ((∃ t ∈ p.taggs, t.signature = GGATGALF) ↔
        ∃ k, k < img.width * img.height ∧ img.data.getD (4 * k + 3) 0 < 255) ∧
      (∀ t ∈ p.taggs, t.signature = GGATGALF →
        t.dataLength = 4 ∧ t.data = [0x01, 0xFF, 0xFF, 0xFF]) ∧
      (p.hasAlpha = true ↔
        ∃ k, k < img.width * img.height ∧ img.data.getD (4 * k + 3) 0 < 255) ∧
      (channelMean img.data (img.width * img.height) 3 < 255 ↔
        ∃ k, k < img.width * img.height ∧ img.data.getD (4 * k + 3) 0 < 255) := by
  obtain ⟨hn, hl⟩ := image_bounds img.width img.height hw2 hh2
  have hlen2 : img.data.length = 4 * (img.width * img.height) := by rw [hlen, Nat.mul_assoc]
  have hpos : 0 < img.width * img.height := Nat.mul_pos hw hh
  rw [loadImage_eq img PAA.new (by omega) (by omega) (by omega)]
  obtain ⟨more, p1, -, hok, -, -, -, -, ha, ht, htr, -⟩ :=
    calculate_spec
      { PAA.new with
        mipMaps := [{ width := img.width, height := img.height,
                      dataLength := img.data.length, data := img.data }] }
      _ [] rfl hw (by simp; omega) hh (by simp; omega)
  simp only [PAA.new] at ha htr
  rw [accumulate_eq _ hb _ _ hlen2 hn] at ha
  -- the truncated mean is 255 exactly when every alpha is 255
  have hle := channelSum_le img.data hb (img.width * img.height) 3
  have hall := sum_range_eq_iff (fun k => img.data.getD (4 * k + 3) 0)
    (fun _ => getD_le_255 img.data hb _) (img.width * img.height)
  have key : channelSum img.data (img.width * img.height) 3 / (img.width * img.height) ≠ 255 ↔
      ∃ k, k < img.width * img.height ∧ img.data.getD (4 * k + 3) 0 < 255 := by
    constructor
    · intro hne
      by_contra hex
      apply hne
      have h2 : ∀ k, k < img.width * img.height → img.data.getD (4 * k + 3) 0 = 255 := by
        intro k hk
        have h3 := getD_le_255 img.data hb (4 * k + 3)
        by_contra h4
        exact hex ⟨k, hk, by omega⟩
      have h5 : channelSum img.data (img.width * img.height) 3 = 255 * (img.width * img.height) :=
        hall.mpr h2
      rw [h5, Nat.mul_div_cancel _ hpos]
    · rintro ⟨k, hk, hlt⟩ heq
      have h6 : channelSum img.data (img.width * img.height) 3 ≠ 255 * (img.width * img.height) := by
        intro h7
        have := hall.mp h7 k hk
        simp only at this
        omega
      have h8 := Nat.div_mul_le_self (channelSum img.data (img.width * img.height) 3)
        (img.width * img.height)
      rw [heq] at h8
      omega
  have hmean := channelMean_le img.data hb (img.width * img.height) 3
  refine ⟨p1, hok, ?_, ?_, ?_, ?_⟩
  · rw [← key, ← ha, ht]
    by_cases hc : p1.averageAlpha = 255
    · simp [hc, GGATCGVA, GGATCXAM, GGATGALF]
    · simp [hc]
  · intro t hmem hsig
    rw [ht] at hmem
    by_cases hc : p1.averageAlpha = 255
    · simp [hc] at hmem
      rcases hmem with h | h <;> rw [h] at hsig <;> simp [GGATCGVA, GGATCXAM, GGATGALF] at hsig
    · simp [hc] at hmem
      rcases hmem with h | h | h
      · rw [h] at hsig; simp [GGATCGVA, GGATGALF] at hsig
      · rw [h] at hsig; simp [GGATCXAM, GGATGALF] at hsig
      · rw [h]; simp
  · rw [← key, ← ha, PAA.hasAlpha, htr]
    simp
  · rw [← key]
    unfold channelMean at hmean ⊢
    omega

/-- The buffer of a uniform image holds the bytes of its pixel only. -/
theorem uniformImage_bytes (w h : Nat) (px : List Nat) (hpx : ∀ b ∈ px, b < 256) :
    ∀ b ∈ (uniformImage w h px).data, b < 256 := by
  intro b hb
  simp only [uniformImage, List.mem_flatten, List.mem_replicate] at hb
  obtain ⟨l, ⟨-, rfl⟩, hl⟩ := hb
  exact hpx b hl

/-- The buffer of a uniform image holds one pixel for each position. -/
theorem uniformImage_length (w h : Nat) (px : List Nat) :
    (uniformImage w h px).data.length = w * h * px.length := by
  simp [uniformImage]

/-- Byte `c` of pixel `k` of a buffer of `n` equal pixels is byte `c` of the pixel. -/
theorem replicate_flatten_getD (px : List Nat) (c : Nat) (hc : c < px.length) (n : Nat) :
    ∀ k, k < n → ((List.replicate n px).flatten).getD (px.length * k + c) 0 = px.getD c 0 := by
  induction n with
  | zero => intro k hk; omega
  | succ n ih =>
    intro k hk
    rw [List.replicate_succ, List.flatten_cons]
    cases k with
    | zero => rw [Nat.mul_zero, Nat.zero_add, List.getD_append _ _ _ _ hc]
    | succ k =>
      have hle : px.length ≤ px.length * (k + 1) + c := by
        rw [Nat.mul_succ]; omega
      rw [List.getD_append_right _ _ _ _ hle]
      have : px.length * (k + 1) + c - px.length = px.length * k + c := by
        rw [Nat.mul_succ]; omega
      rw [this]
      exact ih k (by omega)

/-- The sum of a channel over a uniform image is the pixel count times the channel value. -/
theorem channelSum_uniform (w h : Nat) (px : List Nat) (hpx : px.length = 4) (c : Nat)
    (hc : c < 4) :
    channelSum (uniformImage w h px).data (w * h) c = w * h * px.getD c 0 := by
  unfold channelSum uniformImage
  have : ∀ k ∈ List.range (w * h),
      ((List.replicate (w * h) px).flatten).getD (4 * k + c) 0 = px.getD c 0 := by
    intro k hk
    have := replicate_flatten_getD px c (by omega) (w * h) k (List.mem_range.mp hk)
    rwa [hpx] at this
  rw [List.map_congr_left this]
  simp [Nat.mul_comm]

/-- C4 at the 16 by 16 image filled with `(128, 128, 128, 255)`: the payload of the
`GGATCGVA` tagg is `80 80 80 FF`. -/
theorem loadImage_average_taggs_witness :
    ∃ p more rest, loadImage grey16 PAA.new = Outcome.ok p ∧
      p.mipMaps = { width := 16, height := 16, dataLength := 1024, data := grey16.data } :: more ∧
      p.taggs =
        { signature := GGATCGVA, dataLength := 4, data := [0x80, 0x80, 0x80, 0xFF] } ::
        { signature := GGATCXAM, dataLength := 4, data := [0xFF, 0xFF, 0xFF, 0xFF] } :: rest := by
  have h := loadImage_average_taggs grey16 (by decide) (by decide) (by decide) (by decide)
    (by rw [grey16, uniformImage_length]; rfl)
    (uniformImage_bytes 16 16 _ (by decide))
  have e : ∀ c, c < 4 → channelSum grey16.data (grey16.width * grey16.height) c =
      16 * 16 * [128, 128, 128, 255].getD c 0 :=
    fun c hc => channelSum_uniform 16 16 [128, 128, 128, 255] rfl c hc
  rw [e 0 (by decide), e 1 (by decide), e 2 (by decide), e 3 (by decide)] at h
  exact h

set_option maxRecDepth 100000 in
/-- C5 at the 4 by 4 image with alphas 0, 64, 128, 255: the flag tagg is present. -/
theorem loadImage_flag_iff_pixel_witness :
    ∃ p, loadImage gradient4 PAA.new = Outcome.ok p ∧
      ((∃ t ∈ p.taggs, t.signature = GGATGALF) ↔
        ∃ k, k < gradient4.width * gradient4.height ∧
          gradient4.data.getD (4 * k + 3) 0 < 255) ∧
      (∀ t ∈ p.taggs, t.signature = GGATGALF →
        t.dataLength = 4 ∧ t.data = [0x01, 0xFF, 0xFF, 0xFF]) ∧
      (p.hasAlpha = true ↔
        ∃ k, k < gradient4.width * gradient4.height ∧
          gradient4.data.getD (4 * k + 3) 0 < 255) ∧
      (channelMean gradient4.data (gradient4.width * gradient4.height) 3 < 255 ↔
        ∃ k, k < gradient4.width * gradient4.height ∧
          gradient4.data.getD (4 * k + 3) 0 < 255) :=
  loadImage_flag_iff_pixel gradient4 (by decide) (by decide) (by decide) (by decide)
    (by decide) (by decide)

/-- C6: for a top mipmap of `w` by `h` pixels, `w, h ≥ 1` (and below `2 ^ 16`, the range of
the fields of `MipMap`), `calculateMipmapsAndTaggs` returns, and the number `k` of mipmaps
of the pyramid it built is the smallest positive integer with
`min w h / 2 ^ (k - 1) ≤ 4`. -/
theorem calculate_mip_count (p : PAA) (top : MipMap) (rest : List MipMap)
    (hp : p.mipMaps = top :: rest)
    (hw : 1 ≤ top.width) (hw2 : top.width < 2 ^ 16)
    (hh : 1 ≤ top.height) (hh2 : top.height < 2 ^ 16) :
    ∃ p1, calculateMipmapsAndTaggs p = Outcome.ok p1 ∧
      0 < p1.mipMaps.length ∧
      min top.width top.height / 2 ^ (p1.mipMaps.length - 1) ≤ 4 ∧
      ∀ j, 0 < j → j < p1.mipMaps.length → ¬ min top.width top.height / 2 ^ (j - 1) ≤ 4 := by
  obtain ⟨more, p1, hgen, hok, hm, -⟩ := calculate_spec p top rest hp hw hw2 hh hh2
  obtain ⟨more2, hgen2, hle, hall⟩ :=
    generateMips_spec (top.width + 1) top.width top.height [top] (Nat.lt_succ_self _)
  have hmore : more2 = more := by
    rw [hgen] at hgen2
    simpa using hgen2.symm
  subst hmore
  refine ⟨p1, hok, ?_, ?_, ?_⟩
  · rw [hm]; simp
  · rw [hm]; simpa using hle
  · intro j hj hjk
    rw [hm] at hjk
    have := hall (j - 1) (by simp at hjk; omega)
    omega

/-- C6 at a 16 by 16 top mipmap: three levels. -/
theorem calculate_mip_count_witness :
    ∃ p1, calculateMipmapsAndTaggs
        { PAA.new with mipMaps := [{ width := 16, height := 16, dataLength := 1024,
                                     data := grey16.data }] } = Outcome.ok p1 ∧
      p1.mipMaps.length = 3 := by
  obtain ⟨p1, hok, hpos, hle, hall⟩ := calculate_mip_count
    { PAA.new with mipMaps := [{ width := 16, height := 16, dataLength := 1024,
                                 data := grey16.data }] }
    { width := 16, height := 16, dataLength := 1024, data := grey16.data } [] rfl
    (by decide) (by decide) (by decide) (by decide)
  refine ⟨p1, hok, ?_⟩
  have h3 : p1.mipMaps.length ≤ 3 := by
    by_contra hgt
    exact hall 3 (by decide) (by omega) (by decide)
  generalize p1.mipMaps.length = k at hpos hle h3
  interval_cases k
  · exact absurd hle (by decide)
  · exact absurd hle (by decide)
  · rfl

/-- The vector that receives the output of a libsquish call keeps the size it was given. -/
theorem length_filled (n : Nat) (w : List Nat) : (filled n w).length = n := by
  simp [filled]

set_option maxRecDepth 100000 in
/-- The state of a fresh object after `loadImage` of the 8 by 8 grey image. -/
theorem loadImage_grey8 : loadImage grey8 PAA.new = Outcome.ok grey8Loaded := by decide

/-- C1 at the 8 by 8 opaque grey image converted to DXT1, whatever libsquish writes: the
file has two mipmaps, slot 0 of the offsets tagg holds 112 while the header of mipmap 0
begins at byte 56, and slot 1 holds 151 while the header of mipmap 1 begins at byte 95. -/
theorem convert_grey8_offsets (sq : Squish) :
    (convert sq true grey8 PAAFormat.DXT1).file.map
      (fun f => (f.mips.length, f.offsetSlot 0, f.mipHeaderPos 0, f.offsetSlot 1,
                 f.mipHeaderPos 1))
    = some (2, 112, 56, 151, 95) := by
  unfold convert
  rw [loadImage_grey8]
  simp [writePAA, grey8Loaded, writeEncoded, WriteOutcome.file, PAA.new,
    taggsOffset, offsetsData, compressDXT1, writeTagg, writeBytes, leBytes, writeMip,
    PAAFile.offsetSlot, PAAFile.mipHeaderPos, PAAFile.preamble, WrittenTagg.bytes,
    WrittenMip.bytes, WrittenMip.header, writeBytesAsArmaUShort, length_filled, leValue,
    GGATCGVA, GGATCXAM, GGATSFFO]
  decide

/-- C2 at the 8 by 8 opaque grey image converted to DXT1, whatever libsquish writes: the
offsets tagg is written with the length field 8 and a payload of 8 bytes, the two
populated slots, and no zero slot follows them. -/
theorem convert_grey8_offsets_tagg (sq : Squish) :
    (convert sq true grey8 PAAFormat.DXT1).file.map (fun f => f.taggOffs)
    = some { signature := GGATSFFO, dataLength := [8, 0, 0, 0],
             data := [112, 0, 0, 0, 151, 0, 0, 0] } := by
  unfold convert
  rw [loadImage_grey8]
  simp [writePAA, grey8Loaded, writeEncoded, WriteOutcome.file, PAA.new,
    taggsOffset, offsetsData, compressDXT1, writeTagg, writeBytes, leBytes]
  decide

set_option maxRecDepth 100000 in
/-- C3 at the 4 by 4 opaque grey image converted with format unknown, whatever libsquish
writes: the truncated alpha mean of the image is 255, and the written tagg list holds a
`GGATGALF` tagg (the magic word is that of DXT5). -/
theorem convert_grey4_flag (sq : Squish) :
    channelMean grey4.data (grey4.width * grey4.height) 3 = 255 ∧
    (convert sq true grey4 PAAFormat.UNKNOWN).file.map
      (fun f => (f.magicNumber, f.taggs)) =
      some ([0x05, 0xFF],
        [{ signature := GGATCGVA, dataLength := [4, 0, 0, 0], data := [136, 136, 136, 14] },
         { signature := GGATCXAM, dataLength := [4, 0, 0, 0], data := [255, 255, 255, 255] },
         { signature := GGATGALF, dataLength := [4, 0, 0, 0], data := [1, 255, 255, 255] }]) := by
  constructor
  · decide
  · rfl

/-- Decoding the `n` little-endian bytes of `v` gives `v` modulo `256 ^ n`. -/
theorem leValue_leBytes (n : Nat) : ∀ v, leValue (leBytes n v) = v % 256 ^ n := by
  induction n with
  | zero => intro v; simp [leBytes, leValue, Nat.mod_one]
  | succ n ih =>
    intro v
    simp only [leBytes, leValue, ih]
    rw [pow_succ, Nat.mul_comm (256 ^ n) 256, Nat.mod_mul, Nat.add_comm]

/-- An `n`-byte unsigned has `n` bytes. -/
theorem length_leBytes (n : Nat) : ∀ v, (leBytes n v).length = n := by
  induction n with
  | zero => intro v; rfl
  | succ n ih => intro v; simp [leBytes, ih]

/-- Uninitialised storage of `n` bytes has `n` bytes. -/
theorem length_uninit (s : IStream) (n : Nat) : (s.uninit n).1.length = n := by
  simp [IStream.uninit]

/-- A read of as many bytes as the buffer holds, from a good stream that starts with the
bytes `xs`. -/
theorem read_exact (buf xs r j : List Nat) (hlen : buf.length = xs.length) :
    IStream.read { rest := xs ++ r, good := true, junk := j } buf =
      (xs, { rest := r, good := true, junk := j }) := by
  simp [IStream.read, hlen]

/-- The template `readBytes<T>` on a good stream that starts with the `n` bytes of `v`. -/
theorem readBytes_exact (n v : Nat) (r j : List Nat) (hv : v < 256 ^ n) :
    readBytes n { rest := leBytes n v ++ r, good := true, junk := j } =
      (v, { rest := r, good := true, junk := j.drop n }) := by
  unfold readBytes
  simp only [IStream.uninit]
  rw [read_exact _ _ _ _ (by simp [length_leBytes])]
  simp only [leValue_leBytes, Nat.mod_eq_of_lt hv]

/-- The template `peekBytes<T>` on a good stream that starts with the `n` bytes of `v`:
the position is restored. -/
theorem peekBytes_exact (n v : Nat) (r j : List Nat) (hv : v < 256 ^ n) :
    peekBytes n { rest := leBytes n v ++ r, good := true, junk := j } =
      (v, { rest := leBytes n v ++ r, good := true, junk := j.drop n }) := by
  unfold peekBytes
  simp only [IStream.uninit]
  rw [read_exact _ _ _ _ (by simp [length_leBytes])]
  simp only [leValue_leBytes, Nat.mod_eq_of_lt hv, if_true]

/-- The template `readBytes<uint8_t>(stream, count)` on a good stream that starts with
the bytes `xs`. -/
theorem readBytesVec_exact (xs r j : List Nat) :
    readBytesVec { rest := xs ++ r, good := true, junk := j } xs.length =
      (xs, { rest := r, good := true, junk := j }) :=
  read_exact _ xs r j (by simp)

/-- The function `readString` on a good stream that starts with the bytes `xs`. -/
theorem readString_exact (xs r j : List Nat) :
    readString { rest := xs ++ r, good := true, junk := j } xs.length =
      (xs, { rest := r, good := true, junk := j }) :=
  read_exact _ xs r j (by simp)

/-- The three bytes of a value below `2 ^ 24` recombine to it. -/
theorem arma_recombine (v : Nat) (hv : v < 2 ^ 24) :
    ((v / 256 / 256 % 256) <<< 16) ||| ((v / 256 % 256) <<< 8) ||| (v % 256) = v := by
  have h1 : v % 256 < 2 ^ 8 := Nat.mod_lt _ (by decide)
  have h2 : 2 ^ 8 * (v / 256 % 256) + v % 256 < 2 ^ 16 := by omega
  rw [Nat.shiftLeft_eq, Nat.shiftLeft_eq, Nat.mul_comm _ (2 ^ 16), Nat.mul_comm _ (2 ^ 8),
    Nat.or_assoc, ← Nat.mul_add_lt_is_or h1, ← Nat.mul_add_lt_is_or h2]
  omega

/-- The function `readBytesAsArmaUShort` on a good stream that starts with the three bytes
of `v`. -/
theorem readBytesAsArmaUShort_exact (v : Nat) (r j : List Nat) (hv : v < 2 ^ 24) :
    readBytesAsArmaUShort { rest := leBytes 3 v ++ r, good := true, junk := j } =
      (v, { rest := r, good := true, junk := j.drop 3 }) := by
  unfold readBytesAsArmaUShort
  have e1 : leBytes 3 v ++ r = leBytes 1 (v % 256) ++ (leBytes 1 (v / 256 % 256) ++
      (leBytes 1 (v / 256 / 256 % 256) ++ r)) := by
    simp [leBytes]
  rw [e1, readBytes_exact 1 (v % 256) _ _ (by omega)]
  simp only
  rw [readBytes_exact 1 (v / 256 % 256) _ _ (by omega)]
  simp only
  rw [readBytes_exact 1 (v / 256 / 256 % 256) _ _ (by omega)]
  simp only [arma_recombine v hv, List.drop_drop]

/-- A width below `2 ^ 15` has the LZO bit clear. -/
theorem and_0x8000_eq_zero (w : Nat) (hw : w < 2 ^ 15) : w &&& 0x8000 = 0 := by
  apply Nat.eq_of_testBit_eq
  intro i
  rw [Nat.testBit_and, show (0x8000 : Nat) = 2 ^ 15 from rfl, Nat.testBit_two_pow]
  by_cases h : 15 = i
  · subst h
    simp [Nat.testBit_lt_two_pow hw]
  · simp [h]

/-- The reads of one mipmap on a good stream that starts with a stored mipmap. -/
theorem readMipMap_exact (m : MipMap) (hm : m.Stored) (r j : List Nat) :
    readMipMap { rest := encodeMip m ++ r, good := true, junk := j } =
      (m, { rest := r, good := true, junk := j.drop 7 }) := by
  obtain ⟨-, hw, hh, hdl, hdl2, hlzo⟩ := hm
  have e : encodeMip m ++ r = leBytes 2 m.width ++ (leBytes 2 m.height ++
      (leBytes 3 m.dataLength ++ (m.data ++ r))) := by
    simp [encodeMip]
  unfold readMipMap
  rw [e, readBytes_exact 2 m.width _ _ (by omega)]
  simp only
  rw [readBytes_exact 2 m.height _ _ (by omega)]
  simp only
  rw [readBytesAsArmaUShort_exact _ _ _ hdl2]
  simp only
  rw [hdl, readBytesVec_exact]
  cases m
  simp_all

/-- The reads of one tagg on a good stream that starts with a well-formed tagg. -/
theorem readTagg_exact (t : Tagg) (ht : t.WellFormed) (r j : List Nat) :
    readTagg { rest := encodeTagg t ++ r, good := true, junk := j } =
      (t, { rest := r, good := true, junk := j.drop 4 }) := by
  obtain ⟨hsig, -, hdl, hdl2⟩ := ht
  have e : encodeTagg t ++ r = t.signature ++ (leBytes 4 t.dataLength ++ (t.data ++ r)) := by
    simp [encodeTagg]
  unfold readTagg
  rw [e, ← hsig, readString_exact]
  simp only
  rw [readBytes_exact 4 t.dataLength _ _ (by omega)]
  simp only
  rw [hdl, readBytesVec_exact]
  cases t
  simp_all

/-- One turn of the mipmap loop of `readPAA` on a good stream that starts with a stored
mipmap: the mipmap is appended, decompressed for the DXT formats. -/
theorem readMipMaps_step (sq : Squish) (fuel : Nat) (m : MipMap) (hm : m.Stored)
    (r j : List Nat) (p : PAA) :
    readMipMaps sq (fuel + 1) { rest := encodeMip m ++ r, good := true, junk := j } p =
      readMipMaps sq fuel { rest := r, good := true, junk := (j.drop 2).drop 7 }
        { p with mipMaps := p.mipMaps ++ [decompressDXT sq p.format m] } := by
  have e : encodeMip m ++ r = leBytes 2 m.width ++ (leBytes 2 m.height ++
      (leBytes 3 m.dataLength ++ (m.data ++ r))) := by
    simp [encodeMip]
  have hw0 : m.width ≠ 0 := by have := hm.1; omega
  have hw15 : m.width < 2 ^ 15 := hm.2.1
  rw [readMipMaps, e, peekBytes_exact 2 m.width _ _ (by omega)]
  simp only
  rw [if_pos hw0, ← e, readMipMap_exact m hm]
  simp only
  rw [if_neg (by rw [and_0x8000_eq_zero _ hw15]; simp)]

/-- One turn of the tagg loop of `readPAA` on a good stream that starts with a well-formed
tagg: the tagg is appended. -/
theorem readTaggs_step (sq : Squish) (fuel : Nat) (t : Tagg) (ht : t.WellFormed)
    (r j : List Nat) (p : PAA) :
    readTaggs sq (fuel + 1) { rest := encodeTagg t ++ r, good := true, junk := j } p =
      readTaggs sq fuel { rest := r, good := true, junk := j.drop 4 }
        { p with taggs := p.taggs ++ [t],
                 hasTransparency :=
                   if t.signature = GGATGALF then true else p.hasTransparency } := by
  obtain ⟨b0, sig, hsigeq⟩ : ∃ b0 sig, t.signature = b0 :: sig := by
    cases hs : t.signature with
    | nil => have := ht.1; rw [hs] at this; simp at this
    | cons b0 sig => exact ⟨b0, sig, rfl⟩
  have hb0 : b0 ≠ 0 := by
    intro h0
    apply ht.2.1
    rw [hsigeq, h0]; rfl
  have epeek : IStream.peek { rest := encodeTagg t ++ r, good := true, junk := j } =
      (some b0, { rest := encodeTagg t ++ r, good := true, junk := j }) := by
    simp [IStream.peek, encodeTagg, hsigeq]
  rw [readTaggs, epeek]
  simp only
  rw [if_pos (by simpa using hb0), readTagg_exact t ht]

/-- The mipmap loop of `readPAA` on a good stream that holds stored mipmaps followed by a
zero word: with one evaluation of the condition more than there are mipmaps, it returns,
having appended the mipmaps (decompressed for the DXT formats) in order. -/
theorem readMipMaps_stored (sq : Squish) (r : List Nat) (fuel : Nat) (ms : List MipMap) :
    ∀ (p : PAA) (j : List Nat), (∀ m ∈ ms, m.Stored) →
    ∃ j1, readMipMaps sq (ms.length + 1 + fuel)
        { rest := ms.flatMap encodeMip ++ (0 :: 0 :: r), good := true, junk := j } p =
      Outcome.ok
        { p with mipMaps := p.mipMaps ++ ms.map (decompressDXT sq p.format),
                 inputStream := some { rest := 0 :: 0 :: r, good := true, junk := j1 } } := by
  induction ms with
  | nil =>
    intro p j _
    have e : ([] : List MipMap).length + 1 + fuel = fuel + 1 := by simp; omega
    have e2 : (0 :: 0 :: r) = leBytes 2 0 ++ r := rfl
    rw [e, readMipMaps]
    simp only [List.flatMap_nil, List.nil_append]
    rw [e2, peekBytes_exact 2 0 _ _ (by decide)]
    exact ⟨j.drop 2, by simp [leBytes]⟩
  | cons m ms ih =>
    intro p j hms
    have e : (m :: ms).length + 1 + fuel = (ms.length + 1 + fuel) + 1 := by simp; omega
    have e2 : (m :: ms).flatMap encodeMip ++ (0 :: 0 :: r) =
        encodeMip m ++ (ms.flatMap encodeMip ++ (0 :: 0 :: r)) := by
      simp [List.flatMap_cons]
    rw [e, e2, readMipMaps_step sq _ m (hms m (List.mem_cons_self _ _))]
    obtain ⟨j1, h1⟩ := ih { p with mipMaps := p.mipMaps ++ [decompressDXT sq p.format m] }
      ((j.drop 2).drop 7) (fun m1 hm1 => hms m1 (List.mem_cons_of_mem _ hm1))
    refine ⟨j1, ?_⟩
    rw [h1]
    simp

/-- The tagg loop of `readPAA` on a good stream that holds well-formed taggs followed by a
zero byte: after one evaluation of the condition more than there are taggs, the taggs are
appended in order and the palette is read next. -/
theorem readTaggs_wellFormed (sq : Squish) (r : List Nat) (fuel : Nat) (ts : List Tagg) :
    ∀ (p : PAA) (j : List Nat), (∀ t ∈ ts, t.WellFormed) →
    ∃ j1 b, readTaggs sq (ts.length + 1 + fuel)
        { rest := ts.flatMap encodeTagg ++ (0 :: r), good := true, junk := j } p =
      readPalette sq fuel { rest := 0 :: r, good := true, junk := j1 }
        { p with taggs := p.taggs ++ ts, hasTransparency := b } := by
  induction ts with
  | nil =>
    intro p j _
    have e : ([] : List Tagg).length + 1 + fuel = fuel + 1 := by simp; omega
    rw [e, readTaggs]
    exact ⟨j, p.hasTransparency, by simp [IStream.peek]⟩
  | cons t ts ih =>
    intro p j hts
    have e : (t :: ts).length + 1 + fuel = (ts.length + 1 + fuel) + 1 := by simp; omega
    have e2 : (t :: ts).flatMap encodeTagg ++ (0 :: r) =
        encodeTagg t ++ (ts.flatMap encodeTagg ++ (0 :: r)) := by
      simp [List.flatMap_cons]
    rw [e, e2, readTaggs_step sq _ t (hts t (List.mem_cons_self _ _))]
    obtain ⟨j1, b, h1⟩ := ih
      { p with taggs := p.taggs ++ [t],
               hasTransparency :=
                 if t.signature = GGATGALF then true else p.hasTransparency }
      (j.drop 4) (fun t1 ht1 => hts t1 (List.mem_cons_of_mem _ ht1))
    refine ⟨j1, b, ?_⟩
    rw [h1]
    simp

/-- A magic word of the table fits 16 bits. -/
theorem formatOfMagic_lt (m : Nat) (h : (formatOfMagic m).isSome = true) : m < 2 ^ 16 := by
  unfold formatOfMagic at h
  repeat' split at h
  all_goals first | omega | simp at h

/-- The palette part of `readPAA` on a good stream that holds the 16-bit length of `pal`
and its bytes: the mipmap loop runs next, on what follows the palette. -/
theorem readPalette_exact (sq : Squish) (fuel : Nat) (pal r j : List Nat) (p : PAA)
    (hpal : pal.length < 2 ^ 16) :
    ∃ q : Palette, q.dataLength = pal.length ∧
      readPalette sq fuel
        { rest := leBytes 2 pal.length ++ (pal ++ r), good := true, junk := j } p =
      readMipMaps sq fuel { rest := r, good := true, junk := j.drop 2 }
        { p with palette := q } := by
  unfold readPalette
  rw [readBytes_exact 2 pal.length _ _ (by omega)]
  simp only
  by_cases h : pal.length > 0
  · rw [if_pos h, readBytesVec_exact]
    exact ⟨_, rfl, rfl⟩
  · rw [if_neg h]
    have hnil : pal = [] := List.length_eq_zero.mp (by omega)
    subst hnil
    exact ⟨_, rfl, rfl⟩

/-- The first step of `readPAA` on an object whose stream is good and starts with a magic
word of the table: the magic word and the format are stored and the tagg loop runs. -/
theorem readPAA_magic (sq : Squish) (fuel : Nat) (p : PAA) (m : Nat) (r j : List Nat)
    (format : PAAFormat)
    (hs : p.inputStream = some { rest := leBytes 2 m ++ r, good := true, junk := j })
    (hformat : formatOfMagic m = some format) :
    readPAA sq fuel p = readTaggs sq fuel { rest := r, good := true, junk := j.drop 2 }
      { p with magicNumber := m,
               inputStream := some { rest := r, good := true, junk := j.drop 2 },
               format := format } := by
  have hm16 := formatOfMagic_lt m (by rw [hformat]; rfl)
  unfold readPAA
  rw [hs]
  simp only
  rw [readBytes_exact 2 m _ _ (by omega)]
  simp only [hformat]

/-- The tagg loop, the palette part and the mipmap loop of `readPAA` on a good stream that
holds the rest of a well-formed file: the taggs and the mipmaps of the file are appended
in order, the format and the magic word are kept. -/
theorem readTaggs_file (sq : Squish) (c : PAAContent) (hc : c.WellFormed) (fuel : Nat)
    (p0 : PAA) (j : List Nat) :
    ∃ p, readTaggs sq (c.taggs.length + 1 + (c.mips.length + 1 + fuel))
        { rest := c.taggs.flatMap encodeTagg ++ (leBytes 2 c.palette.length ++
            (c.palette ++ (c.mips.flatMap encodeMip ++ [0, 0, 0, 0, 0, 0]))),
          good := true, junk := j } p0 = Outcome.ok p ∧
      p.taggs = p0.taggs ++ c.taggs ∧
      p.mipMaps = p0.mipMaps ++ c.mips.map (decompressDXT sq p0.format) ∧
      p.format = p0.format ∧
      p.magicNumber = p0.magicNumber ∧
      p.palette.dataLength = c.palette.length := by
  obtain ⟨-, hts, hpal, hpal0, hms⟩ := hc
  have hzero : leBytes 2 c.palette.length ++ (c.palette ++ (c.mips.flatMap encodeMip ++
        [0, 0, 0, 0, 0, 0])) =
      0 :: ([c.palette.length / 256 % 256] ++ (c.palette ++ (c.mips.flatMap encodeMip ++
        [0, 0, 0, 0, 0, 0]))) := by
    simp [leBytes, hpal0]
  rw [hzero]
  obtain ⟨j1, b, h1⟩ := readTaggs_wellFormed sq _ (c.mips.length + 1 + fuel) c.taggs p0 j hts
  rw [h1, ← hzero]
  obtain ⟨q, hq, h2⟩ := readPalette_exact sq (c.mips.length + 1 + fuel) c.palette
    (c.mips.flatMap encodeMip ++ [0, 0, 0, 0, 0, 0]) j1
    { p0 with taggs := p0.taggs ++ c.taggs, hasTransparency := b } hpal
  rw [h2]
  obtain ⟨j2, h3⟩ := readMipMaps_stored sq [0, 0, 0, 0] fuel c.mips
    { p0 with taggs := p0.taggs ++ c.taggs, hasTransparency := b, palette := q }
    (j1.drop 2) hms
  rw [h3]
  exact ⟨_, rfl, rfl, rfl, rfl, rfl, hq⟩

/-- What `readPAA` returns on a freshly constructed object bound to the bytes of a
well-formed file: with enough evaluations of the loop conditions it returns, the tagg list
is the file's, the mipmap list is the file's (decompressed for the DXT formats), and the
format is the table's format for the magic word. -/
theorem readPAA_wellFormed (sq : Squish) (c : PAAContent) (hc : c.WellFormed)
    (junk : List Nat) (fuel : Nat) :
    ∃ p, readPAA sq (c.taggs.length + 1 + (c.mips.length + 1 + fuel))
        (PAA.ofBytes c.encode junk) = Outcome.ok p ∧
      p.taggs = c.taggs ∧
      p.mipMaps = c.mips.map (decompressDXT sq p.format) ∧
      formatOfMagic c.magic = some p.format ∧
      p.magicNumber = c.magic ∧
      p.palette.dataLength = c.palette.length := by
  obtain ⟨format, hformat⟩ := Option.isSome_iff_exists.mp hc.1
  rw [readPAA_magic sq _ (PAA.ofBytes c.encode junk) c.magic _ junk format rfl hformat]
  obtain ⟨p, hp, h1, h2, h3, h4, h5⟩ := readTaggs_file sq c hc fuel
    { PAA.ofBytes c.encode junk with
      magicNumber := c.magic,
      inputStream := some { rest := c.taggs.flatMap encodeTagg ++
        (leBytes 2 c.palette.length ++ (c.palette ++ (c.mips.flatMap encodeMip ++
          [0, 0, 0, 0, 0, 0]))), good := true, junk := junk.drop 2 },
      format := format } (junk.drop 2)
  refine ⟨p, hp, ?_, ?_, ?_, ?_, h5⟩
  · rw [h1]; rfl
  · rw [h2, h3]; rfl
  · rw [h3]; exact hformat
  · rw [h4]

/-- A written tagg has the bytes of the tagg record of the binary format. -/
theorem writeTagg_bytes (t : Tagg) : (writeTagg t).bytes = encodeTagg t := rfl

/-- The file that `writePAA` writes for a state with at least two mipmaps: the stored
taggs are written one by one, in order. -/
theorem writePAA_taggs (sq : Squish) (p : PAA) (format : PAAFormat)
    (h2 : 2 ≤ p.mipMaps.length) :
    ∃ p1 f, writePAA sq true p format = WriteOutcome.ok p1 f ∧
      f.taggs = p.taggs.map writeTagg ∧ f.taggOffs.signature = GGATSFFO ∧
      p1.mipMaps = p.mipMaps ∧ p1.taggs = p.taggs := by
  unfold writePAA
  rw [if_neg (by omega)]
  unfold writeEncoded
  simp only [if_true]
  exact ⟨_, _, rfl, rfl, rfl, rfl, rfl⟩

/-- C7, amended: for a well-formed file without LZO-flagged mipmaps that has at least two
mipmaps, `readPAA` followed by `writePAA` returns, and writes every tagg of the input with
its signature, length and payload, in the order of the input, before the offsets tagg; the
taggs with a signature other than the computed ones are therefore written unchanged and in
the same relative order. -/
theorem reencode_keeps_taggs (sq : Squish) (c : PAAContent) (junk : List Nat)
    (format : PAAFormat) (fuel : Nat) (hc : c.WellFormed) (h2 : 2 ≤ c.mips.length)
    (hfuel : c.taggs.length + c.mips.length + 2 ≤ fuel) :
    ∃ p f, reencode sq fuel true c.encode junk format = WriteOutcome.ok p f ∧
      f.taggs = c.taggs.map writeTagg ∧
      f.taggs.flatMap WrittenTagg.bytes = c.taggs.flatMap encodeTagg ∧
      (f.taggs ++ [f.taggOffs]).filter (fun t => !isComputedSignature t.signature) =
        (c.taggs.filter (fun t => !isComputedSignature t.signature)).map writeTagg := by
  have hf : fuel = c.taggs.length + 1 +
      (c.mips.length + 1 + (fuel - (c.taggs.length + c.mips.length + 2))) := by omega
  obtain ⟨p, hp, ht, hm, -⟩ := readPAA_wellFormed sq c hc junk
    (fuel - (c.taggs.length + c.mips.length + 2))
  rw [← hf] at hp
  obtain ⟨p1, f, hw, hft, hsig, -⟩ := writePAA_taggs sq p format
    (by rw [hm, List.length_map]; exact h2)
  refine ⟨p1, f, ?_, ?_, ?_, ?_⟩
  · unfold reencode
    rw [hp]
    exact hw
  · rw [hft, ht]
  · rw [hft, ht, List.flatMap_map]
    rfl
  · rw [hft, ht, List.filter_append, List.filter_map]
    have : List.filter (fun t => !isComputedSignature t.signature) [f.taggOffs] = [] := by
      simp [hsig, isComputedSignature]
    rw [this, List.append_nil]
    rfl

/-- The file `foreignTwo` is well-formed. -/
theorem foreignTwo_wellFormed : foreignTwo.WellFormed := by
  unfold PAAContent.WellFormed Tagg.WellFormed MipMap.Stored
  decide

/-- C7, amended, at the file `foreignTwo`: the three taggs of the input, the foreign one
among them, are written unchanged. -/
theorem reencode_keeps_taggs_witness :
    ∃ p f, reencode noSquish 7 true foreignTwo.encode [] PAAFormat.UNKNOWN =
        WriteOutcome.ok p f ∧
      f.taggs = foreignTwo.taggs.map writeTagg ∧
      f.taggs.flatMap WrittenTagg.bytes = foreignTwo.taggs.flatMap encodeTagg ∧
      (f.taggs ++ [f.taggOffs]).filter (fun t => !isComputedSignature t.signature) =
        (foreignTwo.taggs.filter (fun t => !isComputedSignature t.signature)).map writeTagg :=
  reencode_keeps_taggs noSquish foreignTwo [] PAAFormat.UNKNOWN 7 foreignTwo_wellFormed
    (by decide) (by decide)

/-- The file `foreignOne` is well-formed. -/
theorem foreignOne_wellFormed : foreignOne.WellFormed := by
  unfold PAAContent.WellFormed Tagg.WellFormed MipMap.Stored
  decide

/-- C7 as stated fails at the file `foreignOne`, a well-formed file with one mipmap and the
foreign tagg `ABCDEFGH`: whatever libsquish writes, `readPAA` followed by `writePAA`
returns and the signatures written are those of the three computed taggs and of the
offsets tagg; no tagg `ABCDEFGH` is written. -/
theorem reencode_foreignOne_drops_tagg :
    (foreignOne.WellFormed ∧ foreignOne.mips.length = 1 ∧
      foreignOne.taggs.map (fun t => t.signature) = [ABCDEFGH]) ∧
    ∀ sq : Squish,
      (reencode sq 4 true foreignOne.encode [] PAAFormat.UNKNOWN).file.map
        (fun f => (f.taggs ++ [f.taggOffs]).map (fun t => t.signature)) =
      some [GGATCGVA, GGATCXAM, GGATGALF, GGATSFFO] := by
  refine ⟨⟨foreignOne_wellFormed, rfl, rfl⟩, fun sq => ?_⟩
  have h1 : readPAA sq 4 (PAA.ofBytes foreignOne.encode []) = Outcome.ok foreignOneRead := rfl
  have h2 : calculateMipmapsAndTaggs foreignOneRead = Outcome.ok foreignOneCalculated := by
    decide
  have h3 : foreignOneRead.mipMaps.length ≤ 1 := by decide
  unfold reencode
  rw [h1]
  unfold writePAA
  simp only [if_pos h3, h2]
  rfl

/-- Every object holds what it held. -/
theorem Grown.refl (p : PAA) : Grown p p :=
  ⟨rfl, rfl, ⟨[], by simp⟩, ⟨[], by simp⟩, fun h => h⟩

/-- Parsing more keeps what was parsed. -/
theorem Grown.trans {p q r : PAA} (h1 : Grown p q) (h2 : Grown q r) : Grown p r := by
  obtain ⟨a1, a2, ⟨t1, a3⟩, ⟨m1, a4⟩, a5⟩ := h1
  obtain ⟨b1, b2, ⟨t2, b3⟩, ⟨m2, b4⟩, b5⟩ := h2
  refine ⟨by rw [b1, a1], by rw [b2, a2], ⟨t1 ++ t2, by rw [b3, a3, List.append_assoc]⟩,
    ⟨m1 ++ m2, by rw [b4, a4, List.append_assoc]⟩, fun h => b5 (a5 h)⟩

/-- A property that follows from one that holds of the way a call ended holds of it too. -/
theorem Outcome.Holds.mono {P Q : Option PAAError → PAA → Prop} {o : Outcome}
    (h : o.Holds P) (hPQ : ∀ e p, P e p → Q e p) : o.Holds Q := by
  cases o with
  | ok p => exact hPQ _ _ h
  | threw e p => exact hPQ _ _ h
  | loops => trivial

/-- What holds after more parsing holds from the start. -/
theorem ReadInv.of_grown {p q : PAA} (h : Grown p q) (e : Option PAAError) (p1 : PAA)
    (h1 : ReadInv q e p1) : ReadInv p e p1 :=
  ⟨h1.1, Grown.trans h h1.2⟩

/-- The mipmap loop of `readPAA`, however it ends: the only exception is that of an
LZO-flagged mipmap, and the object keeps what it held, with mipmaps appended. -/
theorem readMipMaps_inv (sq : Squish) (fuel : Nat) : ∀ (s : IStream) (p : PAA),
    (readMipMaps sq fuel s p).Holds (ReadInv p) := by
  induction fuel with
  | zero => intro s p; exact trivial
  | succ fuel ih =>
    intro s p
    rw [readMipMaps]
    generalize peekBytes 2 s = x
    obtain ⟨next, s0⟩ := x
    dsimp only
    by_cases hn : next ≠ 0
    · rw [if_pos hn]
      generalize readMipMap s0 = x1
      obtain ⟨mipmap, s1⟩ := x1
      dsimp only
      by_cases hl : mipmap.width &&& 0x8000 ≠ 0
      · rw [if_pos hl]
        exact ⟨Or.inr rfl, rfl, rfl, ⟨[], by simp⟩, ⟨[], by simp⟩, fun h => h⟩
      · rw [if_neg hl]
        exact (ih _ _).mono (ReadInv.of_grown
          ⟨rfl, rfl, ⟨[], by simp⟩, ⟨_, rfl⟩, fun h => h⟩)
    · rw [if_neg hn]
      exact ⟨Or.inl rfl, rfl, rfl, ⟨[], by simp⟩, ⟨[], by simp⟩, fun h => h⟩

/-- The palette part and the mipmap loop of `readPAA`, however they end. -/
theorem readPalette_inv (sq : Squish) (fuel : Nat) (s : IStream) (p : PAA) :
    (readPalette sq fuel s p).Holds (ReadInv p) := by
  unfold readPalette
  generalize readBytes 2 s = x
  obtain ⟨dataLength, s1⟩ := x
  dsimp only
  by_cases h : dataLength > 0
  · rw [if_pos h]
    generalize readBytesVec s1 dataLength = x1
    obtain ⟨data, s2⟩ := x1
    exact (readMipMaps_inv sq fuel _ _).mono (ReadInv.of_grown
      ⟨rfl, rfl, ⟨[], by simp⟩, ⟨[], by simp⟩, fun h => h⟩)
  · rw [if_neg h]
    exact (readMipMaps_inv sq fuel _ _).mono (ReadInv.of_grown
      ⟨rfl, rfl, ⟨[], by simp⟩, ⟨[], by simp⟩, fun h => h⟩)

/-- The tagg loop of `readPAA` and what follows it, however they end. -/
theorem readTaggs_inv (sq : Squish) (fuel : Nat) : ∀ (s : IStream) (p : PAA),
    (readTaggs sq fuel s p).Holds (ReadInv p) := by
  induction fuel with
  | zero => intro s p; exact trivial
  | succ fuel ih =>
    intro s p
    rw [readTaggs]
    generalize s.peek = x
    obtain ⟨next, s0⟩ := x
    dsimp only
    by_cases hn : next ≠ some 0
    · rw [if_pos hn]
      generalize readTagg s0 = x1
      obtain ⟨tagg, s1⟩ := x1
      dsimp only
      refine (ih _ _).mono (ReadInv.of_grown ⟨rfl, rfl, ⟨_, rfl⟩, ⟨[], by simp⟩, ?_⟩)
      intro h
      simp [h]
    · rw [if_neg hn]
      exact readPalette_inv sq fuel _ _

/-- C8, amended: when `readPAA` fails, either no stream is bound and the object is
unchanged; or the magic word read is not in the table, `magicNumber` holds that word and
`format`, `hasTransparency`, `taggs`, `palette` and `mipMaps` are unchanged; or an
LZO-flagged mipmap was reached and the object keeps what was parsed before it: the magic
word read and its format, and the tagg list and mipmap list of before the call with the
entries read appended (`hasTransparency`, once set, stays set). -/
theorem readPAA_failure_state (sq : Squish) (fuel : Nat) (p p1 : PAA) (e : PAAError)
    (h : readPAA sq fuel p = Outcome.threw e p1) :
    (e = PAAError.noInputStream ∧ p.inputStream = none ∧ p1 = p) ∨
    (∃ m, e = PAAError.invalidMagic m ∧ formatOfMagic m = none ∧ p1.magicNumber = m ∧
      p1.format = p.format ∧ p1.hasTransparency = p.hasTransparency ∧
      p1.taggs = p.taggs ∧ p1.palette = p.palette ∧ p1.mipMaps = p.mipMaps) ∨
    (e = PAAError.lzoUnavailable ∧ formatOfMagic p1.magicNumber = some p1.format ∧
      (∃ taggs, p1.taggs = p.taggs ++ taggs) ∧
      (∃ mipMaps, p1.mipMaps = p.mipMaps ++ mipMaps) ∧
      (p.hasTransparency = true → p1.hasTransparency = true)) := by
  unfold readPAA at h
  cases hs : p.inputStream with
  | none =>
    rw [hs] at h
    simp only [Outcome.threw.injEq] at h
    exact Or.inl ⟨h.1.symm, rfl, h.2.symm⟩
  | some stream =>
    rw [hs] at h
    simp only at h
    generalize readBytes 2 stream = x at h
    obtain ⟨m, s1⟩ := x
    simp only at h
    cases hf : formatOfMagic m with
    | none =>
      rw [hf] at h
      simp only [Outcome.threw.injEq] at h
      obtain ⟨he, hp⟩ := h
      subst hp
      exact Or.inr (Or.inl ⟨m, he.symm, hf, rfl, rfl, rfl, rfl, rfl, rfl⟩)
    | some format =>
      rw [hf] at h
      simp only at h
      have hinv := readTaggs_inv sq fuel s1
        { p with magicNumber := m, inputStream := some s1, format := format }
      rw [h] at hinv
      obtain ⟨he, hfmt, hmagic, ht, hm, htr⟩ := hinv
      refine Or.inr (Or.inr ⟨?_, ?_, ht, hm, htr⟩)
      · rcases he with he | he
        · cases he
        · exact Option.some.inj he
      · rw [hmagic, hfmt]
        exact hf

/-- C8, amended, at the file `lzoFlagged`: `readPAA` fails at the second mipmap. -/
theorem readPAA_failure_state_witness :
    ∃ e p1, readPAA noSquish 5 (PAA.ofBytes lzoFlagged []) = Outcome.threw e p1 ∧
      ((e = PAAError.noInputStream ∧ (PAA.ofBytes lzoFlagged []).inputStream = none ∧
          p1 = PAA.ofBytes lzoFlagged []) ∨
       (∃ m, e = PAAError.invalidMagic m ∧ formatOfMagic m = none ∧ p1.magicNumber = m ∧
          p1.format = (PAA.ofBytes lzoFlagged []).format ∧
          p1.hasTransparency = (PAA.ofBytes lzoFlagged []).hasTransparency ∧
          p1.taggs = (PAA.ofBytes lzoFlagged []).taggs ∧
          p1.palette = (PAA.ofBytes lzoFlagged []).palette ∧
          p1.mipMaps = (PAA.ofBytes lzoFlagged []).mipMaps) ∨
       (e = PAAError.lzoUnavailable ∧ formatOfMagic p1.magicNumber = some p1.format ∧
          (∃ taggs, p1.taggs = (PAA.ofBytes lzoFlagged []).taggs ++ taggs) ∧
          (∃ mipMaps, p1.mipMaps = (PAA.ofBytes lzoFlagged []).mipMaps ++ mipMaps) ∧
          ((PAA.ofBytes lzoFlagged []).hasTransparency = true → p1.hasTransparency = true))) :=
  ⟨_, _, rfl, readPAA_failure_state noSquish 5 (PAA.ofBytes lzoFlagged []) _ _ rfl⟩

/-- C8 as stated fails.  On the two bytes `34 12`, whatever the codec and the fuel,
`readPAA` throws for the unknown magic word and `magicNumber`, `FF05` before the call, is
`1234` after it.  On the file `lzoFlagged`, `readPAA` throws at the second mipmap and the
object, constructed with format DXT5, magic `FF05`, no transparency, no tagg and no mipmap,
then has format DXT1, magic `FF01`, transparency set, one tagg and one mipmap. -/
theorem readPAA_failure_changes_state :
    ((PAA.ofBytes [0x34, 0x12] []).magicNumber = 0xFF05 ∧
      ∀ (sq : Squish) (fuel : Nat), ∃ p1,
        readPAA sq fuel (PAA.ofBytes [0x34, 0x12] []) =
          Outcome.threw (PAAError.invalidMagic 0x1234) p1 ∧ p1.magicNumber = 0x1234) ∧
    (((PAA.ofBytes lzoFlagged []).format, (PAA.ofBytes lzoFlagged []).magicNumber,
        (PAA.ofBytes lzoFlagged []).hasTransparency, (PAA.ofBytes lzoFlagged []).taggs,
        (PAA.ofBytes lzoFlagged []).mipMaps) = (PAAFormat.DXT5, 0xFF05, false, [], []) ∧
      ∀ sq : Squish, ∃ p1,
        readPAA sq 5 (PAA.ofBytes lzoFlagged []) =
          Outcome.threw PAAError.lzoUnavailable p1 ∧
        (p1.format, p1.magicNumber, p1.hasTransparency, p1.taggs, p1.mipMaps.length) =
          (PAAFormat.DXT1, 0xFF01, true,
            [{ signature := GGATGALF, dataLength := 4, data := [1, 255, 255, 255] }], 1)) :=
  ⟨⟨rfl, fun _ _ => ⟨_, rfl, rfl⟩⟩, ⟨rfl, fun _ => ⟨_, rfl, rfl⟩⟩⟩

/-- A read on a stream that is not good stores nothing and leaves the stream as it is. -/
theorem read_bad (s : IStream) (buf : List Nat) (h : s.good = false) :
    s.read buf = (buf, s) := by
  simp [IStream.read, h]

/-- A stream that is good after a read was good before it and held the bytes asked for. -/
theorem read_good (s : IStream) (buf : List Nat) (h : (s.read buf).2.good = true) :
    s.good = true ∧ buf.length ≤ s.rest.length ∧ (s.read buf).1 = s.rest.take buf.length ∧
      (s.read buf).2.rest = s.rest.drop buf.length := by
  unfold IStream.read at h ⊢
  by_cases hg : s.good = true
  · by_cases hl : buf.length ≤ s.rest.length
    · simp [hg, hl]
    · simp [hg, hl] at h
  · simp [hg] at h

/-- The template `readBytes<T>` leaves a stream that is not good not good. -/
theorem readBytes_bad (n : Nat) (s : IStream) (h : s.good = false) :
    (readBytes n s).2.good = false := by
  unfold readBytes
  simp only [IStream.uninit]
  rw [read_bad _ _ (by exact h)]
  exact h

/-- A stream that is good after `readBytes<T>` was good before it and held the bytes of
the value read. -/
theorem readBytes_good (n : Nat) (s : IStream) (h : (readBytes n s).2.good = true) :
    s.good = true ∧ n ≤ s.rest.length ∧ (readBytes n s).1 = leValue (s.rest.take n) ∧
      (readBytes n s).2.rest = s.rest.drop n := by
  unfold readBytes at h ⊢
  simp only at h ⊢
  obtain ⟨h1, h2, h3, h4⟩ := read_good _ _ h
  rw [length_uninit] at h2 h3 h4
  exact ⟨h1, h2, by rw [h3]; rfl, by rw [h4]; rfl⟩

/-- The reads of one tagg leave a stream that is not good not good. -/
theorem readTagg_bad (s : IStream) (h : s.good = false) : (readTagg s).2.good = false := by
  have hb := readBytes_bad 4 s h
  unfold readTagg
  rw [readString, read_bad _ _ h]
  simp only
  generalize readBytes 4 s = x at hb
  obtain ⟨dataLength, s2⟩ := x
  simp only at hb ⊢
  rw [readBytesVec, read_bad _ _ hb]
  exact hb

/-- A stream that is good after the reads of one tagg was good before them and held the
twelve bytes of signature and length and as many payload bytes as the length says. -/
theorem readTagg_good (s : IStream) (h : (readTagg s).2.good = true) :
    s.good = true ∧ 12 ≤ s.rest.length ∧
      12 + leValue ((s.rest.drop 8).take 4) ≤ s.rest.length := by
  unfold readTagg at h
  simp only at h
  obtain ⟨h1, h2, -, -⟩ := read_good _ _ h
  rw [readBytesVec] at h
  obtain ⟨h3, h4, h5, h6⟩ := readBytes_good _ _ h1
  rw [readString] at h3 h4 h5 h6 h1 h2
  obtain ⟨h7, h8, -, h9⟩ := read_good _ _ h3
  simp only [List.length_replicate] at h2 h8 h9
  rw [h9] at h4 h5 h6
  rw [h6, h5] at h2
  simp only [List.length_drop] at h2 h4
  exact ⟨h7, by omega, by omega⟩

/-- Once the stream is not good the tagg loop of `readPAA` does not end: `peek` returns
`EOF`, which is not zero, and every read fails. -/
theorem readTaggs_bad (sq : Squish) (fuel : Nat) : ∀ (s : IStream) (p : PAA),
    s.good = false → readTaggs sq fuel s p = Outcome.loops := by
  induction fuel with
  | zero => intro s p _; rfl
  | succ fuel ih =>
    intro s p h
    have hpeek : s.peek = (none, s) := by simp [IStream.peek, h]
    have hb := readTagg_bad s h
    rw [readTaggs, hpeek]
    simp only
    rw [if_pos (by simp)]
    generalize readTagg s = x at hb
    obtain ⟨tagg, s1⟩ := x
    exact ih _ _ hb

/-- The tagg loop of `readPAA` does not end on a stream whose next byte is not zero and
that does not hold a whole tagg: the reads of the tagg fail, and after them the stream is
not good. -/
theorem readTaggs_short (sq : Squish) (fuel : Nat) (s : IStream) (p : PAA)
    (hhead : s.rest.head? ≠ some 0)
    (hshort : ¬ (12 ≤ s.rest.length ∧
      12 + leValue ((s.rest.drop 8).take 4) ≤ s.rest.length)) :
    readTaggs sq fuel s p = Outcome.loops := by
  cases fuel with
  | zero => rfl
  | succ fuel =>
    by_cases hg : s.good = true
    · have key : ∀ (s0 : IStream) (p1 : PAA), (s0.good = true → s0 = s) →
          readTaggs sq fuel (readTagg s0).2 p1 = Outcome.loops := by
        intro s0 p1 hs0
        have hb : (readTagg s0).2.good = false := by
          by_contra hc
          obtain ⟨h1, h2⟩ := readTagg_good s0 (by simpa using hc)
          rw [hs0 h1] at h2
          exact hshort h2
        exact readTaggs_bad sq fuel _ _ hb
      rw [readTaggs]
      cases hr : s.rest with
      | nil =>
        have hpeek : s.peek = (none, { s with good := false }) := by
          simp [IStream.peek, hg, hr]
        rw [hpeek]
        simp only
        rw [if_pos (by simp)]
        exact key _ _ (fun h => by simp at h)
      | cons b r =>
        have hpeek : s.peek = (some b, s) := by
          simp [IStream.peek, hg, hr]
        have hb : b ≠ 0 := by
          intro h0
          apply hhead
          rw [hr, h0]; rfl
        rw [hpeek]
        simp only
        rw [if_pos (by simpa using hb)]
        exact key _ _ (fun _ => rfl)
    · exact readTaggs_bad sq _ _ _ (by simpa using hg)

/-- The tagg loop of `readPAA` does not end on a good stream that holds well-formed taggs
followed by a proper part of a well-formed tagg (or by nothing) and then ends. -/
theorem readTaggs_truncated (sq : Squish) (t : Tagg) (part tail : List Nat)
    (ht : t.WellFormed) (hpart : encodeTagg t = part ++ tail) (htail : tail ≠ [])
    (ts : List Tagg) : ∀ (fuel : Nat) (j : List Nat) (p : PAA), (∀ t1 ∈ ts, t1.WellFormed) →
    readTaggs sq fuel { rest := ts.flatMap encodeTagg ++ part, good := true, junk := j } p =
      Outcome.loops := by
  induction ts with
  | nil =>
    intro fuel j p _
    obtain ⟨hsig, hhead, hdl, hdl2⟩ := ht
    have hlen : (encodeTagg t).length = 12 + t.dataLength := by
      simp [encodeTagg, length_leBytes, hsig, hdl]; omega
    have hlen2 : part.length + tail.length = 12 + t.dataLength := by
      rw [← hlen, hpart, List.length_append]
    have htl : 0 < tail.length := List.length_pos.mpr htail
    apply readTaggs_short
    · simp only [List.flatMap_nil, List.nil_append]
      cases hp : part with
      | nil => simp
      | cons b r =>
        cases hs : t.signature with
        | nil => rw [hs] at hsig; simp at hsig
        | cons b0 sig =>
          have hb : b0 = b := by
            have := hpart
            rw [hp, encodeTagg, hs] at this
            simp at this
            exact this.1
          rw [hs] at hhead
          simpa [hb] using hhead
    · simp only [List.flatMap_nil, List.nil_append]
      rintro ⟨h12, hle⟩
      have e1 : (part.drop 8).take 4 = leBytes 4 t.dataLength := by
        have h1 : ((part ++ tail).drop 8).take 4 = (part.drop 8).take 4 := by
          rw [List.drop_append_of_le_length (by omega),
            List.take_append_of_le_length (by rw [List.length_drop]; omega)]
        rw [← h1, ← hpart, encodeTagg, List.append_assoc,
          List.drop_append_of_le_length (by omega), ← hsig, List.drop_length,
          List.nil_append, List.take_append_of_le_length (by rw [length_leBytes]),
          List.take_of_length_le (by rw [length_leBytes])]
      rw [e1, leValue_leBytes, Nat.mod_eq_of_lt (by omega)] at hle
      omega
  | cons t1 ts ih =>
    intro fuel j p hts
    cases fuel with
    | zero => rfl
    | succ fuel =>
      have e2 : (t1 :: ts).flatMap encodeTagg ++ part =
          encodeTagg t1 ++ (ts.flatMap encodeTagg ++ part) := by
        simp [List.flatMap_cons]
      rw [e2, readTaggs_step sq _ t1 (hts t1 (List.mem_cons_self _ _))]
      exact ih _ _ _ (fun t2 ht2 => hts t2 (List.mem_cons_of_mem _ ht2))

/-- C9, amended: on a byte sequence that begins with a magic word of the table and ends
inside the tagg list (directly after the magic word, between two taggs, or inside the
signature, the length or the payload of a tagg), `readPAA` detects no truncation: it
throws none of its errors and returns no parsed object; the reads past the end of the
stream fail unnoticed and the tagg loop does not end, however many times its condition is
evaluated. -/
theorem readPAA_truncated_taggs (sq : Squish) (fuel magic : Nat) (ts : List Tagg) (t : Tagg)
    (part tail junk : List Nat)
    (hmagic : (formatOfMagic magic).isSome = true) (hts : ∀ t1 ∈ ts, t1.WellFormed)
    (ht : t.WellFormed) (hpart : encodeTagg t = part ++ tail) (htail : tail ≠ []) :
    readPAA sq fuel (PAA.ofBytes (leBytes 2 magic ++ (ts.flatMap encodeTagg ++ part)) junk) =
      Outcome.loops := by
  obtain ⟨format, hformat⟩ := Option.isSome_iff_exists.mp hmagic
  rw [readPAA_magic sq fuel _ magic _ junk format rfl hformat]
  exact readTaggs_truncated sq t part tail ht hpart htail ts fuel _ _ hts

/-- C9, amended, at a DXT1 file that ends inside the length of its first tagg. -/
theorem readPAA_truncated_taggs_witness :
    readPAA noSquish 1000
      (PAA.ofBytes (leBytes 2 0xFF01 ++
        (([] : List Tagg).flatMap encodeTagg ++ (GGATGALF ++ [4, 0]))) []) =
      Outcome.loops :=
  readPAA_truncated_taggs noSquish 1000 0xFF01 []
    { signature := GGATGALF, dataLength := 4, data := [1, 255, 255, 255] }
    (GGATGALF ++ [4, 0]) [0, 0, 1, 255, 255, 255] [] rfl (by simp)
    (by unfold Tagg.WellFormed; decide) rfl (by simp)

/-- C9 as stated fails on the two bytes `01 FF`, a stream that ends directly after a valid
magic word: whatever the codec, the content of uninitialised storage and the number of
times the loop condition is evaluated, `readPAA` neither throws nor returns. -/
theorem readPAA_truncated_after_magic :
    ¬ ∃ (sq : Squish) (junk : List Nat) (fuel : Nat),
      readPAA sq fuel (PAA.ofBytes [0x01, 0xFF] junk) ≠ Outcome.loops := by
  rintro ⟨sq, junk, fuel, h⟩
  apply h
  rw [readPAA_magic sq fuel _ 0xFF01 [] junk PAAFormat.DXT1 rfl rfl]
  exact readTaggs_short sq fuel _ _ (by simp) (by simp)

/-- A word outside the table takes the `default:` branch of the `switch`. -/
theorem formatOfMagic_none (m : Nat)
    (h : m ∉ [0xFF01, 0xFF02, 0xFF03, 0xFF04, 0xFF05, 0x4444, 0x1555, 0x8888, 0x8080]) :
    formatOfMagic m = none := by
  simp only [List.mem_cons, List.mem_singleton, List.not_mem_nil, or_false, not_or] at h
  obtain ⟨h1, h2, h3, h4, h5, h6, h7, h8, h9⟩ := h
  simp [formatOfMagic, h1, h2, h3, h4, h5, h6, h7, h8, h9]

/-- The `switch` of `readPAA` follows the table of magic words. -/
theorem formatOfMagic_table (m : Nat) (format : PAAFormat) (h : (m, format) ∈ magicTable) :
    formatOfMagic m = some format := by
  simp only [magicTable, List.mem_cons, List.mem_singleton, Prod.mk.injEq, List.not_mem_nil,
    or_false] at h
  rcases h with h | h | h | h | h | h | h | h | h <;> obtain ⟨rfl, rfl⟩ := h <;> rfl

/-- C10: on an object whose stream is good and starts with the bytes `b0 b1`, the
little-endian word `m = b0 + 256 * b1`: when `m` is none of `FF01`, `FF02`, `FF03`, `FF04`,
`FF05`, `4444`, `1555`, `8888`, `8080`, `readPAA` throws for the invalid magic word, having
consumed those two bytes only and stored nothing but the word (no tagg is read); when the
table maps `m` to `format`, `readPAA` stores `m` and `format` and goes on to the tagg loop,
and however the call ends the object has that format and magic word. -/
theorem readPAA_magic_table (sq : Squish) (fuel : Nat) (p : PAA) (b0 b1 : Nat)
    (r j : List Nat)
    (hs : p.inputStream = some { rest := b0 :: b1 :: r, good := true, junk := j })
    (hb0 : b0 < 256) (hb1 : b1 < 256) :
    (b0 + 256 * b1 ∉ [0xFF01, 0xFF02, 0xFF03, 0xFF04, 0xFF05, 0x4444, 0x1555, 0x8888, 0x8080] →
      readPAA sq fuel p = Outcome.threw (PAAError.invalidMagic (b0 + 256 * b1))
        { p with magicNumber := b0 + 256 * b1,
                 inputStream := some { rest := r, good := true, junk := j.drop 2 } }) ∧
    (∀ format, (b0 + 256 * b1, format) ∈ magicTable →
      readPAA sq fuel p = readTaggs sq fuel { rest := r, good := true, junk := j.drop 2 }
        { p with magicNumber := b0 + 256 * b1,
                 inputStream := some { rest := r, good := true, junk := j.drop 2 },
                 format := format } ∧
      (readPAA sq fuel p).Holds
        (fun _ p1 => p1.format = format ∧ p1.magicNumber = b0 + 256 * b1)) := by
  have hbytes : b0 :: b1 :: r = leBytes 2 (b0 + 256 * b1) ++ r := by
    have e1 : (b0 + 256 * b1) % 256 = b0 := by omega
    have e2 : (b0 + 256 * b1) / 256 % 256 = b1 := by omega
    simp [leBytes, e1, e2]
  rw [hbytes] at hs
  constructor
  · intro hm
    have hnone := formatOfMagic_none _ hm
    unfold readPAA
    rw [hs]
    simp only
    rw [readBytes_exact 2 _ _ _ (by omega)]
    simp only [hnone]
  · intro format hm
    have hsome := formatOfMagic_table _ _ hm
    have heq := readPAA_magic sq fuel p _ r j format hs hsome
    refine ⟨heq, ?_⟩
    rw [heq]
    exact (readTaggs_inv sq fuel _ _).mono (fun _ p1 h => ⟨h.2.1, h.2.2.1⟩)

/-- C10 at the object bound to the file `foreignOne`, whose magic word is `8888`: `readPAA`
returns and the format is RGBA8888. -/
theorem readPAA_magic_table_witness :
    readPAA noSquish 4 (PAA.ofBytes foreignOne.encode []) = Outcome.ok foreignOneRead ∧
    foreignOneRead.format = PAAFormat.RGBA8888 ∧
    (readPAA noSquish 4 (PAA.ofBytes foreignOne.encode [])).Holds
      (fun _ p1 => p1.format = PAAFormat.RGBA8888 ∧ p1.magicNumber = 0x88 + 256 * 0x88) :=
  ⟨rfl, rfl,
    ((readPAA_magic_table noSquish 4 (PAA.ofBytes foreignOne.encode []) 0x88 0x88 _ [] rfl
      (by decide) (by decide)).2 PAAFormat.RGBA8888 (by decide)).2⟩

/-- The length of the concatenation of `n` blocks of `m` elements each. -/
theorem length_flatMap_range {α : Type} (f : Nat → List α) (m : Nat)
    (hf : ∀ i, (f i).length = m) (n : Nat) :
    ((List.range n).flatMap f).length = n * m := by
  induction n with
  | zero => simp
  | succ n ih =>
    rw [List.range_succ, List.flatMap_append, List.length_append, ih]
    simp [hf, Nat.succ_mul]

/-- Element `j` of block `i` of a concatenation of blocks of `m` elements each. -/
theorem getD_flatMap_range {α : Type} (f : Nat → List α) (m : Nat) (d : α)
    (hf : ∀ i, (f i).length = m) (n : Nat) :
    ∀ i j, i < n → j < m → ((List.range n).flatMap f).getD (i * m + j) d = (f i).getD j d := by
  induction n with
  | zero => intro i j hi; omega
  | succ n ih =>
    intro i j hi hj
    rw [List.range_succ, List.flatMap_append]
    have hlen := length_flatMap_range f m hf n
    by_cases hin : i < n
    · have hlt : i * m + j < ((List.range n).flatMap f).length := by
        rw [hlen]
        calc i * m + j < i * m + m := by omega
          _ = (i + 1) * m := by rw [Nat.succ_mul]
          _ ≤ n * m := Nat.mul_le_mul_right m hin
      rw [List.getD_append _ _ _ _ hlt]
      exact ih i j hin hj
    · have hi2 : i = n := by omega
      subst hi2
      rw [List.getD_append_right _ _ _ _ (by rw [hlen]; omega), hlen]
      simp




/-- The byte index of channel `c` of pixel `(b, a)` lies inside a buffer of `cw` by `ch`
RGBA pixels. -/
theorem pixel_index_lt (a b c cw ch : Nat) (ha : a < ch) (hb : b < cw) (hc : c < 4) :
    (a * cw + b) * 4 + c < 4 * cw * ch := by
  have h1 : a * cw + b < (a + 1) * cw := by rw [Nat.succ_mul]; omega
  have h2 : (a + 1) * cw ≤ ch * cw := Nat.mul_le_mul_right cw ha
  have h3 : 4 * cw * ch = (ch * cw) * 4 := by ring
  omega

/-- The downsampling step produces four bytes for each pixel of the new level. -/
theorem length_downsample (srcData : List Nat) (curWidth newWidth newHeight : Nat) :
    (downsample srcData curWidth newWidth newHeight).length = newHeight * (newWidth * 4) := by
  unfold downsample
  apply length_flatMap_range
  intro y
  apply length_flatMap_range
  intro x
  simp

/-- The byte that the downsampling step stores for channel `c` of pixel `(x, y)`, when the
source buffer holds `curWidth` by `curHeight` pixels of bytes and is addressable in 32
bits: the truncated mean of channel `c` of the four source pixels `(2x, 2y)`,
`(2x+1, 2y)`, `(2x, 2y+1)`, `(2x+1, 2y+1)`. -/
theorem getD_downsample (srcData : List Nat) (curWidth curHeight x y c : Nat)
    (hb : ∀ b ∈ srcData, b < 256) (h32 : 4 * curWidth * curHeight ≤ 2 ^ 32)
    (hx : x < curWidth / 2) (hy : y < curHeight / 2) (hc : c < 4) :
    (downsample srcData curWidth (curWidth / 2) (curHeight / 2)).getD
        ((y * (curWidth / 2) + x) * 4 + c) 0 =
      (srcData.getD ((2 * y * curWidth + 2 * x) * 4 + c) 0 +
       srcData.getD ((2 * y * curWidth + 2 * x + 1) * 4 + c) 0 +
       srcData.getD (((2 * y + 1) * curWidth + 2 * x) * 4 + c) 0 +
       srcData.getD (((2 * y + 1) * curWidth + 2 * x + 1) * 4 + c) 0) / 4 := by
  have hidx : (y * (curWidth / 2) + x) * 4 + c = y * (curWidth / 2 * 4) + (x * 4 + c) := by
    ring
  have i1 := pixel_index_lt (2 * y) (2 * x) c curWidth curHeight (by omega) (by omega) hc
  have i2 := pixel_index_lt (2 * y) (2 * x + 1) c curWidth curHeight (by omega) (by omega) hc
  have i3 := pixel_index_lt (2 * y + 1) (2 * x) c curWidth curHeight (by omega) (by omega) hc
  have i4 := pixel_index_lt (2 * y + 1) (2 * x + 1) c curWidth curHeight (by omega) (by omega)
    hc
  have hsx : x * 2 % 2 ^ 32 = 2 * x := by
    rw [Nat.mod_eq_of_lt]; omega
    have : 2 * x * 4 ≤ (2 * y * curWidth + 2 * x) * 4 + c := by omega
    omega
  have hsy : y * 2 % 2 ^ 32 = 2 * y := by
    rw [Nat.mod_eq_of_lt]; omega
    have h1 : 2 * y * 1 ≤ 2 * y * curWidth := Nat.mul_le_mul_left _ (by omega)
    omega
  have g1 := getD_le_255 srcData hb ((2 * y * curWidth + 2 * x) * 4 + c)
  have g2 := getD_le_255 srcData hb ((2 * y * curWidth + 2 * x + 1) * 4 + c)
  have g3 := getD_le_255 srcData hb (((2 * y + 1) * curWidth + 2 * x) * 4 + c)
  have g4 := getD_le_255 srcData hb (((2 * y + 1) * curWidth + 2 * x + 1) * 4 + c)
  unfold downsample
  rw [hidx, getD_flatMap_range _ (curWidth / 2 * 4) 0
      (fun y => length_flatMap_range _ 4 (fun x => by simp) _) _ y (x * 4 + c) hy (by omega),
    getD_flatMap_range _ 4 0 (fun x => by simp) _ x c hx hc]
  rw [List.getD_eq_getElem _ _ (by simp; exact hc)]
  simp only [List.getElem_map, List.getElem_range, hsx, hsy]
  rw [Nat.mod_eq_of_lt (a := (2 * y * curWidth + 2 * x) * 4 + c) (by omega),
    Nat.mod_eq_of_lt (a := (2 * y * curWidth + 2 * x + 1) * 4 + c) (by omega),
    Nat.mod_eq_of_lt (a := ((2 * y + 1) * curWidth + 2 * x) * 4 + c) (by omega),
    Nat.mod_eq_of_lt (a := ((2 * y + 1) * curWidth + 2 * x + 1) * 4 + c) (by omega)]
  rw [Nat.mod_eq_of_lt (by omega)]

/-- The halving loop of `calculateMipmapsAndTaggs`, started on a list whose last mipmap has
the sizes held in `curWidth`, `curHeight`: the levels it appends are each the halved copy
of the one before, and the last mipmap of the pyramid has a smaller side of at most 4. -/
theorem generateMips_chain (fuel : Nat) :
    ∀ (curWidth curHeight : Nat) (gen : List MipMap) (back : MipMap) (res : List MipMap),
    gen.getLast? = some back → back.width = curWidth → back.height = curHeight →
    curWidth < 2 ^ 16 → curHeight < 2 ^ 16 →
    generateMips fuel curWidth curHeight gen = some res →
    ∃ more, res = gen ++ more ∧ List.Chain HalvedFrom back more ∧
      ∀ m, (back :: more).getLast? = some m → min m.width m.height ≤ 4 := by
  induction fuel with
  | zero => intro cw ch gen back res _ _ _ _ _ h; simp [generateMips] at h
  | succ fuel ih =>
    intro cw ch gen back res hlast hw hh hcw hch h
    rw [generateMips] at h
    by_cases hm : min cw ch > 4
    · rw [if_pos hm] at h
      have hback : backData gen = back.data := by simp [backData, hlast]
      have hwid : (halved (backData gen) cw ch).width = cw / 2 := by
        simp only [halved]; exact Nat.mod_eq_of_lt (by omega)
      have hhei : (halved (backData gen) cw ch).height = ch / 2 := by
        simp only [halved]; exact Nat.mod_eq_of_lt (by omega)
      obtain ⟨more, hres, hchain, hfin⟩ := ih (cw / 2) (ch / 2) _
        (halved (backData gen) cw ch) res (by simp) hwid hhei (by omega) (by omega) h
      refine ⟨halved (backData gen) cw ch :: more, by rw [hres]; simp, ?_, ?_⟩
      · refine List.Chain.cons ⟨by rw [hw, hh]; exact hm, ?_⟩ hchain
        rw [hback, hw, hh]
      · intro m hmlast
        apply hfin m
        rw [← hmlast]
        simp [List.getLast?_cons_cons]
    · rw [if_neg hm] at h
      simp only [Option.some.injEq] at h
      refine ⟨[], by rw [← h]; simp, List.Chain.nil, ?_⟩
      intro m hmlast
      simp at hmlast
      rw [← hmlast, hw, hh]
      omega

/-- Along a chain, a property of the head that each link carries over holds at every
position, together with the link to the next position. -/
theorem chain_getElem {α : Type} (R : α → α → Prop) (P : α → Prop)
    (step : ∀ x y, R x y → P x → P y) (l : List α) :
    ∀ a, List.Chain R a l → P a →
    ∀ i x, (a :: l)[i]? = some x → P x ∧ ∀ y, (a :: l)[i + 1]? = some y → R x y := by
  induction l with
  | nil =>
    intro a _ ha i x hx
    cases i with
    | zero =>
      simp at hx
      subst hx
      exact ⟨ha, fun y hy => by simp at hy⟩
    | succ i => simp at hx
  | cons b l ih =>
    intro a hchain ha i x hx
    obtain ⟨hab, hrest⟩ := List.chain_cons.mp hchain
    cases i with
    | zero =>
      simp at hx
      subst hx
      refine ⟨ha, fun y hy => ?_⟩
      simp at hy
      subst hy
      exact hab
    | succ i =>
      have hx2 : (b :: l)[i]? = some x := by simpa using hx
      obtain ⟨hp, hr⟩ := ih b hrest (step a b hab ha) i x hx2
      exact ⟨hp, fun y hy => hr y (by simpa using hy)⟩

/-- The halved copy of an uncompressed RGBA mipmap is an uncompressed RGBA mipmap of half
the width and half the height. -/
theorem HalvedFrom.rgba (a b : MipMap) (h : HalvedFrom a b) (ha : a.Rgba) :
    b.Rgba ∧ b.width = a.width / 2 ∧ b.height = a.height / 2 := by
  obtain ⟨-, hb⟩ := h
  obtain ⟨hw, hh, hlen, hdl, hdl2, hbytes, hlzo⟩ := ha
  have hw2 : a.width / 2 % 2 ^ 16 = a.width / 2 := Nat.mod_eq_of_lt (by omega)
  have hh2 : a.height / 2 % 2 ^ 16 = a.height / 2 := Nat.mod_eq_of_lt (by omega)
  have hl : (downsample a.data a.width (a.width / 2) (a.height / 2)).length =
      4 * (a.width / 2) * (a.height / 2) := by
    rw [length_downsample]; ring
  have hprod : (a.width / 2) * (a.height / 2) < 2 ^ 15 * 2 ^ 15 :=
    Nat.mul_lt_mul'' (by omega) (by omega)
  have hl32 : 4 * (a.width / 2) * (a.height / 2) < 2 ^ 32 := by
    rw [Nat.mul_assoc]; norm_num at hprod ⊢; omega
  subst hb
  refine ⟨⟨?_, ?_, ?_, ?_, ?_, ?_, rfl⟩, ?_, ?_⟩
  · simp only [halved]; omega
  · simp only [halved]; omega
  · simp only [halved]; rw [hl, hw2, hh2]
  · simp only [halved]; rw [hl]; exact Nat.mod_eq_of_lt hl32
  · simp only [halved]; rw [hl]; exact lt_of_le_of_lt (Nat.mod_le _ _) hl32
  · intro v hv
    simp only [halved, downsample, List.mem_flatMap, List.mem_map, List.mem_range] at hv
    obtain ⟨y, -, x, -, c, -, rfl⟩ := hv
    exact Nat.mod_lt _ (by decide)
  · simp only [halved]; exact hw2
  · simp only [halved]; exact hh2

/-- What `calculateMipmapsAndTaggs` builds for a state whose top mipmap has sizes between 1
and 65535: it returns, the pyramid is the top mipmap followed by levels that are each the
halved copy of the one before, and the last level has a smaller side of at most 4. -/
theorem calculate_pyramid (p : PAA) (top : MipMap) (rest : List MipMap)
    (hp : p.mipMaps = top :: rest)
    (hw : 1 ≤ top.width) (hw2 : top.width < 2 ^ 16)
    (hh : 1 ≤ top.height) (hh2 : top.height < 2 ^ 16) :
    ∃ more p1, calculateMipmapsAndTaggs p = Outcome.ok p1 ∧ p1.mipMaps = top :: more ∧
      generateMips (top.width + 1) top.width top.height [top] = some (top :: more) ∧
      List.Chain HalvedFrom top more ∧
      (∀ m, (top :: more).getLast? = some m → min m.width m.height ≤ 4) ∧
      (more = [] ↔ min top.width top.height ≤ 4) ∧
      p1.format = p.format ∧ p1.magicNumber = p.magicNumber ∧ p1.palette = p.palette := by
  obtain ⟨more, p1, hgen, hok, hm, -, -, -, -, -, -, hf, hmg, hpal⟩ :=
    calculate_spec p top rest hp hw hw2 hh hh2
  obtain ⟨more2, hres, hchain, hfin⟩ := generateMips_chain (top.width + 1) top.width top.height
    [top] top (top :: more) rfl rfl rfl hw2 hh2 hgen
  have hmore : more2 = more := by simpa using hres.symm
  subst hmore
  refine ⟨more2, p1, hok, hm, hgen, hchain, hfin, ?_, hf, hmg, hpal⟩
  constructor
  · intro h
    subst h
    exact hfin top rfl
  · intro h
    cases more2 with
    | nil => rfl
    | cons b l =>
      obtain ⟨hab, -⟩ := List.chain_cons.mp hchain
      have := hab.1
      omega

/-- What the part of `writePAA` that follows the regeneration does when the output file
can be opened: it returns; the object keeps its mipmaps, taggs and transparency flag; the
format is the one asked for, or, for format unknown, DXT5 with transparency and DXT1
without; the magic word is that of DXT5 or DXT1 for these formats and is kept for the
others; and the mipmaps written are the stored ones, compressed for DXT5 and DXT1. -/
theorem writeEncoded_ok (sq : Squish) (p : PAA) (targetFormat : PAAFormat) :
    ∃ p1 f, writeEncoded sq true p targetFormat = WriteOutcome.ok p1 f ∧
      p1.mipMaps = p.mipMaps ∧ p1.taggs = p.taggs ∧ p1.hasTransparency = p.hasTransparency ∧
      p1.format = (if targetFormat = PAAFormat.UNKNOWN then
          (if p.hasTransparency then PAAFormat.DXT5 else PAAFormat.DXT1)
        else targetFormat) ∧
      p1.magicNumber = (if p1.format = PAAFormat.DXT5 then 0xFF05
        else if p1.format = PAAFormat.DXT1 then 0xFF01 else p.magicNumber) ∧
      f.magicNumber = writeBytes 2 p1.magicNumber ∧
      f.mips = (if p1.format = PAAFormat.DXT5 then p.mipMaps.map (compressDXT5 sq)
        else if p1.format = PAAFormat.DXT1 then p.mipMaps.map (compressDXT1 sq)
        else p.mipMaps).map writeMip := by
  unfold writeEncoded
  simp only [if_true]
  exact ⟨_, _, rfl, rfl, rfl, rfl, rfl, rfl, rfl, rfl⟩

/-- The state on which `writePAA` decides the format and encodes, when the output file
can be opened: the object itself when it has at least two mipmaps, the object after
`calculateMipmapsAndTaggs` when it has one mipmap of sizes between 1 and 65535. -/
theorem writePAA_eq (sq : Squish) (sinkOpens : Bool) (p : PAA) (targetFormat : PAAFormat)
    (top : MipMap) (rest : List MipMap) (hp : p.mipMaps = top :: rest)
    (h : rest ≠ [] ∨ (1 ≤ top.width ∧ top.width < 2 ^ 16 ∧ 1 ≤ top.height ∧
      top.height < 2 ^ 16)) :
    ∃ pd more, writePAA sq sinkOpens p targetFormat = writeEncoded sq sinkOpens pd targetFormat ∧
      pd.mipMaps = p.mipMaps ++ more ∧
      (more = [] ↔ (rest ≠ [] ∨ min top.width top.height ≤ 4)) ∧
      ((rest ≠ [] ∧ pd = p) ∨ (rest = [] ∧ calculateMipmapsAndTaggs p = Outcome.ok pd)) := by
  unfold writePAA
  by_cases hr : rest = []
  · subst hr
    have hd : 1 ≤ top.width ∧ top.width < 2 ^ 16 ∧ 1 ≤ top.height ∧ top.height < 2 ^ 16 := by
      rcases h with h | h
      · exact absurd rfl h
      · exact h
    obtain ⟨more, p1, hok, hm, -, -, -, hnil, -⟩ :=
      calculate_pyramid p top [] hp hd.1 hd.2.1 hd.2.2.1 hd.2.2.2
    rw [if_pos (by rw [hp]; simp), hok]
    refine ⟨p1, more, rfl, by rw [hm, hp]; rfl, ?_, Or.inr ⟨rfl, rfl⟩⟩
    rw [hnil]
    simp
  · rw [if_neg (by rw [hp]; cases rest with
      | nil => exact absurd rfl hr
      | cons b l => simp)]
    exact ⟨p, [], rfl, by simp, by simp [hr], Or.inl ⟨hr, rfl⟩⟩

/-- The mipmap loop of `readPAA` on a good stream that starts with stored mipmaps: after
as many evaluations of the condition as there are mipmaps, they are appended in order
(decompressed for the DXT formats) and the loop goes on with what follows them. -/
theorem readMipMaps_prefix (sq : Squish) (tail : List Nat) (fuel : Nat) (ms : List MipMap) :
    ∀ (p : PAA) (j : List Nat), (∀ m ∈ ms, m.Stored) →
    ∃ j1, readMipMaps sq (ms.length + fuel)
        { rest := ms.flatMap encodeMip ++ tail, good := true, junk := j } p =
      readMipMaps sq fuel { rest := tail, good := true, junk := j1 }
        { p with mipMaps := p.mipMaps ++ ms.map (decompressDXT sq p.format) } := by
  induction ms with
  | nil =>
    intro p j _
    exact ⟨j, by simp⟩
  | cons m ms ih =>
    intro p j hms
    have e : (m :: ms).length + fuel = (ms.length + fuel) + 1 := by simp; omega
    have e2 : (m :: ms).flatMap encodeMip ++ tail =
        encodeMip m ++ (ms.flatMap encodeMip ++ tail) := by
      simp [List.flatMap_cons]
    rw [e, e2, readMipMaps_step sq _ m (hms m (List.mem_cons_self _ _))]
    obtain ⟨j1, h1⟩ := ih { p with mipMaps := p.mipMaps ++ [decompressDXT sq p.format m] }
      ((j.drop 2).drop 7) (fun m1 hm1 => hms m1 (List.mem_cons_of_mem _ hm1))
    refine ⟨j1, ?_⟩
    rw [h1]
    simp

/-- The tagg loop and the palette part of `readPAA` on a good stream that holds the
well-formed taggs and the palette of a file: the taggs are appended in order and the
mipmap loop runs on what follows the palette. -/
theorem readTaggs_thenMips (sq : Squish) (c : PAAContent) (hc : c.WellFormed)
    (tail : List Nat) (fuel : Nat) (p0 : PAA) (j : List Nat) :
    ∃ j1 p1, readTaggs sq (c.taggs.length + 1 + fuel)
        { rest := c.taggs.flatMap encodeTagg ++ (leBytes 2 c.palette.length ++
            (c.palette ++ tail)), good := true, junk := j } p0 =
        readMipMaps sq fuel { rest := tail, good := true, junk := j1 } p1 ∧
      p1.taggs = p0.taggs ++ c.taggs ∧ p1.mipMaps = p0.mipMaps ∧ p1.format = p0.format ∧
      p1.magicNumber = p0.magicNumber := by
  obtain ⟨-, hts, hpal, hpal0, -⟩ := hc
  have hzero : leBytes 2 c.palette.length ++ (c.palette ++ tail) =
      0 :: ([c.palette.length / 256 % 256] ++ (c.palette ++ tail)) := by
    simp [leBytes, hpal0]
  rw [hzero]
  obtain ⟨j1, b, h1⟩ := readTaggs_wellFormed sq _ fuel c.taggs p0 j hts
  rw [h1, ← hzero]
  obtain ⟨q, -, h2⟩ := readPalette_exact sq fuel c.palette tail j1
    { p0 with taggs := p0.taggs ++ c.taggs, hasTransparency := b } hpal
  rw [h2]
  exact ⟨_, _, rfl, rfl, rfl, rfl, rfl⟩

/-- The width that the reads of one mipmap store, on a good stream that starts with the
two bytes of `w`. -/
theorem readMipMap_width (w : Nat) (hw : w < 2 ^ 16) (r j : List Nat) :
    (readMipMap { rest := leBytes 2 w ++ r, good := true, junk := j }).1.width = w := by
  unfold readMipMap
  rw [readBytes_exact 2 w _ _ (by omega)]

/-- One turn of the mipmap loop of `readPAA` on a good stream that starts with a width
word whose bit `0x8000` is set: `decompressLZO` throws and nothing is appended. -/
theorem readMipMaps_flagged (sq : Squish) (fuel w : Nat) (hw : w < 2 ^ 16)
    (hflag : w &&& 0x8000 ≠ 0) (r j : List Nat) (p : PAA) :
    ∃ s1, readMipMaps sq (fuel + 1) { rest := leBytes 2 w ++ r, good := true, junk := j } p =
      Outcome.threw PAAError.lzoUnavailable { p with inputStream := some s1 } := by
  have hw0 : w ≠ 0 := by
    intro h0
    rw [h0] at hflag
    simp at hflag
  have hwid := readMipMap_width w hw r (j.drop 2)
  rw [readMipMaps, peekBytes_exact 2 w _ _ (by omega)]
  simp only
  rw [if_pos hw0]
  generalize readMipMap { rest := leBytes 2 w ++ r, good := true, junk := j.drop 2 } = x
    at hwid
  obtain ⟨mipmap, s1⟩ := x
  simp only at hwid ⊢
  rw [hwid, if_pos hflag]
  exact ⟨s1, rfl⟩

/-- C11: on a freshly constructed object bound to a file with a valid magic word,
well-formed taggs and palette, and a mipmap chain in which stored mipmaps without the flag
are followed by a record whose width word has bit `0x8000` set, `readPAA` (given one
evaluation of a loop condition per tagg and mipmap and two more) throws the error of the
unavailable LZO decompression when it reaches that record; the object then holds the taggs
of the file and exactly the mipmaps that precede the record: the flagged mipmap is not
appended. -/
theorem readPAA_lzo_flagged (sq : Squish) (c : PAAContent) (w fuel : Nat)
    (r junk : List Nat) (hc : c.WellFormed) (hw : w < 2 ^ 16) (hflag : w &&& 0x8000 ≠ 0)
    (hfuel : c.taggs.length + c.mips.length + 2 ≤ fuel) :
    ∃ p1, readPAA sq fuel (PAA.ofBytes (c.encodeThen (leBytes 2 w ++ r)) junk) =
        Outcome.threw PAAError.lzoUnavailable p1 ∧
      p1.mipMaps = c.mips.map (decompressDXT sq p1.format) ∧
      p1.mipMaps.length = c.mips.length ∧
      p1.taggs = c.taggs ∧ formatOfMagic c.magic = some p1.format := by
  obtain ⟨format, hformat⟩ := Option.isSome_iff_exists.mp hc.1
  have hf : fuel = c.taggs.length + 1 +
      (c.mips.length + ((fuel - (c.taggs.length + c.mips.length + 2)) + 1)) := by omega
  rw [readPAA_magic sq fuel (PAA.ofBytes (c.encodeThen (leBytes 2 w ++ r)) junk) c.magic _ junk
    format rfl hformat, hf]
  obtain ⟨j1, p1, h1, ht, hm, hfm, -⟩ := readTaggs_thenMips sq c hc
    (c.mips.flatMap encodeMip ++ (leBytes 2 w ++ r))
    (c.mips.length + ((fuel - (c.taggs.length + c.mips.length + 2)) + 1))
    { PAA.ofBytes (c.encodeThen (leBytes 2 w ++ r)) junk with
      magicNumber := c.magic,
      inputStream := some { rest := c.taggs.flatMap encodeTagg ++
        (leBytes 2 c.palette.length ++ (c.palette ++ (c.mips.flatMap encodeMip ++
          (leBytes 2 w ++ r)))), good := true, junk := junk.drop 2 },
      format := format } (junk.drop 2)
  rw [h1]
  obtain ⟨j2, h2⟩ := readMipMaps_prefix sq (leBytes 2 w ++ r)
    ((fuel - (c.taggs.length + c.mips.length + 2)) + 1) c.mips p1 j1 hc.2.2.2.2
  rw [h2]
  obtain ⟨s1, h3⟩ := readMipMaps_flagged sq (fuel - (c.taggs.length + c.mips.length + 2)) w hw
    hflag r j2 { p1 with mipMaps := p1.mipMaps ++ c.mips.map (decompressDXT sq p1.format) }
  rw [h3]
  refine ⟨_, rfl, ?_, ?_, ?_, ?_⟩
  · show p1.mipMaps ++ c.mips.map (decompressDXT sq p1.format) = _
    rw [hm]; rfl
  · show (p1.mipMaps ++ c.mips.map (decompressDXT sq p1.format)).length = _
    rw [hm]; simp [PAA.ofBytes]
  · show p1.taggs = _
    rw [ht]; rfl
  · show formatOfMagic c.magic = some p1.format
    rw [hfm]; exact hformat

/-- The content `dxt1Start` is well-formed. -/
theorem dxt1Start_wellFormed : dxt1Start.WellFormed := by
  unfold PAAContent.WellFormed Tagg.WellFormed MipMap.Stored
  decide

/-- C11 at the file that continues `dxt1Start` with a record of width word `8002`:
`readPAA` throws at that record and the object holds the one mipmap before it. -/
theorem readPAA_lzo_flagged_witness :
    ∃ p1, readPAA noSquish 5
        (PAA.ofBytes (dxt1Start.encodeThen (leBytes 2 0x8002 ++
          [2, 0, 8, 0, 0, 0, 0, 0, 0, 0, 0, 0, 0, 0, 0, 0, 0, 0, 0])) []) =
        Outcome.threw PAAError.lzoUnavailable p1 ∧
      p1.mipMaps = dxt1Start.mips.map (decompressDXT noSquish p1.format) ∧
      p1.mipMaps.length = dxt1Start.mips.length ∧
      p1.taggs = dxt1Start.taggs ∧ formatOfMagic dxt1Start.magic = some p1.format :=
  readPAA_lzo_flagged noSquish dxt1Start 0x8002 5 _ [] dxt1Start_wellFormed (by decide)
    (by decide) (by decide)

/-- Along a chain, a property of the head that each link carries over holds of every
element. -/
theorem chain_forall {α : Type} (R : α → α → Prop) (P : α → Prop)
    (step : ∀ x y, R x y → P x → P y) (l : List α) (a : α) (hc : List.Chain R a l)
    (ha : P a) : ∀ x ∈ a :: l, P x := by
  intro x hx
  obtain ⟨i, hi⟩ := List.mem_iff_getElem?.mp hx
  exact (chain_getElem R P step l a hc ha i x hi).1

/-- The sizes of the halved copy of a mipmap whose sizes fit 16 bits. -/
theorem HalvedFrom.sizes (a b : MipMap) (h : HalvedFrom a b) (hw : a.width < 2 ^ 16)
    (hh : a.height < 2 ^ 16) :
    b.width = a.width / 2 ∧ b.height = a.height / 2 ∧ 4 < a.width ∧ 4 < a.height := by
  obtain ⟨hmin, hb⟩ := h
  subst hb
  refine ⟨?_, ?_, by omega, by omega⟩
  · simp only [halved]; exact Nat.mod_eq_of_lt (by omega)
  · simp only [halved]; exact Nat.mod_eq_of_lt (by omega)

/-- Half of a power of two above 4 is a power of two that is at least 4. -/
theorem half_pow_two (n : Nat) (h : ∃ a, n = 2 ^ a) (h4 : 4 < n) :
    (∃ a, n / 2 = 2 ^ a) ∧ 4 ≤ n / 2 := by
  obtain ⟨a, rfl⟩ := h
  have ha : 3 ≤ a := by
    by_contra hlt
    have h2 : a ≤ 2 := by omega
    have := Nat.pow_le_pow_right (n := 2) (by decide) h2
    omega
  obtain ⟨j, rfl⟩ : ∃ j, a = j + 1 := ⟨a - 1, by omega⟩
  have hj : 2 ^ (j + 1) / 2 = 2 ^ j := by
    rw [pow_succ]; exact Nat.mul_div_cancel _ (by decide)
  rw [hj]
  refine ⟨⟨j, rfl⟩, ?_⟩
  have := Nat.pow_le_pow_right (n := 2) (by decide) (show 2 ≤ j by omega)
  omega

/-- C17, as the code has it: for every top mipmap with `min w h ≥ 4` (sizes below `2 ^ 16`)
`calculateMipmapsAndTaggs` returns a pyramid in which every mipmap has a smaller side of
at least 2, the last one has a smaller side of at most 4, and, when both sizes of the top
are powers of two, every mipmap has a smaller side of at least 4. -/
theorem calculate_levels_min (p : PAA) (top : MipMap) (rest : List MipMap)
    (hp : p.mipMaps = top :: rest) (hw2 : top.width < 2 ^ 16) (hh2 : top.height < 2 ^ 16)
    (hmin : 4 ≤ min top.width top.height) :
    ∃ p1, calculateMipmapsAndTaggs p = Outcome.ok p1 ∧
      (∀ m ∈ p1.mipMaps, 2 ≤ min m.width m.height) ∧
      (∀ m, p1.mipMaps.getLast? = some m → min m.width m.height ≤ 4) ∧
      ((∃ a b, top.width = 2 ^ a ∧ top.height = 2 ^ b) →
        ∀ m ∈ p1.mipMaps, 4 ≤ min m.width m.height) := by
  obtain ⟨more, p1, hok, hm, -, hchain, hlast, -⟩ :=
    calculate_pyramid p top rest hp (by omega) hw2 (by omega) hh2
  refine ⟨p1, hok, ?_, ?_, ?_⟩
  · intro m hmem
    rw [hm] at hmem
    have := chain_forall HalvedFrom
      (fun m => m.width < 2 ^ 16 ∧ m.height < 2 ^ 16 ∧ 2 ≤ min m.width m.height)
      (fun x y hxy hx => by
        obtain ⟨h1, h2, h3, h4⟩ := HalvedFrom.sizes x y hxy hx.1 hx.2.1
        have := hx.1
        have := hx.2.1
        refine ⟨by omega, by omega, ?_⟩
        rw [h1, h2]
        omega)
      more top hchain ⟨hw2, hh2, by omega⟩ m hmem
    exact this.2.2
  · intro m hmlast
    rw [hm] at hmlast
    exact hlast m hmlast
  · rintro ⟨a, b, ha, hb⟩ m hmem
    rw [hm] at hmem
    have := chain_forall HalvedFrom
      (fun m => m.width < 2 ^ 16 ∧ m.height < 2 ^ 16 ∧ (∃ a, m.width = 2 ^ a) ∧
        (∃ b, m.height = 2 ^ b) ∧ 4 ≤ min m.width m.height)
      (fun x y hxy hx => by
        obtain ⟨h1, h2, h3, h4⟩ := HalvedFrom.sizes x y hxy hx.1 hx.2.1
        obtain ⟨e1, e2⟩ := half_pow_two x.width hx.2.2.1 h3
        obtain ⟨e3, e4⟩ := half_pow_two x.height hx.2.2.2.1 h4
        have := hx.1
        have := hx.2.1
        refine ⟨by omega, by omega, ?_, ?_, ?_⟩
        · rw [h1]; exact e1
        · rw [h2]; exact e3
        · rw [h1, h2]; omega)
      more top hchain ⟨hw2, hh2, ⟨a, ha⟩, ⟨b, hb⟩, hmin⟩ m hmem
    exact this.2.2.2.2

/-- C17 at the 5 by 5 grey mipmap: the pyramid is returned, every level has a smaller side
of at least 2 and the last one of at most 4. -/
theorem calculate_levels_min_witness :
    ∃ p1, calculateMipmapsAndTaggs grey5Single = Outcome.ok p1 ∧
      (∀ m ∈ p1.mipMaps, 2 ≤ min m.width m.height) ∧
      (∀ m, p1.mipMaps.getLast? = some m → min m.width m.height ≤ 4) ∧
      ((∃ a b, grey5Top.width = 2 ^ a ∧ grey5Top.height = 2 ^ b) →
        ∀ m ∈ p1.mipMaps, 4 ≤ min m.width m.height) :=
  calculate_levels_min grey5Single grey5Top [] rfl (by decide) (by decide) (by decide)

set_option maxRecDepth 100000 in
/-- C17 fails at the 5 by 5 grey mipmap: the smaller side of the top is at least 4, the
pyramid that `calculateMipmapsAndTaggs` builds has the levels 5 by 5 and 2 by 2, and the
last one has a smaller side below 4. -/
theorem calculate_grey5_last_below_four :
    4 ≤ min grey5Top.width grey5Top.height ∧
    ∃ p1, calculateMipmapsAndTaggs grey5Single = Outcome.ok p1 ∧
      p1.mipMaps.map (fun m => (m.width, m.height)) = [(5, 5), (2, 2)] ∧
      ∃ m, p1.mipMaps.getLast? = some m ∧ min m.width m.height < 4 :=
  ⟨by decide, _, rfl, by decide, _, rfl, by decide⟩

set_option maxRecDepth 100000 in
/-- The state of a fresh object after `loadImage` of the 5 by 5 grey image. -/
theorem loadImage_grey5 : loadImage grey5 PAA.new = Outcome.ok grey5Loaded := by decide

/-- C18: for every top mipmap `M0` of `w` by `h` pixels (`w, h ≥ 1`) that is an
uncompressed RGBA mipmap (16-bit sizes, `4 * w * h` bytes, a 32-bit `dataLength` equal to
that), `calculateMipmapsAndTaggs` returns a pyramid whose level 0 is `M0` unchanged and in
which every level `b` that follows a level `a` has width `a.width / 2`, height
`a.height / 2`, `4 * b.width * b.height` bytes of data (and that `dataLength`), and at
every pixel `(x, y)` and channel `c` the value `(p1 + p2 + p3 + p4) / 4` of the bytes of
channel `c` at the pixels `(2x, 2y)`, `(2x+1, 2y)`, `(2x, 2y+1)`, `(2x+1, 2y+1)` of
level `a`, all four indices lying inside the data of level `a`. -/
theorem calculate_downsamples (p : PAA) (top : MipMap) (rest : List MipMap)
    (hp : p.mipMaps = top :: rest) (htop : top.Rgba)
    (hw : 1 ≤ top.width) (hh : 1 ≤ top.height) :
    ∃ p1, calculateMipmapsAndTaggs p = Outcome.ok p1 ∧
      p1.mipMaps[0]? = some top ∧
      ∀ i a b, p1.mipMaps[i]? = some a → p1.mipMaps[i + 1]? = some b →
        b.width = a.width / 2 ∧ b.height = a.height / 2 ∧
        b.data.length = 4 * b.width * b.height ∧ b.dataLength = b.data.length ∧
        ∀ x y c, x < b.width → y < b.height → c < 4 →
          ((2 * y + 1) * a.width + 2 * x + 1) * 4 + c < a.data.length ∧
          (2 * y * a.width + 2 * x) * 4 + c < a.data.length ∧
          b.data.getD ((y * b.width + x) * 4 + c) 0 =
            (a.data.getD ((2 * y * a.width + 2 * x) * 4 + c) 0 +
             a.data.getD ((2 * y * a.width + 2 * x + 1) * 4 + c) 0 +
             a.data.getD (((2 * y + 1) * a.width + 2 * x) * 4 + c) 0 +
             a.data.getD (((2 * y + 1) * a.width + 2 * x + 1) * 4 + c) 0) / 4 := by
  obtain ⟨more, p1, hok, hm, -, hchain, -⟩ :=
    calculate_pyramid p top rest hp hw htop.1 hh htop.2.1
  refine ⟨p1, hok, by rw [hm]; simp, ?_⟩
  intro i a b hia hib
  rw [hm] at hia hib
  obtain ⟨ha, hnext⟩ := chain_getElem HalvedFrom MipMap.Rgba
    (fun x y hxy hx => (HalvedFrom.rgba x y hxy hx).1) more top hchain htop i a hia
  have hab := hnext b hib
  obtain ⟨hb, hbw, hbh⟩ := HalvedFrom.rgba a b hab ha
  refine ⟨hbw, hbh, hb.2.2.1, hb.2.2.2.1, ?_⟩
  intro x y c hx hy hc
  rw [hbw] at hx
  rw [hbh] at hy
  obtain ⟨-, -, halen, hadl, hadl2, habytes, -⟩ := ha
  have i4 := pixel_index_lt (2 * y + 1) (2 * x + 1) c a.width a.height (by omega) (by omega)
    hc
  have i1 := pixel_index_lt (2 * y) (2 * x) c a.width a.height (by omega) (by omega) hc
  refine ⟨by rw [halen]; omega, by rw [halen]; omega, ?_⟩
  have hdata : b.data = downsample a.data a.width (a.width / 2) (a.height / 2) := by
    rw [hab.2]; rfl
  rw [hdata, hbw]
  exact getD_downsample a.data a.width a.height x y c habytes (by omega) hx hy hc

/-- The 5 by 5 grey mipmap is an uncompressed RGBA mipmap. -/
theorem grey5Top_rgba : grey5Top.Rgba := by
  unfold MipMap.Rgba
  decide

/-- C18 at the 5 by 5 grey mipmap, whose width and height are odd. -/
theorem calculate_downsamples_witness :
    ∃ p1, calculateMipmapsAndTaggs grey5Single = Outcome.ok p1 ∧
      p1.mipMaps[0]? = some grey5Top ∧
      ∀ i a b, p1.mipMaps[i]? = some a → p1.mipMaps[i + 1]? = some b →
        b.width = a.width / 2 ∧ b.height = a.height / 2 ∧
        b.data.length = 4 * b.width * b.height ∧ b.dataLength = b.data.length ∧
        ∀ x y c, x < b.width → y < b.height → c < 4 →
          ((2 * y + 1) * a.width + 2 * x + 1) * 4 + c < a.data.length ∧
          (2 * y * a.width + 2 * x) * 4 + c < a.data.length ∧
          b.data.getD ((y * b.width + x) * 4 + c) 0 =
            (a.data.getD ((2 * y * a.width + 2 * x) * 4 + c) 0 +
             a.data.getD ((2 * y * a.width + 2 * x + 1) * 4 + c) 0 +
             a.data.getD (((2 * y + 1) * a.width + 2 * x) * 4 + c) 0 +
             a.data.getD (((2 * y + 1) * a.width + 2 * x + 1) * 4 + c) 0) / 4 :=
  calculate_downsamples grey5Single grey5Top [] rfl grey5Top_rgba (by decide) (by decide)

/-- C19 fails at the 5 by 5 grey image, whatever libsquish writes: the pyramid after
`loadImage` has the levels 5 by 5 (100 bytes) and 2 by 2 (16 bytes); `compressDXT1` gives
them buffers of 12 and 2 bytes where 4 blocks and 1 block of 8 bytes need 32 and 8, and
`compressDXT5` gives them buffers of 25 and 4 bytes where the blocks of 16 bytes need 64
and 16. -/
theorem compress_grey5_buffers :
    ∃ p1, loadImage grey5 PAA.new = Outcome.ok p1 ∧
      p1.mipMaps.map (fun m => (m.width, m.height, m.dataLength, m.data.length)) =
        [(5, 5, 100, 100), (2, 2, 16, 16)] ∧
      ∀ sq : Squish,
        p1.mipMaps.map (fun m => ((compressDXT1 sq m).data.length,
          8 * blocks m.width m.height)) = [(12, 32), (2, 8)] ∧
        p1.mipMaps.map (fun m => ((compressDXT5 sq m).data.length,
          16 * blocks m.width m.height)) = [(25, 64), (4, 16)] := by
  refine ⟨grey5Loaded, loadImage_grey5, by decide, fun sq => ?_⟩
  simp only [grey5Loaded, grey5Top, List.map, compressDXT1, compressDXT5, length_filled]
  decide

/-- C15, as the code has it: for every state with at least two mipmaps, or with one mipmap
of sizes between 1 and 65535, and every target format, `writePAA` returns (when the output
file can be opened) and the mipmap list after the call is the list before the call
followed by the levels that the regeneration appended: the mipmaps of before the call are
unchanged and uncompressed, and no level is appended exactly when the state had at least
two mipmaps or the smaller side of its only mipmap is at most 4. -/
theorem writePAA_mipMaps (sq : Squish) (p : PAA) (targetFormat : PAAFormat)
    (top : MipMap) (rest : List MipMap) (hp : p.mipMaps = top :: rest)
    (h : rest ≠ [] ∨ (1 ≤ top.width ∧ top.width < 2 ^ 16 ∧ 1 ≤ top.height ∧
      top.height < 2 ^ 16)) :
    ∃ p1 f more, writePAA sq true p targetFormat = WriteOutcome.ok p1 f ∧
      p1.mipMaps = p.mipMaps ++ more ∧
      (more = [] ↔ (rest ≠ [] ∨ min top.width top.height ≤ 4)) ∧
      (rest = [] → List.Chain HalvedFrom top more) := by
  obtain ⟨pd, more, hwr, hm, hnil, hcase⟩ := writePAA_eq sq true p targetFormat top rest hp h
  obtain ⟨p1, f, hok, hm1, -⟩ := writeEncoded_ok sq pd targetFormat
  refine ⟨p1, f, more, by rw [hwr, hok], by rw [hm1, hm], hnil, ?_⟩
  intro hr
  subst hr
  rcases hcase with ⟨hne, -⟩ | ⟨-, hcalc⟩
  · exact absurd rfl hne
  · have hd : 1 ≤ top.width ∧ top.width < 2 ^ 16 ∧ 1 ≤ top.height ∧ top.height < 2 ^ 16 := by
      rcases h with h | h
      · exact absurd rfl h
      · exact h
    obtain ⟨more2, p2, hok2, hm2, -, hchain, -⟩ :=
      calculate_pyramid p top [] hp hd.1 hd.2.1 hd.2.2.1 hd.2.2.2
    rw [hok2] at hcalc
    injection hcalc with hpd
    subst hpd
    rw [hm2, hp] at hm
    have : more2 = more := by simpa using hm
    rw [← this]
    exact hchain

/-- C15 at the state whose only mipmap is the 5 by 5 grey one. -/
theorem writePAA_mipMaps_witness :
    ∃ p1 f more, writePAA noSquish true grey5Single PAAFormat.DXT1 = WriteOutcome.ok p1 f ∧
      p1.mipMaps = grey5Single.mipMaps ++ more ∧
      (more = [] ↔ (([] : List MipMap) ≠ [] ∨ min grey5Top.width grey5Top.height ≤ 4)) ∧
      (([] : List MipMap) = [] → List.Chain HalvedFrom grey5Top more) :=
  writePAA_mipMaps noSquish grey5Single PAAFormat.DXT1 grey5Top [] rfl
    (Or.inr (by decide))

set_option maxRecDepth 100000 in
/-- The state after `calculateMipmapsAndTaggs` on the fresh object that holds the 8 by 8
grey mipmap only. -/
theorem calculate_grey8Single :
    calculateMipmapsAndTaggs grey8Single = Outcome.ok grey8Loaded := by decide

/-- C15 fails at the state whose only mipmap is the 8 by 8 grey one, whatever libsquish
writes: before `writePAA` the mipmap list has one level, after it the list has two, the
8 by 8 mipmap and a generated one of 4 by 4 pixels. -/
theorem writePAA_grey8Single_grows :
    grey8Single.mipMaps.length = 1 ∧
    ∀ sq : Squish, ∃ p1 f, writePAA sq true grey8Single PAAFormat.DXT1 = WriteOutcome.ok p1 f ∧
      p1.mipMaps.length = 2 ∧ p1.mipMaps ≠ grey8Single.mipMaps ∧
      p1.mipMaps.map (fun m => (m.width, m.height, m.dataLength)) =
        [(8, 8, 256), (4, 4, 64)] := by
  refine ⟨rfl, fun sq => ?_⟩
  obtain ⟨p1, f, hok, hm, -⟩ := writeEncoded_ok sq grey8Loaded PAAFormat.DXT1
  refine ⟨p1, f, ?_, ?_, ?_, ?_⟩
  · unfold writePAA
    rw [if_pos (by decide), calculate_grey8Single]
    exact hok
  · rw [hm]; rfl
  · rw [hm]
    intro h
    exact absurd (congrArg List.length h) (by decide)
  · rw [hm]; rfl

/-- C16: whenever `writePAA` returns, there is a state `pd` on which the format was
decided (the object itself when it had at least two mipmaps, the object after
`calculateMipmapsAndTaggs` otherwise), the object keeps the transparency flag of `pd`,
and: for target format unknown the format is DXT5 and the magic word written is `05 FF`
when `pd.hasTransparency` is true, DXT1 and `01 FF` when it is false; for target DXT1
the magic word written is `01 FF` and for target DXT5 it is `05 FF`, whatever the flag. -/
theorem writePAA_format_choice (sq : Squish) (sinkOpens : Bool) (p p2 : PAA)
    (targetFormat : PAAFormat) (f : PAAFile)
    (h : writePAA sq sinkOpens p targetFormat = WriteOutcome.ok p2 f) :
    ∃ pd, (if p.mipMaps.length ≤ 1 then calculateMipmapsAndTaggs p = Outcome.ok pd
        else pd = p) ∧
      p2.hasTransparency = pd.hasTransparency ∧
      (targetFormat = PAAFormat.UNKNOWN → pd.hasTransparency = true →
        p2.format = PAAFormat.DXT5 ∧ p2.magicNumber = 0xFF05 ∧ f.magicNumber = [0x05, 0xFF]) ∧
      (targetFormat = PAAFormat.UNKNOWN → pd.hasTransparency = false →
        p2.format = PAAFormat.DXT1 ∧ p2.magicNumber = 0xFF01 ∧ f.magicNumber = [0x01, 0xFF]) ∧
      (targetFormat = PAAFormat.DXT1 →
        p2.format = PAAFormat.DXT1 ∧ p2.magicNumber = 0xFF01 ∧ f.magicNumber = [0x01, 0xFF]) ∧
      (targetFormat = PAAFormat.DXT5 →
        p2.format = PAAFormat.DXT5 ∧ p2.magicNumber = 0xFF05 ∧ f.magicNumber = [0x05, 0xFF]) := by
  have key : ∀ pd, writeEncoded sq sinkOpens pd targetFormat = WriteOutcome.ok p2 f →
      p2.hasTransparency = pd.hasTransparency ∧
      (targetFormat = PAAFormat.UNKNOWN → pd.hasTransparency = true →
        p2.format = PAAFormat.DXT5 ∧ p2.magicNumber = 0xFF05 ∧ f.magicNumber = [0x05, 0xFF]) ∧
      (targetFormat = PAAFormat.UNKNOWN → pd.hasTransparency = false →
        p2.format = PAAFormat.DXT1 ∧ p2.magicNumber = 0xFF01 ∧ f.magicNumber = [0x01, 0xFF]) ∧
      (targetFormat = PAAFormat.DXT1 →
        p2.format = PAAFormat.DXT1 ∧ p2.magicNumber = 0xFF01 ∧ f.magicNumber = [0x01, 0xFF]) ∧
      (targetFormat = PAAFormat.DXT5 →
        p2.format = PAAFormat.DXT5 ∧ p2.magicNumber = 0xFF05 ∧
          f.magicNumber = [0x05, 0xFF]) := by
    intro pd hpd
    cases sinkOpens with
    | false => simp [writeEncoded] at hpd
    | true =>
      obtain ⟨p1, f1, hok, -, -, htr, hfmt, hmagic, hfm, -⟩ := writeEncoded_ok sq pd targetFormat
      rw [hok] at hpd
      injection hpd with e1 e2
      subst e1 e2
      have b5 : writeBytes 2 0xFF05 = [0x05, 0xFF] := by decide
      have b1 : writeBytes 2 0xFF01 = [0x01, 0xFF] := by decide
      refine ⟨htr, ?_, ?_, ?_, ?_⟩
      · intro ht hx
        have e : p1.format = PAAFormat.DXT5 := by rw [hfmt, if_pos ht, if_pos hx]
        have m : p1.magicNumber = 0xFF05 := by rw [hmagic, if_pos e]
        exact ⟨e, m, by rw [hfm, m, b5]⟩
      · intro ht hx
        have e : p1.format = PAAFormat.DXT1 := by
          rw [hfmt, if_pos ht, if_neg (by rw [hx]; decide)]
        have m : p1.magicNumber = 0xFF01 := by
          rw [hmagic, if_neg (by rw [e]; decide), if_pos e]
        exact ⟨e, m, by rw [hfm, m, b1]⟩
      · intro ht
        have e : p1.format = PAAFormat.DXT1 := by
          rw [hfmt, if_neg (by rw [ht]; decide), ht]
        have m : p1.magicNumber = 0xFF01 := by
          rw [hmagic, if_neg (by rw [e]; decide), if_pos e]
        exact ⟨e, m, by rw [hfm, m, b1]⟩
      · intro ht
        have e : p1.format = PAAFormat.DXT5 := by
          rw [hfmt, if_neg (by rw [ht]; decide), ht]
        have m : p1.magicNumber = 0xFF05 := by rw [hmagic, if_pos e]
        exact ⟨e, m, by rw [hfm, m, b5]⟩
  unfold writePAA at h
  by_cases hlen : p.mipMaps.length ≤ 1
  · rw [if_pos hlen] at h
    cases hc : calculateMipmapsAndTaggs p with
    | ok pd =>
      rw [hc] at h
      exact ⟨pd, by rw [if_pos hlen], key pd h⟩
    | threw e q => rw [hc] at h; simp at h
    | loops => rw [hc] at h; simp at h
  · rw [if_neg hlen] at h
    exact ⟨p, by rw [if_neg hlen], key p h⟩

/-- C16 at the 5 by 5 grey image after `loadImage`, written with format unknown: the
object has no transparency, the format chosen is DXT1 and the magic word written is
`01 FF`. -/
theorem writePAA_format_choice_witness :
    ∃ p2 f, writePAA noSquish true grey5Loaded PAAFormat.UNKNOWN = WriteOutcome.ok p2 f ∧
      p2.hasTransparency = false ∧ p2.format = PAAFormat.DXT1 ∧ p2.magicNumber = 0xFF01 ∧
      f.magicNumber = [0x01, 0xFF] := by
  obtain ⟨p2, f, hok, -⟩ := writeEncoded_ok noSquish grey5Loaded PAAFormat.UNKNOWN
  have hw : writePAA noSquish true grey5Loaded PAAFormat.UNKNOWN = WriteOutcome.ok p2 f := by
    unfold writePAA
    rw [if_neg (by decide)]
    exact hok
  obtain ⟨pd, hpd, htr, -, hdxt1, -⟩ :=
    writePAA_format_choice noSquish true grey5Loaded p2 PAAFormat.UNKNOWN f hw
  rw [if_neg (by decide)] at hpd
  subst hpd
  exact ⟨p2, f, hw, htr, hdxt1 rfl rfl⟩

/-- What the conversion of `main.cpp` does for an image whose sizes are nonzero modulo
`2 ^ 16`, when the output file can be opened: it returns; the pyramid is the top mipmap
that `loadImage` built, with the sizes of the image reduced modulo `2 ^ 16`, followed by
levels that are each the halved copy of the one before; and the mipmaps written are the
levels of the pyramid, compressed for DXT5 and DXT1. -/
theorem convert_ok (sq : Squish) (img : ImageData) (format : PAAFormat)
    (hw : 1 ≤ img.width % 2 ^ 16) (hh : 1 ≤ img.height % 2 ^ 16) :
    ∃ p1 f more, convert sq true img format = WriteOutcome.ok p1 f ∧
      p1.mipMaps = loadedTop img :: more ∧
      List.Chain HalvedFrom (loadedTop img) more ∧
      (format = PAAFormat.DXT1 → f.mips = (p1.mipMaps.map (compressDXT1 sq)).map writeMip) ∧
      (format = PAAFormat.DXT5 → f.mips = (p1.mipMaps.map (compressDXT5 sq)).map writeMip) ∧
      f.mips.map (fun m => (m.width, m.height)) =
        p1.mipMaps.map (fun l => (writeBytes 2 l.width, writeBytes 2 l.height)) := by
  have hw2 : img.width % 2 ^ 16 < 2 ^ 16 := Nat.mod_lt _ (by decide)
  have hh2 : img.height % 2 ^ 16 < 2 ^ 16 := Nat.mod_lt _ (by decide)
  obtain ⟨more, pL, hokL, hmL, -, hchainL, -⟩ := calculate_pyramid
    { PAA.new with mipMaps := [loadedTop img] }
    (loadedTop img) [] rfl hw hw2 hh hh2
  obtain ⟨pd, more2, hwr, hmd, -, hcase⟩ := writePAA_eq sq true pL format _ more hmL
    (Or.inr ⟨hw, hw2, hh, hh2⟩)
  obtain ⟨p1, f, hok, hm1, -, -, hfmt, -, -, hmips⟩ := writeEncoded_ok sq pd format
  have hconv : convert sq true img format = WriteOutcome.ok p1 f := by
    have hload : loadImage img PAA.new = Outcome.ok pL := hokL
    unfold convert
    rw [hload]
    simp only
    rw [hwr, hok]
  have hpyr : ∃ more3, pd.mipMaps = loadedTop img :: more3 ∧
      List.Chain HalvedFrom (loadedTop img) more3 := by
    rcases hcase with ⟨-, hpd⟩ | ⟨-, hcalc⟩
    · rw [hpd]
      exact ⟨more, hmL, hchainL⟩
    · obtain ⟨more3, p3, hok3, hm3, -, hchain3, -⟩ :=
        calculate_pyramid pL _ more hmL hw hw2 hh hh2
      rw [hok3] at hcalc
      injection hcalc with hpd
      rw [← hpd]
      exact ⟨more3, hm3, hchain3⟩
  obtain ⟨more3, hm3, hchain3⟩ := hpyr
  have hlzo : ∀ l ∈ pd.mipMaps, l.lzoCompressed = false := by
    intro l hl
    rw [hm3] at hl
    exact chain_forall HalvedFrom (fun m => m.lzoCompressed = false)
      (fun x y hxy _ => by rw [hxy.2]; rfl) more3 (loadedTop img) hchain3 rfl l hl
  refine ⟨p1, f, more3, hconv, by rw [hm1, hm3], hchain3, ?_, ?_, ?_⟩
  · intro hf
    rw [hmips, hm1, hfmt, hf]
    simp
  · intro hf
    rw [hmips, hm1, hfmt, hf]
    simp
  · rw [hmips, hm1]
    have hwm : ∀ l : MipMap, l.lzoCompressed = false →
        (writeMip l).width = writeBytes 2 l.width := by
      intro l hl
      simp [writeMip, hl]
    split
    · simp only [List.map_map]
      apply List.map_congr_left
      intro l hl
      have := hwm (compressDXT5 sq l) (hlzo l hl)
      simp only [Function.comp, this]
      rfl
    · split
      · simp only [List.map_map]
        apply List.map_congr_left
        intro l hl
        have := hwm (compressDXT1 sq l) (hlzo l hl)
        simp only [Function.comp, this]
        rfl
      · simp only [List.map_map]
        apply List.map_congr_left
        intro l hl
        have := hwm l (hlzo l hl)
        simp only [Function.comp, this]
        rfl

/-- C12, as the code has it: `loadImage` followed by `writePAA` checks no size; for every
image whose width and height are nonzero modulo `2 ^ 16` the conversion returns (when the
output file can be opened), the top mipmap is stored with the width and height of the
image reduced modulo `2 ^ 16`, and the first mipmap written carries these reduced sizes. -/
theorem convert_reduces_sizes (sq : Squish) (img : ImageData) (format : PAAFormat)
    (hw : 1 ≤ img.width % 2 ^ 16) (hh : 1 ≤ img.height % 2 ^ 16) :
    ∃ p1 f top rest m ms, convert sq true img format = WriteOutcome.ok p1 f ∧
      p1.mipMaps = top :: rest ∧ top.width = img.width % 2 ^ 16 ∧
      top.height = img.height % 2 ^ 16 ∧ top.data = img.data ∧
      f.mips = m :: ms ∧ m.width = writeBytes 2 (img.width % 2 ^ 16) ∧
      m.height = writeBytes 2 (img.height % 2 ^ 16) := by
  obtain ⟨p1, f, more, hok, hm, -, -, -, hsz⟩ := convert_ok sq img format hw hh
  rw [hm] at hsz
  cases hf : f.mips with
  | nil => rw [hf] at hsz; simp at hsz
  | cons m ms =>
    rw [hf] at hsz
    simp only [List.map_cons, List.cons.injEq, Prod.mk.injEq] at hsz
    exact ⟨p1, f, loadedTop img, more, m, ms, hok, hm, rfl, rfl, rfl, hf, hsz.1.1, hsz.1.2⟩

/-- C12 at the white image of 70000 by 10 pixels. -/
theorem convert_reduces_sizes_witness :
    ∃ p1 f top rest m ms, convert noSquish true wide PAAFormat.DXT5 = WriteOutcome.ok p1 f ∧
      p1.mipMaps = top :: rest ∧ top.width = wide.width % 2 ^ 16 ∧
      top.height = wide.height % 2 ^ 16 ∧ top.data = wide.data ∧
      f.mips = m :: ms ∧ m.width = writeBytes 2 (wide.width % 2 ^ 16) ∧
      m.height = writeBytes 2 (wide.height % 2 ^ 16) :=
  convert_reduces_sizes noSquish wide PAAFormat.DXT5 (by decide) (by decide)

/-- C12 fails at the white image of 70000 by 10 pixels, whatever libsquish writes: the
width does not fit 16 bits, the conversion to DXT1 returns, the top mipmap is stored with
the width 4464 (70000 modulo 65536) and the height 10, and the first mipmap is written
with the width bytes `70 11` and the height bytes `0A 00`. -/
theorem convert_wide_truncated :
    2 ^ 16 ≤ wide.width ∧
    ∀ sq : Squish, ∃ p1 f top rest m ms,
      convert sq true wide PAAFormat.DXT1 = WriteOutcome.ok p1 f ∧
      p1.mipMaps = top :: rest ∧ top.width = 4464 ∧ top.height = 10 ∧
      f.mips = m :: ms ∧ m.width = [0x70, 0x11] ∧ m.height = [0x0A, 0x00] := by
  refine ⟨by decide, fun sq => ?_⟩
  obtain ⟨p1, f, more, hok, hm, -, -, -, hsz⟩ :=
    convert_ok sq wide PAAFormat.DXT1 (by decide) (by decide)
  rw [hm] at hsz
  cases hf : f.mips with
  | nil => rw [hf] at hsz; simp at hsz
  | cons m ms =>
    rw [hf] at hsz
    simp only [List.map_cons, List.cons.injEq, Prod.mk.injEq] at hsz
    refine ⟨p1, f, loadedTop wide, more, m, ms, hok, hm, by decide, by decide, hf, ?_, ?_⟩
    · rw [hsz.1.1]; decide
    · rw [hsz.1.2]; decide

/-- Decoding the three bytes that `writeBytesAsArmaUShort` writes for `v` gives `v` modulo
`2 ^ 24`. -/
theorem leValue_armaUShort (v : Nat) : leValue (writeBytesAsArmaUShort v) = v % 2 ^ 24 := by
  have h1 : ∀ n : Nat, n &&& 0xFF = n % 256 := fun n =>
    Nat.and_pow_two_sub_one_eq_mod n 8
  simp only [writeBytesAsArmaUShort, leValue, h1, Nat.shiftRight_eq_div_pow]
  omega

/-- The levels of the pyramid that the conversion builds from an image of at most 4096 by
4096 pixels with `4 * w * h` bytes: each level is no larger than the image and holds
`4 * width * height` bytes, which is its `dataLength`. -/
theorem convert_levels (sq : Squish) (img : ImageData) (format : PAAFormat)
    (hw1 : 1 ≤ img.width) (hw : img.width ≤ 4096) (hh1 : 1 ≤ img.height)
    (hh : img.height ≤ 4096) (hlen : img.data.length = 4 * img.width * img.height) :
    ∃ p1 f, convert sq true img format = WriteOutcome.ok p1 f ∧
      (format = PAAFormat.DXT1 → f.mips = (p1.mipMaps.map (compressDXT1 sq)).map writeMip) ∧
      (format = PAAFormat.DXT5 → f.mips = (p1.mipMaps.map (compressDXT5 sq)).map writeMip) ∧
      ∀ l ∈ p1.mipMaps, l.width * l.height ≤ img.width * img.height ∧
        l.dataLength = 4 * (l.width * l.height) ∧ l.data.length = l.dataLength := by
  have ew : img.width % 2 ^ 16 = img.width := Nat.mod_eq_of_lt (by omega)
  have eh : img.height % 2 ^ 16 = img.height := Nat.mod_eq_of_lt (by omega)
  have hwh : img.width * img.height ≤ 4096 * 4096 := Nat.mul_le_mul hw hh
  obtain ⟨p1, f, more, hok, hm, hchain, h1, h5, -⟩ :=
    convert_ok sq img format (by omega) (by omega)
  refine ⟨p1, f, hok, h1, h5, ?_⟩
  intro l hl
  rw [hm] at hl
  have := chain_forall HalvedFrom
    (fun l => l.width ≤ img.width ∧ l.height ≤ img.height ∧
      l.dataLength = 4 * (l.width * l.height) ∧ l.data.length = l.dataLength)
    (fun x y hxy hx => by
      obtain ⟨x1, x2, x3, x4⟩ := hx
      obtain ⟨s1, s2, -, -⟩ := HalvedFrom.sizes x y hxy (by omega) (by omega)
      have hdata : y.data.length = x.height / 2 * (x.width / 2 * 4) := by
        rw [hxy.2]
        exact length_downsample _ _ _ _
      have hdl : y.dataLength = y.data.length % 2 ^ 32 := by
        rw [hxy.2]
        rfl
      have hl : y.data.length = 4 * (y.width * y.height) := by
        rw [hdata, s1, s2]
        ring
      have hb : y.width * y.height ≤ 4096 * 4096 := by
        rw [s1, s2]
        exact Nat.mul_le_mul (by omega) (by omega)
      have hd : y.dataLength = y.data.length := by
        rw [hdl]
        exact Nat.mod_eq_of_lt (by rw [hl]; omega)
      exact ⟨by omega, by omega, by rw [hd, hl], hd.symm⟩)
    more (loadedTop img) hchain
    ⟨by show img.width % 2 ^ 16 ≤ _; omega, by show img.height % 2 ^ 16 ≤ _; omega,
      by show img.data.length % 2 ^ 32 = 4 * (img.width % 2 ^ 16 * (img.height % 2 ^ 16))
         rw [ew, eh, hlen, Nat.mod_eq_of_lt (by rw [Nat.mul_assoc]; omega), Nat.mul_assoc],
      by show img.data.length = img.data.length % 2 ^ 32
         rw [hlen, Nat.mod_eq_of_lt (by rw [Nat.mul_assoc]; omega)]⟩ l hl
  exact ⟨Nat.mul_le_mul this.1 this.2.1, this.2.2.1, this.2.2.2⟩

/-- C13, as the code has it: for every image with `4 ≤ w, h ≤ 4096` and `4 * w * h`
bytes, converted to DXT1, or to DXT5 when `w * h < 2 ^ 24` (every size but 4096 by 4096),
the conversion returns (it raises no dimension error) and for every mipmap written the
3-byte little-endian `dataLength` field decodes to the number of payload bytes written
after it, which is below `2 ^ 24`. -/
theorem convert_length_fields (sq : Squish) (img : ImageData) (format : PAAFormat)
    (hw4 : 4 ≤ img.width) (hw : img.width ≤ 4096) (hh4 : 4 ≤ img.height)
    (hh : img.height ≤ 4096) (hlen : img.data.length = 4 * img.width * img.height)
    (hfmt : format = PAAFormat.DXT1 ∨
      (format = PAAFormat.DXT5 ∧ img.width * img.height < 2 ^ 24)) :
    ∃ p1 f, convert sq true img format = WriteOutcome.ok p1 f ∧
      f.mips.length = p1.mipMaps.length ∧
      ∀ m ∈ f.mips, leValue m.dataLength = m.data.length ∧ m.data.length < 2 ^ 24 := by
  have hwh : img.width * img.height ≤ 4096 * 4096 := Nat.mul_le_mul hw hh
  obtain ⟨p1, f, hok, h1, h5, hl⟩ :=
    convert_levels sq img format (by omega) hw (by omega) hh hlen
  rcases hfmt with hf | ⟨hf, hlt⟩
  · have hmips := h1 hf
    refine ⟨p1, f, hok, by rw [hmips]; simp, ?_⟩
    intro m hm
    rw [hmips] at hm
    simp only [List.map_map, List.mem_map] at hm
    obtain ⟨l, hlmem, rfl⟩ := hm
    obtain ⟨a1, a2, a3⟩ := hl l hlmem
    have e1 : (writeMip (compressDXT1 sq l)).data.length = l.dataLength / 8 :=
      length_filled _ _
    have e2 : (writeMip (compressDXT1 sq l)).dataLength =
        writeBytesAsArmaUShort (l.dataLength / 8) := rfl
    simp only [Function.comp]
    rw [e1, e2, leValue_armaUShort]
    have : l.dataLength / 8 < 2 ^ 24 := by omega
    exact ⟨Nat.mod_eq_of_lt this, this⟩
  · have hmips := h5 hf
    refine ⟨p1, f, hok, by rw [hmips]; simp, ?_⟩
    intro m hm
    rw [hmips] at hm
    simp only [List.map_map, List.mem_map] at hm
    obtain ⟨l, hlmem, rfl⟩ := hm
    obtain ⟨a1, a2, a3⟩ := hl l hlmem
    have e1 : (writeMip (compressDXT5 sq l)).data.length = l.dataLength / 4 :=
      length_filled _ _
    have e2 : (writeMip (compressDXT5 sq l)).dataLength =
        writeBytesAsArmaUShort (l.dataLength / 4) := rfl
    simp only [Function.comp]
    rw [e1, e2, leValue_armaUShort]
    have : l.dataLength / 4 < 2 ^ 24 := by omega
    exact ⟨Nat.mod_eq_of_lt this, this⟩

/-- C13 at the 8 by 8 grey image converted to DXT5. -/
theorem convert_length_fields_witness :
    ∃ p1 f, convert noSquish true grey8 PAAFormat.DXT5 = WriteOutcome.ok p1 f ∧
      f.mips.length = p1.mipMaps.length ∧
      ∀ m ∈ f.mips, leValue m.dataLength = m.data.length ∧ m.data.length < 2 ^ 24 :=
  convert_length_fields noSquish grey8 PAAFormat.DXT5 (by decide) (by decide) (by decide)
    (by decide) (uniformImage_length 8 8 [128, 128, 128, 255])
    (Or.inr ⟨rfl, by decide⟩)

/-- The first mipmap that the conversion to DXT5 writes for an image of `2 ^ 26` bytes
whose sizes are nonzero modulo `2 ^ 16`: the `dataLength` field is `00 00 00` and the
payload has `2 ^ 24` bytes. -/
theorem convert_dxt5_wraps (sq : Squish) (img : ImageData)
    (hw : 1 ≤ img.width % 2 ^ 16) (hh : 1 ≤ img.height % 2 ^ 16)
    (hlen : img.data.length = 67108864) :
    ∃ p1 f m ms, convert sq true img PAAFormat.DXT5 = WriteOutcome.ok p1 f ∧
      f.mips = m :: ms ∧ m.dataLength = [0, 0, 0] ∧ leValue m.dataLength = 0 ∧
      m.data.length = 16777216 := by
  obtain ⟨p1, f, more, hok, hm, -, -, h5, -⟩ := convert_ok sq img PAAFormat.DXT5 hw hh
  have hmips := h5 rfl
  rw [hm] at hmips
  have hdl : (loadedTop img).dataLength = 67108864 := by
    show img.data.length % 2 ^ 32 = 67108864
    rw [hlen]
    norm_num
  have e1 : (writeMip (compressDXT5 sq (loadedTop img))).data.length = 16777216 := by
    have : (writeMip (compressDXT5 sq (loadedTop img))).data.length =
        (loadedTop img).dataLength / 4 := length_filled _ _
    rw [this, hdl]
  have e2 : (writeMip (compressDXT5 sq (loadedTop img))).dataLength = [0, 0, 0] := by
    have : (writeMip (compressDXT5 sq (loadedTop img))).dataLength =
        writeBytesAsArmaUShort ((loadedTop img).dataLength / 4) := rfl
    rw [this, hdl]
    decide
  exact ⟨p1, f, _, _, hok, hmips, e2, by rw [e2]; rfl, e1⟩

/-- C13 fails at the white image of 4096 by 4096 pixels converted to DXT5, whatever
libsquish writes: the conversion returns, the first mipmap is written with the
`dataLength` field `00 00 00`, which decodes to 0, and is followed by a payload of
`2 ^ 24` bytes. -/
theorem convert_white4096_length_field :
    (4 ≤ white4096.width ∧ white4096.width ≤ 4096 ∧ 4 ≤ white4096.height ∧
      white4096.height ≤ 4096) ∧
    ∀ sq : Squish, ∃ p1 f m ms,
      convert sq true white4096 PAAFormat.DXT5 = WriteOutcome.ok p1 f ∧
      f.mips = m :: ms ∧ m.dataLength = [0, 0, 0] ∧ leValue m.dataLength = 0 ∧
      m.data.length = 16777216 :=
  ⟨by decide, fun sq => convert_dxt5_wraps sq white4096 (by decide) (by decide)
    (by rw [white4096, uniformImage_length]; rfl)⟩

/-- The mipmap that `decompressDXT1` builds keeps width and height and holds 8 bytes for
each stored byte, whatever the width and height are. -/
theorem decompressDXT1_length (sq : Squish) (m : MipMap) (h : m.dataLength < 2 ^ 24) :
    (decompressDXT1 sq m).width = m.width ∧ (decompressDXT1 sq m).height = m.height ∧
    (decompressDXT1 sq m).data.length = 8 * m.dataLength ∧
    (decompressDXT1 sq m).dataLength = 8 * m.dataLength := by
  have e : m.dataLength * 8 % 2 ^ 32 = 8 * m.dataLength := by
    rw [Nat.mod_eq_of_lt (by omega), Nat.mul_comm]
  refine ⟨rfl, rfl, ?_, ?_⟩
  · simp only [decompressDXT1, length_filled, e]
  · simp only [decompressDXT1, e]

/-- The mipmap that `decompressDXT5` builds keeps width and height and holds 4 bytes for
each stored byte, whatever the width and height are. -/
theorem decompressDXT5_length (sq : Squish) (m : MipMap) (h : m.dataLength < 2 ^ 24) :
    (decompressDXT5 sq m).width = m.width ∧ (decompressDXT5 sq m).height = m.height ∧
    (decompressDXT5 sq m).data.length = 4 * m.dataLength ∧
    (decompressDXT5 sq m).dataLength = 4 * m.dataLength := by
  have e : m.dataLength * 4 % 2 ^ 32 = 4 * m.dataLength := by
    rw [Nat.mod_eq_of_lt (by omega), Nat.mul_comm]
  refine ⟨rfl, rfl, ?_, ?_⟩
  · simp only [decompressDXT5, length_filled, e]
  · simp only [decompressDXT5, e]

/-- What `readPAA` returns on a freshly constructed object bound to the bytes of a
well-formed DXT1 or DXT5 file: each parsed mipmap has the stored width and height and
`k` bytes of data for each stored byte, `k = 8` for DXT1 and `k = 4` for DXT5. -/
theorem readPAA_dxt (sq : Squish) (c : PAAContent) (hc : c.WellFormed) (junk : List Nat)
    (fuel : Nat) (hfmt : c.magic = 0xFF01 ∨ c.magic = 0xFF05) :
    ∃ p, readPAA sq (c.taggs.length + 1 + (c.mips.length + 1 + fuel))
        (PAA.ofBytes c.encode junk) = Outcome.ok p ∧
      p.mipMaps.length = c.mips.length ∧
      ∀ (i : Nat) (m : MipMap), c.mips[i]? = some m → ∃ d : MipMap, p.mipMaps[i]? = some d ∧
        d.width = m.width ∧ d.height = m.height ∧
        d.data.length = (if c.magic = 0xFF01 then 8 else 4) * m.dataLength ∧
        d.dataLength = d.data.length := by
  obtain ⟨p, hok, -, hm, hf, -⟩ := readPAA_wellFormed sq c hc junk fuel
  refine ⟨p, hok, by rw [hm]; simp, ?_⟩
  intro i m him
  have hst : m.Stored := hc.2.2.2.2 m (List.mem_iff_getElem?.mpr ⟨i, him⟩)
  refine ⟨decompressDXT sq p.format m, by rw [hm]; simp [him], ?_⟩
  rcases hfmt with h1 | h5
  · rw [h1] at hf
    have hp : p.format = PAAFormat.DXT1 := by
      have : formatOfMagic 0xFF01 = some PAAFormat.DXT1 := by decide
      rw [this] at hf
      injection hf with hf
      exact hf.symm
    obtain ⟨a, b, c1, d⟩ := decompressDXT1_length sq m hst.2.2.2.2.1
    rw [hp, h1]
    simp only [decompressDXT, if_true]
    exact ⟨a, b, c1, by rw [d, c1]⟩
  · rw [h5] at hf
    have hp : p.format = PAAFormat.DXT5 := by
      have : formatOfMagic 0xFF05 = some PAAFormat.DXT5 := by decide
      rw [this] at hf
      injection hf with hf
      exact hf.symm
    obtain ⟨a, b, c1, d⟩ := decompressDXT5_length sq m hst.2.2.2.2.1
    rw [hp, h5]
    have hne : ¬ PAAFormat.DXT5 = PAAFormat.DXT1 := by decide
    simp only [decompressDXT, if_neg hne, if_true]
    exact ⟨a, b, by rw [c1]; rfl, by rw [d, c1]⟩

/-- C14, as the code has it: for every well-formed DXT1 or DXT5 file `readPAA` returns,
and every parsed mipmap has the stored width and height and a data buffer (and
`dataLength`) of 8 times the stored `dataLength` for DXT1 and 4 times for DXT5; so it
holds `4 * width * height` bytes exactly when the stored `dataLength` is
`width * height / 2` for DXT1 and `width * height` for DXT5, with no rounding. -/
theorem readPAA_dxt_lengths (sq : Squish) (c : PAAContent) (hc : c.WellFormed)
    (junk : List Nat) (fuel : Nat) (hfmt : c.magic = 0xFF01 ∨ c.magic = 0xFF05) :
    ∃ p, readPAA sq (c.taggs.length + 1 + (c.mips.length + 1 + fuel))
        (PAA.ofBytes c.encode junk) = Outcome.ok p ∧
      p.mipMaps.length = c.mips.length ∧
      ∀ (i : Nat) (m : MipMap), c.mips[i]? = some m → ∃ d : MipMap, p.mipMaps[i]? = some d ∧
        d.width = m.width ∧ d.height = m.height ∧
        d.data.length = (if c.magic = 0xFF01 then 8 else 4) * m.dataLength ∧
        d.dataLength = d.data.length ∧
        (d.data.length = 4 * d.width * d.height ↔
          (if c.magic = 0xFF01 then 2 else 1) * m.dataLength = m.width * m.height) := by
  obtain ⟨p, hok, hlen, h⟩ := readPAA_dxt sq c hc junk fuel hfmt
  refine ⟨p, hok, hlen, ?_⟩
  intro i m him
  obtain ⟨d, hd, hw, hh, hl, hdl⟩ := h i m him
  refine ⟨d, hd, hw, hh, hl, hdl, ?_⟩
  rw [hl, hw, hh, Nat.mul_assoc 4]
  generalize m.width * m.height = n
  split <;> omega

/-- The content `dxt1Odd` is well-formed. -/
theorem dxt1Odd_wellFormed : dxt1Odd.WellFormed := by
  unfold PAAContent.WellFormed Tagg.WellFormed MipMap.Stored
  decide

/-- C14 at the DXT1 file `dxt1Start`, with one mipmap of 4 by 4 pixels stored in 8
bytes. -/
theorem readPAA_dxt_lengths_witness :
    ∃ p, readPAA noSquish (dxt1Start.taggs.length + 1 + (dxt1Start.mips.length + 1 + 0))
        (PAA.ofBytes dxt1Start.encode []) = Outcome.ok p ∧
      p.mipMaps.length = dxt1Start.mips.length ∧
      ∀ (i : Nat) (m : MipMap), dxt1Start.mips[i]? = some m → ∃ d : MipMap, p.mipMaps[i]? = some d ∧
        d.width = m.width ∧ d.height = m.height ∧
        d.data.length = (if dxt1Start.magic = 0xFF01 then 8 else 4) * m.dataLength ∧
        d.dataLength = d.data.length ∧
        (d.data.length = 4 * d.width * d.height ↔
          (if dxt1Start.magic = 0xFF01 then 2 else 1) * m.dataLength = m.width * m.height) :=
  readPAA_dxt_lengths noSquish dxt1Start dxt1Start_wellFormed [] 0 (Or.inl rfl)

/-- C14 fails at the DXT1 file `dxt1Odd`, whatever libsquish writes: `readPAA` returns,
the mipmap of 5 by 5 pixels is parsed with 256 bytes of data where `4 * 5 * 5` is 100,
and the mipmap of 2 by 2 pixels with 64 bytes where `4 * 2 * 2` is 16. -/
theorem readPAA_dxt1Odd_lengths :
    dxt1Odd.WellFormed ∧
    ∀ sq : Squish, ∃ p, readPAA sq 4 (PAA.ofBytes dxt1Odd.encode []) = Outcome.ok p ∧
      p.mipMaps.map (fun m => (m.width, m.height, m.dataLength, m.data.length,
        4 * m.width * m.height)) = [(5, 5, 256, 256, 100), (2, 2, 64, 64, 16)] := by
  refine ⟨dxt1Odd_wellFormed, fun sq => ?_⟩
  obtain ⟨p, hok, hlen, h⟩ := readPAA_dxt sq dxt1Odd dxt1Odd_wellFormed [] 0 (Or.inl rfl)
  refine ⟨p, hok, ?_⟩
  obtain ⟨d0, hd0, w0, h0, l0, dl0⟩ := h 0 _ rfl
  obtain ⟨d1, hd1, w1, h1, l1, dl1⟩ := h 1 _ rfl
  have hlen2 : p.mipMaps.length = 2 := hlen
  match hp : p.mipMaps, hlen2 with
  | [a, b], _ =>
    rw [hp] at hd0 hd1
    simp only [List.getElem?_cons_zero, List.getElem?_cons_succ, Option.some.injEq]
      at hd0 hd1
    subst hd0 hd1
    simp only [List.map_cons, List.map_nil, w0, h0, l0, dl0, w1, h1, l1, dl1]
    rfl

end arma3
